import Mathlib

/-!
A verification development for the `ds` task runner.

This file gives a shallow embedding, in Lean, of the core of the `ds`
developer task runner: the argument interpolator (`src/ds/env.py`), the
temporary-environment scope (`TempEnv` in `src/ds/env.py`), the task data
model and cycle checker (`src/ds/tasks.py`, which delegates to the standard
library `graphlib.TopologicalSorter`), the glob-based name matcher
(`src/ds/searchers.py`), and the override-resolving runner
(`src/ds/runner.py`).

Python-level conventions used throughout the embedding:
* Python `str` is modelled as `String` / `List Char`;
* Python `dict` (insertion ordered, unique keys) is modelled as an
  association list with unique keys, with `pyDictSet` preserving the
  position of an existing key exactly as CPython does;
* machine integers do not occur: Python's `int` is modelled as `Int`
  (exit codes) or `Nat` (indices), with Python's negative-index list
  semantics made explicit where the source relies on them;
* `IO` boundaries (the file system, spawning a shell) are modelled as
  oracle parameters;
* raised exceptions are modelled with `Except`; `sys.exit` and fuel
  exhaustion of the recursive runner are separate `Halt` outcomes.
-/

/-! ## Python dictionaries as ordered association lists -/

/-- Lookup in a Python `dict` modelled as an association list. -/
def pyDictGet (d : List (String × String)) (k : String) : Option String :=
  match d with
  | [] => none
  | (k2, v) :: rest => if k2 = k then some v else pyDictGet rest k

/-- `d[k] = v` on a Python `dict`: an existing key keeps its position and
gets the new value; a new key is appended at the end. -/
def pyDictSet (d : List (String × String)) (k v : String) : List (String × String) :=
  match d with
  | [] => [(k, v)]
  | (k2, v2) :: rest =>
    if k2 = k then (k2, v) :: rest else (k2, v2) :: pyDictSet rest k v

/-- `del d[k]` on a Python `dict`; removing a missing key is the identity
(the call sites in the source always guard with `if key in ENV`). -/
def pyDictDel (d : List (String × String)) (k : String) : List (String × String) :=
  match d with
  | [] => []
  | (k2, v2) :: rest => if k2 = k then rest else (k2, v2) :: pyDictDel rest k

/-- `{**a, **b}`: start from `a` and set every entry of `b` in order, so a
key present in both keeps the position it has in `a` but takes the value
from `b`. -/
def pyDictMerge (a b : List (String × String)) : List (String × String) :=
  b.foldl (fun acc kv => pyDictSet acc kv.1 kv.2) a

/-- Python `dict` equality: order-insensitive comparison of key/value sets
(both sides are key-unique at every call site). -/
def pyDictEq (a b : List (String × String)) : Bool :=
  a.all (fun kv => pyDictGet b kv.1 == some kv.2)
    && b.all (fun kv => pyDictGet a kv.1 == some kv.2)

/-! ## Python string helpers -/

/-- The whitespace characters stripped by Python's `str.strip()` family. -/
def pyIsSpace (c : Char) : Bool :=
  c == ' ' || c == '\t' || c == '\n' || c == '\x0d' || c == '\x0b' || c == '\x0c'

/-- `str.rstrip()` on a character list. -/
def pyRstripChars (s : List Char) : List Char :=
  (s.reverse.dropWhile pyIsSpace).reverse

/-- `str.strip()` on a character list. -/
def pyStripChars (s : List Char) : List Char :=
  pyRstripChars (s.dropWhile pyIsSpace)

/-- `str.rstrip()`. -/
def pyRstrip (s : String) : String := String.mk (pyRstripChars s.data)

/-- `str.strip()`. -/
def pyStrip (s : String) : String := String.mk (pyStripChars s.data)

/-- One fuel-indexed step of Python's `str.replace`: scan left to right,
replacing non-overlapping occurrences of `pat` by `rep`.  The fuel is
initialised to the length of the subject, which every step decreases by at
least the number of characters it consumes, so it never runs out. -/
def pyReplaceChars : Nat → List Char → List Char → List Char → List Char
  | 0, s, _, _ => s
  | _ + 1, [], _, _ => []
  | f + 1, c :: rest, pat, rep =>
    if pat.isPrefixOf (c :: rest) && !pat.isEmpty then
      rep ++ pyReplaceChars f ((c :: rest).drop pat.length) pat rep
    else
      c :: pyReplaceChars f rest pat rep

/-- Python `cmd.replace(pat, rep)`. -/
def pyReplace (s pat rep : String) : String :=
  String.mk (pyReplaceChars s.data.length s.data pat.data rep.data)

/-- `" ".join(l)`. -/
def joinSpace (l : List String) : String := String.intercalate " " l

/-! ## The argument-interpolation grammar of `src/ds/env.py`

`RE_ARGS = re.compile(r"(?:\$(@|\d+)|\$\x7b(@|\d+)(?::-(.*?))?\x7d)")` is
embedded as an explicit scanner.  Every match starts with `$`, so
`re.sub`'s left-to-right scan is: at each `$`, attempt the two alternants
in order (`$@` / `$N` first, then the braced form); on failure emit the
`$` literally and resume one character later. -/

/-- A parsed `RE_ARGS` match: `$@`/`$\x7b@\x7d`/`$\x7b@:-d\x7d` (rest) or
`$N`/`$\x7bN\x7d`/`$\x7bN:-d\x7d` (positional), with the optional default
text of the braced form. -/
inductive Ph where
  | rest (default : Option (List Char))
  | pos (n : Nat) (default : Option (List Char))
deriving Repr, DecidableEq

/-- Numeric value of a digit string (`int(arg)` on a `\d+` match). -/
def digitsToNat (l : List Char) : Nat :=
  l.foldl (fun a c => a * 10 + (c.toNat - 48)) 0

/-- The lazy `(.*?)\x7d` tail of a braced default: the shortest prefix up
to the first closing brace; `.` does not match a newline, and a missing
closing brace fails the whole alternant. -/
def takeDefault : List Char → Option (List Char × List Char)
  | [] => none
  | c :: rest =>
    if c = '\x7d' then some ([], rest)
    else if c = '\n' then none
    else match takeDefault rest with
      | some (d, r) => some (c :: d, r)
      | none => none

/-- After the `@`/`\d+` inside a braced placeholder: either an immediate
closing brace (no default) or a literal `:-` followed by the lazy default. -/
def parseAfterKind (mk : Option (List Char) → Ph) : List Char → Option (Ph × List Char)
  | [] => none
  | c :: rest =>
    if c = '\x7d' then some (mk none, rest)
    else if c = ':' then
      match rest with
      | [] => none
      | c2 :: rest2 =>
        if c2 = '-' then
          match takeDefault rest2 with
          | some (d, r) => some (mk (some d), r)
          | none => none
        else none
    else none

/-- The braced alternant, applied to the text after `$\x7b`. -/
def parseBraced : List Char → Option (Ph × List Char)
  | [] => none
  | c :: rest =>
    if c = '@' then parseAfterKind Ph.rest rest
    else if c.isDigit then
      let ds := (c :: rest).takeWhile Char.isDigit
      let r := (c :: rest).dropWhile Char.isDigit
      parseAfterKind (Ph.pos (digitsToNat ds)) r
    else none

/-- Attempt an `RE_ARGS` match at the text following a `$`. -/
def parsePh : List Char → Option (Ph × List Char)
  | [] => none
  | c :: rest =>
    if c = '@' then some (Ph.rest none, rest)
    else if c.isDigit then
      some (Ph.pos (digitsToNat ((c :: rest).takeWhile Char.isDigit)) none,
        (c :: rest).dropWhile Char.isDigit)
    else if c = '\x7b' then parseBraced rest
    else none

theorem dropWhile_length_le (p : Char → Bool) (l : List Char) :
    (l.dropWhile p).length ≤ l.length := by
  induction l with
  | nil => simp
  | cons c rest ih =>
    simp only [List.dropWhile]
    split
    · exact Nat.le_succ_of_le ih
    · simp

theorem takeDefault_length {s : List Char} {d r : List Char}
    (h : takeDefault s = some (d, r)) : r.length < s.length := by
  induction s generalizing d r with
  | nil => simp [takeDefault] at h
  | cons c rest ih =>
    simp only [takeDefault] at h
    split at h
    · simp only [Option.some.injEq, Prod.mk.injEq] at h
      simp [← h.2]
    · split at h
      · exact absurd h (by simp)
      · cases h2 : takeDefault rest with
        | none => rw [h2] at h; exact absurd h (by simp)
        | some q =>
          rw [h2] at h
          obtain ⟨d2, r2⟩ := q
          simp only [Option.some.injEq, Prod.mk.injEq] at h
          have := ih (d := d2) (r := r2) h2
          rw [← h.2]
          simp only [List.length_cons]
          omega

theorem parseAfterKind_length {mk : Option (List Char) → Ph} {s : List Char}
    {p : Ph} {r : List Char} (h : parseAfterKind mk s = some (p, r)) :
    r.length < s.length := by
  cases s with
  | nil => simp [parseAfterKind] at h
  | cons c rest =>
    simp only [parseAfterKind] at h
    split at h
    · simp only [Option.some.injEq, Prod.mk.injEq] at h
      simp [← h.2]
    · split at h
      · cases rest with
        | nil => exact absurd h (by simp)
        | cons c2 rest2 =>
          simp only at h
          split at h
          · cases h2 : takeDefault rest2 with
            | none => rw [h2] at h; exact absurd h (by simp)
            | some q =>
              rw [h2] at h
              obtain ⟨d2, r2⟩ := q
              simp only [Option.some.injEq, Prod.mk.injEq] at h
              have := takeDefault_length h2
              rw [← h.2]
              simp only [List.length_cons]
              omega
          · exact absurd h (by simp)
      · exact absurd h (by simp)

theorem parseBraced_length {s : List Char} {p : Ph} {r : List Char}
    (h : parseBraced s = some (p, r)) : r.length < s.length := by
  cases s with
  | nil => simp [parseBraced] at h
  | cons c rest =>
    simp only [parseBraced] at h
    split at h
    · have := parseAfterKind_length h
      simp only [List.length_cons]
      omega
    · split at h
      · have h1 := parseAfterKind_length h
        have h2 := dropWhile_length_le Char.isDigit (c :: rest)
        omega
      · exact absurd h (by simp)

theorem parsePh_length {s : List Char} {p : Ph} {r : List Char}
    (h : parsePh s = some (p, r)) : r.length < s.length := by
  cases s with
  | nil => simp [parsePh] at h
  | cons c rest =>
    simp only [parsePh] at h
    split at h
    · simp only [Option.some.injEq, Prod.mk.injEq] at h
      simp [← h.2]
    · split at h
      · simp only [Option.some.injEq, Prod.mk.injEq] at h
        have h2 : ((c :: rest).dropWhile Char.isDigit).length < (c :: rest).length := by
          simp only [List.dropWhile]
          split
          · have := dropWhile_length_le Char.isDigit rest
            simp only [List.length_cons]
            omega
          · simp_all
        rw [← h.2]
        exact h2
      · split at h
        · have := parseBraced_length h
          simp only [List.length_cons]
          omega
        · exact absurd h (by simp)

/-- One token of a command string after `RE_ARGS` scanning: a literal
character or a placeholder match. -/
inductive Tok where
  | lit (c : Char)
  | ph (p : Ph)
deriving Repr, DecidableEq

/-- Fuel-indexed scanner step; each step consumes at least one character
and one unit of fuel, so fuel equal to the length of the text suffices
(`tokenizeFuel_irrel` below). -/
def tokenizeFuel : Nat → List Char → List Tok
  | 0, _ => []
  | f + 1, s =>
    match s with
    | [] => []
    | c :: rest =>
      if c = '$' then
        match parsePh rest with
        | some (p, r) => .ph p :: tokenizeFuel f r
        | none => .lit '$' :: tokenizeFuel f rest
      else
        .lit c :: tokenizeFuel f rest

/-- Scan a command, producing the literal characters and the left-to-right,
non-overlapping `RE_ARGS` matches (exactly the positions `re.sub` and
`re.search` consider). -/
def tokenize (s : List Char) : List Tok := tokenizeFuel s.length s

/-- Any fuel at least the length of the text gives the same scan. -/
theorem tokenizeFuel_irrel (f g : Nat) (s : List Char)
    (hf : s.length ≤ f) (hg : s.length ≤ g) :
    tokenizeFuel f s = tokenizeFuel g s := by
  induction f generalizing g s with
  | zero =>
    cases s with
    | nil => cases g <;> simp [tokenizeFuel]
    | cons c rest => simp at hf
  | succ f ih =>
    cases s with
    | nil => cases g <;> simp [tokenizeFuel]
    | cons c rest =>
      cases g with
      | zero => simp at hg
      | succ g =>
        simp only [List.length_cons] at hf hg
        simp only [tokenizeFuel]
        split
        · cases hp : parsePh rest with
          | some pr =>
            obtain ⟨p, r⟩ := pr
            have hlen := parsePh_length hp
            simp only
            rw [ih g r (by omega) (by omega)]
          | none =>
            simp only
            rw [ih g rest (by omega) (by omega)]
        · rw [ih g rest (by omega) (by omega)]

/-- Unfolding `tokenize` on a cons cell. -/
theorem tokenize_cons (c : Char) (rest : List Char) :
    tokenize (c :: rest) =
      (if c = '$' then
        match parsePh rest with
        | some (p, r) => .ph p :: tokenize r
        | none => .lit '$' :: tokenize rest
      else .lit c :: tokenize rest) := by
  simp only [tokenize, List.length_cons, tokenizeFuel]
  split
  · cases hp : parsePh rest with
    | some pr =>
      obtain ⟨p, r⟩ := pr
      have := parsePh_length hp
      simp only
      rw [tokenizeFuel_irrel rest.length r.length r (by omega) (by omega)]
    | none => rfl
  · rfl

/-- Whether a token is a placeholder match. -/
def Tok.isPh : Tok → Bool
  | .ph _ => true
  | .lit _ => false

/-- `not_done[idx] = None` with Python list-index semantics (`idx` may be
negative); an out-of-range index is a bare `IndexError`. -/
def pySetNone (nd : List (Option String)) (idx : Int) : Option (List (Option String)) :=
  if 0 ≤ idx ∧ idx < nd.length then some (nd.set idx.toNat none)
  else if -(nd.length : Int) ≤ idx ∧ idx < 0 then
    some (nd.set ((nd.length : Int) + idx).toNat none)
  else none

/-- `args[idx]` with Python list-index semantics. -/
def pyGetIdx (args : List String) (idx : Int) : Option String :=
  if 0 ≤ idx ∧ idx < args.length then args.get? idx.toNat
  else if -(args.length : Int) ≤ idx ∧ idx < 0 then
    args.get? ((args.length : Int) + idx).toNat
  else none

/-- The exceptions `interpolate_args` (and the shell-command splitter) can
raise: the explicit `IndexError("Not enough arguments provided: $n")`, a
bare `IndexError` from an out-of-range list access, and a `ValueError`
(unclosed quotation in `shlex.split`, or unpacking an empty split). -/
inductive PErr where
  | notEnoughArgs (n : Int)
  | indexOutOfRange
  | valueError
deriving Repr, DecidableEq

/-- The body of `_replace_arg` in `interpolate_args`: given the fixed
argument list and the mutable `not_done` pool, produce the replacement text
for one placeholder and the updated pool.

* `$@` (any form): `default = default or ""`; the replacement is the
  space-join of the arguments still in the pool, or the default when the
  pool is exhausted; the pool is unchanged.
* `$N` (any form): `idx = int(N) - 1`; if `idx >= len(args)` then either
  the default is substituted or the explicit "not enough arguments"
  `IndexError` is raised; otherwise `not_done[idx] = None` (Python index
  semantics: `$0` gives `idx = -1`, the *last* element, and a bare
  `IndexError` on an empty list) and `args[idx]` is the replacement. -/
def applyPh (args : List String) (p : Ph) (nd : List (Option String)) :
    Except PErr (List Char × List (Option String)) :=
  match p with
  | .rest d =>
    let dflt := d.getD []
    let unused := nd.filterMap id
    .ok (if unused.isEmpty then dflt else (joinSpace unused).data, nd)
  | .pos n d =>
    let idx : Int := (n : Int) - 1
    if idx ≥ (args.length : Int) then
      match d with
      | none => .error (.notEnoughArgs (idx + 1))
      | some dflt => .ok (dflt, nd)
    else
      match pySetNone nd idx, pyGetIdx args idx with
      | some nd2, some v => .ok (v.data, nd2)
      | _, _ => .error .indexOutOfRange

/-- `RE_ARGS.sub(_replace_arg, cmd)`: replace the matches left to right,
threading the `not_done` pool through `_replace_arg`; replacement text is
not re-scanned. -/
def renderToks (args : List String) :
    List Tok → List (Option String) → Except PErr (List Char)
  | [], _ => .ok []
  | .lit c :: toks, nd => do
    let rest ← renderToks args toks nd
    pure (c :: rest)
  | .ph p :: toks, nd => do
    let (repl, nd2) ← applyPh args p nd
    let rest ← renderToks args toks nd2
    pure (repl ++ rest)

/-- `interpolate_args(cmd, args)` from `src/ds/env.py`:

1. `not_done` starts as a copy of `args`;
2. the `pdm`-style markers are rewritten first:
   `cmd.replace("\x7bargs\x7d", "$\x7b@\x7d")` then
   `cmd.replace("\x7bargs:", "$\x7b@:-")`;
3. if `RE_ARGS.search` finds no match, ` $@` (`ARG_PREFIX + ARG_REST`) is
   appended;
4. `RE_ARGS.sub(_replace_arg, cmd)` substitutes the placeholders;
5. the result is right-stripped. -/
def interpolate_args (cmd : String) (args : List String) : Except PErr String :=
  let not_done : List (Option String) := args.map some
  let cmd1 := pyReplace cmd "\x7bargs\x7d" "$\x7b@\x7d"
  let cmd2 := pyReplace cmd1 "\x7bargs:" "$\x7b@:-"
  let cmd3 := if (tokenize cmd2.data).any Tok.isPh then cmd2 else cmd2 ++ " $@"
  match renderToks args (tokenize cmd3.data) not_done with
  | .ok chars => .ok (String.mk (pyRstripChars chars))
  | .error e => .error e

deriving instance DecidableEq for Except

example : interpolate_args "a b" ["c"] = .ok "a b c" := by decide
example : interpolate_args "a $1 c" ["b"] = .ok "a b c" := by decide
example : interpolate_args "a $1 $\x7b@\x7d $3 $@" ["b", "c", "d"] = .ok "a b c d d c" := by
  decide
example : interpolate_args "ls $1" [] = .error (.notEnoughArgs 1) := by decide
example : interpolate_args "ls $\x7b1:-foo\x7d" [] = .ok "ls foo" := by decide
example : interpolate_args "ls $\x7b1:-foo\x7d" ["bar"] = .ok "ls bar" := by decide
example : interpolate_args "ls $\x7b1:-foo\x7d" [""] = .ok "ls" := by decide
example :
    interpolate_args "echo '--before \x7bargs\x7d --after'" ["--something"] =
      .ok "echo '--before --something --after'" := by decide

/-! ## Shared facts about placeholder substitution -/

/-- Substituting an in-range positional `$N` (1-indexed) returns the N-th
argument and blanks slot `N-1` of the pool. -/
theorem applyPh_pos_ok (args : List String) (nd : List (Option String))
    (n : Nat) (d : Option (List Char)) (h1 : 1 ≤ n) (h2 : n ≤ args.length)
    (h3 : nd.length = args.length) :
    applyPh args (.pos n d) nd =
      .ok ((args.getD (n - 1) "").data, nd.set (n - 1) none) := by
  simp only [applyPh]
  have hlt : ¬((n : Int) - 1 ≥ (args.length : Int)) := by omega
  rw [if_neg hlt]
  have hset : pySetNone nd ((n : Int) - 1) = some (nd.set (n - 1) none) := by
    simp only [pySetNone]
    rw [if_pos (by omega)]
    congr 1
    congr 1
    omega
  have hget : pyGetIdx args ((n : Int) - 1) = args.get? (n - 1) := by
    simp only [pyGetIdx]
    rw [if_pos (by omega)]
    congr 1
    omega
  rw [hset, hget]
  have hsome : args.get? (n - 1) = some (args.getD (n - 1) "") := by
    have hix : n - 1 < args.length := by omega
    simp [List.getD_eq_getElem?_getD, List.get?_eq_getElem?, List.getElem?_eq_getElem hix]
  rw [hsome]

/-- Substituting `$@` joins the arguments still in the pool (or the default
when the pool is exhausted) and leaves the pool unchanged. -/
theorem applyPh_rest_eq (args : List String) (nd : List (Option String))
    (d : Option (List Char)) :
    applyPh args (.rest d) nd =
      .ok (if (nd.filterMap id).isEmpty then d.getD []
           else (joinSpace (nd.filterMap id)).data, nd) := rfl

/-- Substituting an out-of-range positional that carries a default returns
the default text and leaves the pool unchanged. -/
theorem applyPh_default_ok (args : List String) (nd : List (Option String))
    (n : Nat) (d : List Char) (h : args.length < n) :
    applyPh args (.pos n (some d)) nd = .ok (d, nd) := by
  simp only [applyPh]
  rw [if_pos (by omega)]

/-- Substituting an out-of-range positional with no default raises the
explicit "not enough arguments" error. -/
theorem applyPh_insufficient (args : List String) (nd : List (Option String))
    (n : Nat) (h : args.length < n) :
    applyPh args (.pos n none) nd = .error (.notEnoughArgs n) := by
  simp only [applyPh]
  rw [if_pos (by omega)]
  congr 1
  congr 1
  omega

/-- C4: `interpolate_args` substitutes placeholders left to right over a
shared pool: a specific positional `$N` removes the N-th argument from the
pool, each `$@`/`$\x7b@\x7d` expands to exactly the space-joined arguments
not yet consumed at its point of substitution, and in particular
`interpolate_args "a $1 $\x7b@\x7d $3 $@" ["b","c","d"] = "a b c d d c"`. -/
theorem C4_pool_semantics :
    (∀ (args : List String) (nd : List (Option String)) (n : Nat)
        (d : Option (List Char)),
      1 ≤ n → n ≤ args.length → nd.length = args.length →
      applyPh args (.pos n d) nd =
        .ok ((args.getD (n - 1) "").data, nd.set (n - 1) none))
    ∧ (∀ (args : List String) (nd : List (Option String)) (d : Option (List Char)),
      applyPh args (.rest d) nd =
        .ok (if (nd.filterMap id).isEmpty then d.getD []
             else (joinSpace (nd.filterMap id)).data, nd))
    ∧ interpolate_args "a $1 $\x7b@\x7d $3 $@" ["b", "c", "d"] = .ok "a b c d d c" :=
  ⟨applyPh_pos_ok, fun args nd d => applyPh_rest_eq args nd d, by decide⟩

/-- Witness for C4 at a concrete input: `$2` of `["x","y"]` substitutes
`"y"` and blanks the second pool slot. -/
theorem C4_pool_semantics_witness :
    applyPh ["x", "y"] (.pos 2 none) [some "x", some "y"] =
      .ok ("y".data, [some "x", none]) :=
  (C4_pool_semantics.1 ["x", "y"] [some "x", some "y"] 2 none
    (by decide) (by decide) (by decide)).trans (by decide)

/-! ## Substring occurrence and `str.replace` as identity -/

/-- Whether `pat` occurs as a contiguous substring of `s`. -/
def containsSub (s pat : List Char) : Bool :=
  s.tails.any (fun t => pat.isPrefixOf t)

theorem pyReplaceChars_id (f : Nat) (s pat rep : List Char)
    (h : containsSub s pat = false) : pyReplaceChars f s pat rep = s := by
  induction f generalizing s with
  | zero => rfl
  | succ f ih =>
    cases s with
    | nil => rfl
    | cons c rest =>
      simp only [containsSub, List.tails_cons, List.any_cons, Bool.or_eq_false_iff] at h
      simp only [pyReplaceChars]
      rw [if_neg, ih rest]
      · simp [containsSub, h.2]
      · simp [h.1]

theorem pyReplace_id (s pat rep : String) (h : containsSub s.data pat.data = false) :
    pyReplace s pat rep = s := by
  simp only [pyReplace, pyReplaceChars_id _ _ _ _ h]

/-! ## Appending ` $@` to a command with no placeholder match -/

theorem takeDefault_append_none (t sfx : List Char) (h1 : takeDefault t = none)
    (h2 : takeDefault sfx = none) : takeDefault (t ++ sfx) = none := by
  induction t with
  | nil => simpa using h2
  | cons c t2 ih =>
    rw [List.cons_append]
    simp only [takeDefault] at h1 ⊢
    split at h1
    · exact absurd h1 (by simp)
    · rename_i hbrace
      split at h1
      · rename_i hnl
        rw [if_neg hbrace, if_pos hnl]
      · rename_i hnl
        rw [if_neg hbrace, if_neg hnl]
        cases h3 : takeDefault t2 with
        | some q =>
          obtain ⟨d, r⟩ := q
          rw [h3] at h1
          simp at h1
        | none => rw [ih h3]

theorem parseAfterKind_append_none (mk : Option (List Char) → Ph) (t : List Char)
    (h : parseAfterKind mk t = none) :
    parseAfterKind mk (t ++ [' ', '$', '@']) = none := by
  cases t with
  | nil => rfl
  | cons c t2 =>
    rw [List.cons_append]
    simp only [parseAfterKind] at h ⊢
    split at h
    · exact absurd h (by simp)
    · rename_i hbrace
      split at h
      · rename_i hcolon
        rw [if_neg hbrace, if_pos hcolon]
        cases t2 with
        | nil => rfl
        | cons c2 t3 =>
          rw [List.cons_append]
          simp only at h ⊢
          split at h
          · rename_i hdash
            rw [if_pos hdash]
            cases h3 : takeDefault t3 with
            | some q =>
              obtain ⟨d, r⟩ := q
              rw [h3] at h
              simp at h
            | none => rw [takeDefault_append_none t3 [' ', '$', '@'] h3 (by decide)]
          · rename_i hdash
            rw [if_neg hdash]
      · rename_i hcolon
        rw [if_neg hbrace, if_neg hcolon]

/-- Whether `parseAfterKind` fails does not depend on the constructor it
would apply on success. -/
theorem parseAfterKind_none_mk (mk1 mk2 : Option (List Char) → Ph) (t : List Char)
    (h : parseAfterKind mk1 t = none) : parseAfterKind mk2 t = none := by
  cases t with
  | nil => rfl
  | cons c t2 =>
    simp only [parseAfterKind] at h ⊢
    split at h
    · exact absurd h (by simp)
    · rename_i hbrace
      rw [if_neg hbrace]
      split at h
      · rename_i hcolon
        rw [if_pos hcolon]
        cases t2 with
        | nil => rfl
        | cons c2 t3 =>
          simp only at h ⊢
          split at h
          · rename_i hdash
            rw [if_pos hdash]
            cases h3 : takeDefault t3 with
            | some q =>
              obtain ⟨d, r⟩ := q
              rw [h3] at h
              simp at h
            | none => rfl
          · rename_i hdash
            rw [if_neg hdash]
      · rename_i hcolon
        rw [if_neg hcolon]

theorem parseBraced_append_none (t : List Char) (h : parseBraced t = none) :
    parseBraced (t ++ [' ', '$', '@']) = none := by
  cases t with
  | nil => rfl
  | cons c t2 =>
    rw [List.cons_append]
    simp only [parseBraced] at h ⊢
    split at h
    · rename_i hat
      rw [if_pos hat]
      exact parseAfterKind_append_none _ _ h
    · rename_i hat
      rw [if_neg hat]
      split at h
      · rename_i hdig
        rw [if_pos hdig]
        have harg : (c :: (t2 ++ [' ', '$', '@'])) = ((c :: t2) ++ [' ', '$', '@']) := rfl
        rw [harg, List.dropWhile_append]
        split
        · rfl
        · exact parseAfterKind_none_mk _ _ _ (parseAfterKind_append_none _ _ h)
      · rename_i hdig
        rw [if_neg hdig]

theorem parsePh_append_none (t : List Char) (h : parsePh t = none) :
    parsePh (t ++ [' ', '$', '@']) = none := by
  cases t with
  | nil => rfl
  | cons c t2 =>
    rw [List.cons_append]
    simp only [parsePh] at h ⊢
    split at h
    · exact absurd h (by simp)
    · rename_i hat
      rw [if_neg hat]
      split at h
      · exact absurd h (by simp)
      · rename_i hdig
        rw [if_neg hdig]
        split at h
        · rename_i hbrace
          rw [if_pos hbrace]
          exact parseBraced_append_none _ h
        · rename_i hbrace
          rw [if_neg hbrace]

/-- A command in which `RE_ARGS.search` finds no match scans to its own
literal characters. -/
theorem tokenize_no_ph (s : List Char) (h : (tokenize s).any Tok.isPh = false) :
    tokenize s = s.map Tok.lit := by
  induction s with
  | nil => rfl
  | cons c rest ih =>
    rw [tokenize_cons] at h ⊢
    by_cases hc : c = '$'
    · rw [if_pos hc] at h ⊢
      cases hp : parsePh rest with
      | some pr =>
        obtain ⟨p, r⟩ := pr
        rw [hp] at h
        simp [Tok.isPh] at h
      | none =>
        rw [hp] at h
        simp only [List.any_cons, Tok.isPh, Bool.false_or] at h
        simp [List.map_cons, hc, ih h]
    · rw [if_neg hc] at h ⊢
      simp only [List.any_cons, Tok.isPh, Bool.false_or] at h
      simp [List.map_cons, ih h]

/-- Appending ` $@` to a command with no match appends exactly a literal
space and a `$@` placeholder to its scan. -/
theorem tokenize_append_rest (s : List Char)
    (h : (tokenize s).any Tok.isPh = false) :
    tokenize (s ++ [' ', '$', '@']) = s.map Tok.lit ++ [.lit ' ', .ph (.rest none)] := by
  induction s with
  | nil => rfl
  | cons c rest ih =>
    rw [tokenize_cons] at h
    rw [List.cons_append, tokenize_cons]
    by_cases hc : c = '$'
    · rw [if_pos hc] at h
      cases hp : parsePh rest with
      | some pr =>
        obtain ⟨p, r⟩ := pr
        rw [hp] at h
        simp [Tok.isPh] at h
      | none =>
        rw [hp] at h
        simp only [List.any_cons, Tok.isPh, Bool.false_or] at h
        rw [if_pos hc, parsePh_append_none rest hp]
        simp [List.map_cons, hc, ih h]
    · rw [if_neg hc] at h
      rw [if_neg hc]
      simp only [List.any_cons, Tok.isPh, Bool.false_or] at h
      simp [List.map_cons, ih h]

/-- Rendering a list of literal tokens followed by `toks` prepends the
literal characters to whatever `toks` renders. -/
theorem renderToks_lits_prefix (args : List String) (s : List Char)
    (toks : List Tok) (nd : List (Option String)) :
    renderToks args (s.map Tok.lit ++ toks) nd =
      (renderToks args toks nd).map (fun r => s ++ r) := by
  induction s with
  | nil =>
    simp only [List.map_nil, List.nil_append]
    cases renderToks args toks nd <;> simp [Except.map]
  | cons c s2 ih =>
    simp only [List.map_cons, List.cons_append, renderToks, List.append_eq]
    rw [ih]
    cases renderToks args toks nd <;> simp [Except.map]

theorem filterMap_id_map_some (args : List String) :
    (args.map some).filterMap id = args := by
  induction args with
  | nil => rfl
  | cons a rest ih => simp [List.filterMap_cons, ih]

/-- C8 (amended): for a command in which the placeholder scanner finds no
match *and* which does not contain the undocumented `pdm`-style markers
`\x7bargs\x7d` / `\x7bargs:`, `interpolate_args` returns the command with
the whole argument list appended: `rstrip (cmd ++ " " ++ " ".join(args))`. -/
theorem C8_no_placeholder_appends_args (cmd : String) (args : List String)
    (h1 : containsSub cmd.data "\x7bargs\x7d".data = false)
    (h2 : containsSub cmd.data "\x7bargs:".data = false)
    (h3 : (tokenize cmd.data).any Tok.isPh = false) :
    interpolate_args cmd args = .ok (pyRstrip (cmd ++ " " ++ joinSpace args)) := by
  have hrepl : (if args.isEmpty then ([] : List Char) else (joinSpace args).data) =
      (joinSpace args).data := by
    cases args with
    | nil => rfl
    | cons a rest => simp
  have hfinal : renderToks args [.lit ' ', .ph (.rest none)] (args.map some) =
      .ok (' ' :: (joinSpace args).data) := by
    simp only [renderToks, applyPh, filterMap_id_map_some, Option.getD, bind,
      Except.bind, pure, Except.pure, hrepl, List.append_nil]
  simp only [interpolate_args]
  rw [pyReplace_id _ _ _ h1, pyReplace_id _ _ _ h2, if_neg (by simp [h3])]
  have hdata : (cmd ++ " $@").data = cmd.data ++ [' ', '$', '@'] := by
    simp [String.data_append]
  rw [hdata, tokenize_append_rest cmd.data h3, renderToks_lits_prefix, hfinal]
  simp only [Except.map]
  have hcat : (cmd ++ " " ++ joinSpace args).data = cmd.data ++ ' ' :: (joinSpace args).data := by
    simp [String.data_append]
  simp only [pyRstrip, hcat]

/-- Counterexample for C8 as stated: `echo \x7bargs\x7d` contains no
placeholder of the documented grammar, yet the arguments are spliced where
the `pdm`-style marker stood instead of being appended at the end. -/
theorem C8_counterexample :
    interpolate_args "echo \x7bargs\x7d" ["x"] = .ok "echo x"
    ∧ (tokenize "echo \x7bargs\x7d".data).any Tok.isPh = false
    ∧ pyRstrip ("echo \x7bargs\x7d" ++ " " ++ joinSpace ["x"]) = "echo \x7bargs\x7d x"
    ∧ ("echo x" : String) ≠ "echo \x7bargs\x7d x" :=
  ⟨by decide, by decide, by decide, by decide⟩

/-- Witness for C8 (amended) at a concrete input. -/
theorem C8_no_placeholder_appends_args_witness :
    interpolate_args "git status" ["-s"] =
      .ok (pyRstrip ("git status" ++ " " ++ joinSpace ["-s"])) :=
  C8_no_placeholder_appends_args "git status" ["-s"] (by decide) (by decide) (by decide)

/-! ## When does `interpolate_args` raise the "not enough arguments" error? -/

/-- The placeholders among a token list, in scan order. -/
def phsOf (toks : List Tok) : List Ph :=
  toks.filterMap (fun t => match t with | .ph p => some p | .lit _ => none)

/-- The `pdm`-marker preprocessing `interpolate_args` applies before
scanning. -/
def preprocess (cmd : String) : String :=
  pyReplace (pyReplace cmd "\x7bargs\x7d" "$\x7b@\x7d") "\x7bargs:" "$\x7b@:-"

/-- The `RE_ARGS` matches of the (preprocessed) command, in scan order. -/
def interpolatePhs (cmd : String) : List Ph :=
  phsOf (tokenize (preprocess cmd).data)

/-- A positional placeholder whose 1-based index exceeds the number of
supplied arguments and which carries no default: exactly the condition
under which `_replace_arg` raises its explicit `IndexError`. -/
def phBad (args : List String) : Ph → Bool
  | .pos n none => decide (args.length < n)
  | _ => false

/-- The anomalous `$0` placeholder (outside the documented 1-indexed
grammar). -/
def phZero : Ph → Bool
  | .pos 0 _ => true
  | _ => false

/-- Whether a result is the explicit "not enough arguments" error. -/
def isNotEnough {α : Type} : Except PErr α → Bool
  | .error (.notEnoughArgs _) => true
  | _ => false

theorem isNotEnough_render_lit (args : List String) (c : Char) (toks : List Tok)
    (nd : List (Option String)) :
    isNotEnough (renderToks args (.lit c :: toks) nd) =
      isNotEnough (renderToks args toks nd) := by
  simp only [renderToks, bind, Except.bind]
  cases renderToks args toks nd <;> simp [isNotEnough, pure, Except.pure]

theorem isNotEnough_render_ph (args : List String) (p : Ph) (toks : List Tok)
    (nd nd2 : List (Option String)) (repl : List Char)
    (h : applyPh args p nd = .ok (repl, nd2)) :
    isNotEnough (renderToks args (.ph p :: toks) nd) =
      isNotEnough (renderToks args toks nd2) := by
  simp only [renderToks, h, bind, Except.bind]
  cases renderToks args toks nd2 <;> simp [isNotEnough, pure, Except.pure]

/-- Core of C7: over any token list whose placeholders avoid the anomalous
`$0`, rendering raises the explicit "not enough arguments" error exactly
when some positional placeholder exceeds the argument count with no
default. -/
theorem renderToks_notEnough_iff (args : List String) (toks : List Tok) :
    ∀ (nd : List (Option String)), nd.length = args.length →
      (phsOf toks).all (fun p => !phZero p) = true →
      (isNotEnough (renderToks args toks nd) = true ↔
        (phsOf toks).any (phBad args) = true) := by
  induction toks with
  | nil =>
    intro nd _ _
    simp [renderToks, phsOf, isNotEnough]
  | cons t toks ih =>
    intro nd hlen hz
    cases t with
    | lit c =>
      have hz2 : (phsOf toks).all (fun p => !phZero p) = true := by
        simpa [phsOf, List.filterMap_cons] using hz
      rw [isNotEnough_render_lit]
      have hphs : phsOf (.lit c :: toks) = phsOf toks := by
        simp [phsOf, List.filterMap_cons]
      rw [hphs]
      exact ih nd hlen hz2
    | ph p =>
      have hphs : phsOf (.ph p :: toks) = p :: phsOf toks := by
        simp [phsOf, List.filterMap_cons]
      rw [hphs] at hz
      simp only [List.all_cons, Bool.and_eq_true, Bool.not_eq_true'] at hz
      have hz2 : (phsOf toks).all (fun p => !phZero p) = true := by
        simp only [List.all_eq_true, Bool.not_eq_true']
        intro q hq
        have := List.all_eq_true.mp hz.2 q hq
        simpa using this
      have hzp : phZero p = false := hz.1
      rw [hphs]
      cases p with
      | rest d =>
        rw [isNotEnough_render_ph args _ toks nd nd _ (applyPh_rest_eq args nd d)]
        simp only [List.any_cons, phBad, Bool.false_or]
        exact ih nd hlen hz2
      | pos n d =>
        by_cases hbig : args.length < n
        · cases d with
          | none =>
            rw [show renderToks args (.ph (.pos n none) :: toks) nd =
                .error (.notEnoughArgs n) by
              simp [renderToks, applyPh_insufficient args nd n hbig, bind, Except.bind]]
            simp [isNotEnough, List.any_cons, phBad, hbig]
          | some dflt =>
            rw [isNotEnough_render_ph args _ toks nd nd dflt
              (applyPh_default_ok args nd n dflt hbig)]
            simp only [List.any_cons, phBad, Bool.false_or]
            exact ih nd hlen hz2
        · have hn1 : 1 ≤ n := by
            cases n with
            | zero => simp [phZero] at hzp
            | succ m => omega
          rw [isNotEnough_render_ph args _ toks nd (nd.set (n - 1) none) _
            (applyPh_pos_ok args nd n d hn1 (by omega) hlen)]
          have hlen2 : (nd.set (n - 1) none).length = args.length := by
            simp [hlen]
          have hbadp : phBad args (.pos n d) = false := by
            cases d with
            | none => simp only [phBad, decide_eq_false_iff_not]; omega
            | some q => rfl
          simp only [List.any_cons, hbadp, Bool.false_or]
          exact ih _ hlen2 hz2

theorem renderToks_space_rest (args : List String) :
    renderToks args [.lit ' ', .ph (.rest none)] (args.map some) =
      .ok (' ' :: (joinSpace args).data) := by
  have hrepl : (if args.isEmpty then ([] : List Char) else (joinSpace args).data) =
      (joinSpace args).data := by
    cases args with
    | nil => rfl
    | cons a rest => simp
  simp only [renderToks, applyPh, filterMap_id_map_some, Option.getD, bind,
    Except.bind, pure, Except.pure, hrepl, List.append_nil]

theorem phsOf_map_lit (s : List Char) : phsOf (s.map Tok.lit) = [] := by
  induction s with
  | nil => rfl
  | cons c rest ih =>
    simp only [List.map_cons, phsOf, List.filterMap_cons] at ih ⊢
    exact ih

theorem isNotEnough_match_rstrip (e : Except PErr (List Char)) :
    isNotEnough (match e with
      | .ok chars => (.ok (String.mk (pyRstripChars chars)) : Except PErr String)
      | .error er => .error er) = isNotEnough e := by
  cases e with
  | ok c => rfl
  | error er => cases er <;> rfl

/-- C7 (amended): for a command none of whose scanned placeholders is the
anomalous `$0`, `interpolate_args` raises the explicit "insufficient
arguments" `IndexError` exactly when the command contains a positional
`$N`/`$\x7bN\x7d` whose index exceeds the number of supplied arguments and
that carries no default; a placeholder with a default substitutes the
default instead of raising, the empty-string default collapsing to nothing
after the trailing-whitespace trim. -/
theorem C7_insufficient_iff (cmd : String) (args : List String)
    (hz : (interpolatePhs cmd).all (fun p => !phZero p) = true) :
    (isNotEnough (interpolate_args cmd args) = true ↔
      (interpolatePhs cmd).any (phBad args) = true)
    ∧ (∀ (nd : List (Option String)) (n : Nat) (d : List Char), args.length < n →
        applyPh args (.pos n (some d)) nd = .ok (d, nd))
    ∧ interpolate_args "ls $\x7b1:-foo\x7d" [] = .ok "ls foo"
    ∧ interpolate_args "ls $\x7b1:-\x7d" [] = .ok "ls" := by
  refine ⟨?_, fun nd n d h => applyPh_default_ok args nd n d h, by decide, by decide⟩
  have hpre : interpolate_args cmd args =
      (match renderToks args
          (tokenize (if (tokenize (preprocess cmd).data).any Tok.isPh
            then preprocess cmd else preprocess cmd ++ " $@").data)
          (args.map some) with
        | .ok chars => .ok (String.mk (pyRstripChars chars))
        | .error e => .error e) := rfl
  by_cases hm : (tokenize (preprocess cmd).data).any Tok.isPh = true
  · rw [hpre, if_pos hm, isNotEnough_match_rstrip]
    exact renderToks_notEnough_iff args (tokenize (preprocess cmd).data)
      (args.map some) (by simp) hz
  · have hm2 : (tokenize (preprocess cmd).data).any Tok.isPh = false := by
      simpa using hm
    rw [hpre, if_neg hm, isNotEnough_match_rstrip]
    have hdata : (preprocess cmd ++ " $@").data = (preprocess cmd).data ++ [' ', '$', '@'] := by
      simp [String.data_append]
    rw [hdata, tokenize_append_rest _ hm2, renderToks_lits_prefix, renderToks_space_rest]
    have hphs : interpolatePhs cmd = [] := by
      simp only [interpolatePhs, tokenize_no_ph _ hm2, phsOf_map_lit]
    rw [hphs]
    simp [isNotEnough, Except.map]

/-- Counterexample for C7 as stated: `"$0 $5"` with no arguments contains
the bad positional `$5`, yet the raised error is the bare list-assignment
`IndexError` from `$0`, not the explicit "not enough arguments" one. -/
theorem C7_counterexample :
    interpolate_args "$0 $5" [] = .error .indexOutOfRange
    ∧ isNotEnough (interpolate_args "$0 $5" []) = false
    ∧ (interpolatePhs "$0 $5").any (phBad []) = true :=
  ⟨by decide, by decide, by decide⟩

/-- Witness for C7 (amended) at a concrete input: `ls $3` with no
arguments raises the explicit insufficient-arguments error. -/
theorem C7_insufficient_iff_witness :
    isNotEnough (interpolate_args "ls $3" []) = true :=
  (C7_insufficient_iff "ls $3" [] (by decide)).1.mpr (by decide)

/-! ## The anomalous `$0` placeholder -/

theorem getq_last (args : List String) (h : args ≠ []) :
    args.get? (args.length - 1) = some (args.getLastD "") := by
  induction args with
  | nil => exact absurd rfl h
  | cons a rest ih =>
    cases rest with
    | nil => rfl
    | cons b rest2 =>
      have := ih (by simp)
      simpa [List.getLastD] using this

/-- `$0` on a non-empty argument list: Python's negative indexing makes
`idx = -1`, so the *last* argument is substituted and its pool slot is
blanked. -/
theorem applyPh_zero (args : List String) (nd : List (Option String))
    (d : Option (List Char)) (h : args ≠ []) (hlen : nd.length = args.length) :
    applyPh args (.pos 0 d) nd =
      .ok ((args.getLastD "").data, nd.set (args.length - 1) none) := by
  have hpos : 0 < args.length := List.length_pos.mpr h
  simp only [applyPh]
  rw [if_neg (by omega)]
  have hset : pySetNone nd ((0 : Int) - 1) = some (nd.set (args.length - 1) none) := by
    simp only [pySetNone]
    rw [if_neg (by omega), if_pos (by omega)]
    congr 1
    congr 1
    omega
  have hget : pyGetIdx args ((0 : Int) - 1) = some (args.getLastD "") := by
    simp only [pyGetIdx]
    rw [if_neg (by omega), if_pos (by omega)]
    rw [show (((args.length : Int) + ((0 : Int) - 1)).toNat) = args.length - 1 by omega]
    exact getq_last args h
  simp only [Nat.cast_zero]
  rw [hset, hget]

/-- `$0` on the empty argument list: the guard `idx >= len(args)` does not
fire (`-1 >= 0` is false), and `not_done[-1] = None` raises the bare
list-assignment `IndexError`. -/
theorem applyPh_zero_empty (d : Option (List Char)) (nd : List (Option String))
    (hnd : nd = []) : applyPh [] (.pos 0 d) nd = .error .indexOutOfRange := by
  subst hnd
  cases d <;> rfl

/-- Blanking the last pool slot leaves exactly the arguments without their
last element. -/
theorem set_last_filterMap (args : List String) (h : args ≠ []) :
    ((args.map some).set (args.length - 1) none).filterMap id = args.dropLast := by
  induction args with
  | nil => exact absurd rfl h
  | cons a rest ih =>
    cases rest with
    | nil => rfl
    | cons b rest2 =>
      have hr := ih (by simp)
      have hidx : (a :: b :: rest2).length - 1 = ((b :: rest2).length - 1) + 1 := by
        simp
      rw [List.map_cons, hidx, List.set_cons_succ, List.filterMap_cons]
      simp only [id]
      rw [hr]
      rfl

theorem joinSpace_if (l : List String) :
    (if l.isEmpty then ([] : List Char) else (joinSpace l).data) = (joinSpace l).data := by
  cases l with
  | nil => rfl
  | cons a rest => simp

theorem renderToks_space_rest_pool (args : List String) (nd : List (Option String)) :
    renderToks args [.lit ' ', .ph (.rest none)] nd =
      .ok (' ' :: (if (nd.filterMap id).isEmpty then []
        else (joinSpace (nd.filterMap id)).data)) := by
  simp only [renderToks, applyPh, Option.getD, bind, Except.bind, pure,
    Except.pure, List.append_nil]

/-- C10 (amended): `$0` lies outside the documented grammar but is
accepted: on a non-empty argument list it substitutes the *last* argument
(Python's negative indexing at `0 - 1 = -1`) and consumes it, so a later
`$@` omits it; on the empty argument list it raises the bare
list-assignment `IndexError`, not the explicit "not enough arguments"
error. -/
theorem C10_zero_placeholder (args : List String) (h : args ≠ []) :
    interpolate_args "$0 $@" args =
      .ok (pyRstrip (args.getLastD "" ++ " " ++ joinSpace args.dropLast))
    ∧ interpolate_args "$0" [] = .error .indexOutOfRange := by
  constructor
  · have hpre : interpolate_args "$0 $@" args =
        (match renderToks args [.ph (.pos 0 none), .lit ' ', .ph (.rest none)]
            (args.map some) with
          | .ok chars => .ok (String.mk (pyRstripChars chars))
          | .error e => .error e) := rfl
    rw [hpre]
    have hlen : (args.map some).length = args.length := by simp
    rw [show renderToks args [.ph (.pos 0 none), .lit ' ', .ph (.rest none)]
          (args.map some) =
        .ok ((args.getLastD "").data ++ ' ' :: (joinSpace args.dropLast).data) by
      simp only [renderToks, applyPh_zero args (args.map some) none h hlen, bind,
        Except.bind]
      simp only [applyPh, Option.getD, pure, Except.pure, List.append_nil]
      simp only [set_last_filterMap args h, joinSpace_if]]
    have hcat : (args.getLastD "" ++ " " ++ joinSpace args.dropLast).data =
        (args.getLastD "").data ++ ' ' :: (joinSpace args.dropLast).data := by
      simp [String.data_append]
    simp only [pyRstrip, hcat]
  · decide

/-- Counterexample for C10 as stated: on the empty argument list `$0`
raises the bare list-assignment `IndexError`, not the explicit
"insufficient arguments" error the claim names. -/
theorem C10_counterexample :
    interpolate_args "$0" [] = .error .indexOutOfRange
    ∧ isNotEnough (interpolate_args "$0" []) = false :=
  ⟨by decide, by decide⟩

/-- Witness for C10 (amended) at a concrete input. -/
theorem C10_zero_placeholder_witness :
    interpolate_args "$0 $@" ["b", "c", "d"] =
      .ok (pyRstrip (["b", "c", "d"].getLastD "" ++ " " ++
        joinSpace (["b", "c", "d"].dropLast))) :=
  (C10_zero_placeholder ["b", "c", "d"] (by decide)).1

/-! ## `TempEnv` from `src/ds/env.py`

The process environment `ENV` is a process-wide Python `dict`; a `TempEnv`
object records, per key and only on first touch, the value the key had
(or `None` if absent) in its `saved` dictionary, and `__exit__` replays
`saved`: restore the old value, or delete the key if it did not exist. -/

/-- The state a `TempEnv` scope manipulates: the process environment and
the object's `saved` dictionary. -/
structure TempEnvState where
  env : List (String × String)
  saved : List (String × Option String)
deriving Repr, DecidableEq

/-- Lookup in the `saved` dictionary. -/
def savedGet (saved : List (String × Option String)) (k : String) :
    Option (Option String) :=
  match saved with
  | [] => none
  | (k2, v) :: rest => if k2 = k then some v else savedGet rest k

/-- `TempEnv.__setitem__`: save the key's current value on first touch,
then `ENV[key] = value`. -/
def tempEnvSet (st : TempEnvState) (k v : String) : TempEnvState :=
  { env := pyDictSet st.env k v
    saved :=
      match savedGet st.saved k with
      | none => st.saved ++ [(k, pyDictGet st.env k)]
      | some _ => st.saved }

/-- `TempEnv.__delitem__`: save the key's current value on first touch,
then delete the key if it is present. -/
def tempEnvDel (st : TempEnvState) (k : String) : TempEnvState :=
  { env := pyDictDel st.env k
    saved :=
      match savedGet st.saved k with
      | none => st.saved ++ [(k, pyDictGet st.env k)]
      | some _ => st.saved }

/-- One mutation performed through the `TempEnv` object. -/
inductive TOp where
  | set (k v : String)
  | del (k : String)
deriving Repr, DecidableEq

/-- Apply one mutation. -/
def tempEnvOp (st : TempEnvState) : TOp → TempEnvState
  | .set k v => tempEnvSet st k v
  | .del k => tempEnvDel st k

/-- `TempEnv.__init__(**initial)`: apply the initial overrides in order; a
`None` value is a deletion. -/
def tempEnvInit (env0 : List (String × String))
    (initial : List (String × Option String)) : TempEnvState :=
  initial.foldl
    (fun st kv =>
      match kv.2 with
      | none => tempEnvDel st kv.1
      | some v => tempEnvSet st kv.1 v)
    { env := env0, saved := [] }

/-- A whole scope body: the mutations applied in order. -/
def tempEnvOps (st : TempEnvState) (ops : List TOp) : TempEnvState :=
  ops.foldl tempEnvOp st

/-- Replay one `saved` entry on exit: restore the prior value
(`ENV[key] = old`) or, when the prior value is `None`, delete the key if
present. -/
def restoreOne (env : List (String × String)) (kv : String × Option String) :
    List (String × String) :=
  match kv.2 with
  | none => pyDictDel env kv.1
  | some old => pyDictSet env kv.1 old

/-- Replay all `saved` entries in order. -/
def restoreAll (saved : List (String × Option String))
    (env : List (String × String)) : List (String × String) :=
  saved.foldl restoreOne env

/-- `TempEnv.__exit__`. -/
def tempEnvExit (st : TempEnvState) : List (String × String) :=
  restoreAll st.saved st.env

/-! Frame and lookup facts for the Python `dict` model. -/

theorem pyDictGet_set_self (d : List (String × String)) (k v : String) :
    pyDictGet (pyDictSet d k v) k = some v := by
  induction d with
  | nil => simp [pyDictSet, pyDictGet]
  | cons p rest ih =>
    obtain ⟨k2, v2⟩ := p
    by_cases hk : k2 = k
    · simp [pyDictSet, pyDictGet, hk]
    · simp [pyDictSet, pyDictGet, hk, ih]

theorem pyDictGet_set_other (d : List (String × String)) (k k2 v : String)
    (h : k ≠ k2) : pyDictGet (pyDictSet d k v) k2 = pyDictGet d k2 := by
  induction d with
  | nil => simp [pyDictSet, pyDictGet, h]
  | cons p rest ih =>
    obtain ⟨k3, v3⟩ := p
    by_cases hk : k3 = k
    · subst hk
      simp [pyDictSet, pyDictGet, h]
    · simp [pyDictSet, pyDictGet, hk, ih]

theorem pyDictGet_del_self (d : List (String × String)) (k : String)
    (hnodup : (d.map Prod.fst).Nodup) :
    pyDictGet (pyDictDel d k) k = none := by
  induction d with
  | nil => simp [pyDictDel, pyDictGet]
  | cons p rest ih =>
    obtain ⟨k2, v2⟩ := p
    simp only [List.map_cons, List.nodup_cons] at hnodup
    by_cases hk : k2 = k
    · subst hk
      simp only [pyDictDel, if_pos rfl]
      cases hg : pyDictGet rest k2 with
      | none => exact hg
      | some v =>
        exfalso
        apply hnodup.1
        clear ih hnodup
        induction rest with
        | nil => simp [pyDictGet] at hg
        | cons q rest2 ih2 =>
          obtain ⟨k3, v3⟩ := q
          simp only [pyDictGet] at hg
          by_cases hk3 : k3 = k2
          · simp [hk3]
          · rw [if_neg hk3] at hg
            simp [ih2 hg]
    · simp [pyDictDel, pyDictGet, hk, ih hnodup.2]

theorem pyDictGet_del_other (d : List (String × String)) (k k2 : String)
    (h : k ≠ k2) : pyDictGet (pyDictDel d k) k2 = pyDictGet d k2 := by
  induction d with
  | nil => simp [pyDictDel, pyDictGet]
  | cons p rest ih =>
    obtain ⟨k3, v3⟩ := p
    by_cases hk : k3 = k
    · subst hk
      rw [show pyDictDel ((k3, v3) :: rest) k3 = rest by simp [pyDictDel]]
      simp only [pyDictGet, if_neg h]
    · simp [pyDictDel, pyDictGet, hk, ih]

/-! Key-uniqueness is preserved by the `dict` operations. -/

theorem mem_keys_pyDictSet (d : List (String × String)) (k v x : String)
    (h : x ∈ (pyDictSet d k v).map Prod.fst) : x ∈ d.map Prod.fst ∨ x = k := by
  induction d with
  | nil => simpa [pyDictSet] using h
  | cons p rest ih =>
    obtain ⟨k2, v2⟩ := p
    by_cases hk : k2 = k
    · simp only [pyDictSet, if_pos hk, List.map_cons] at h
      simp only [List.map_cons]
      exact Or.inl h
    · simp only [pyDictSet, if_neg hk, List.map_cons, List.mem_cons] at h ⊢
      cases h with
      | inl h => exact Or.inl (Or.inl h)
      | inr h =>
        cases ih h with
        | inl h2 => exact Or.inl (Or.inr h2)
        | inr h2 => exact Or.inr h2

theorem pyDictSet_nodup (d : List (String × String)) (k v : String)
    (h : (d.map Prod.fst).Nodup) : ((pyDictSet d k v).map Prod.fst).Nodup := by
  induction d with
  | nil => simp [pyDictSet]
  | cons p rest ih =>
    obtain ⟨k2, v2⟩ := p
    simp only [List.map_cons, List.nodup_cons] at h
    by_cases hk : k2 = k
    · simp only [pyDictSet, if_pos hk, List.map_cons, List.nodup_cons]
      exact ⟨h.1, h.2⟩
    · simp only [pyDictSet, if_neg hk, List.map_cons, List.nodup_cons]
      refine ⟨?_, ih h.2⟩
      intro hmem
      cases mem_keys_pyDictSet rest k v k2 hmem with
      | inl h2 => exact h.1 h2
      | inr h2 => exact hk h2

theorem pyDictDel_sublist (d : List (String × String)) (k : String) :
    (pyDictDel d k).Sublist d := by
  induction d with
  | nil => simp [pyDictDel]
  | cons p rest ih =>
    obtain ⟨k2, v2⟩ := p
    by_cases hk : k2 = k
    · simp only [pyDictDel, if_pos hk]
      exact List.sublist_cons_self _ _
    · simp only [pyDictDel, if_neg hk]
      exact ih.cons₂ _

theorem pyDictDel_nodup (d : List (String × String)) (k : String)
    (h : (d.map Prod.fst).Nodup) : ((pyDictDel d k).map Prod.fst).Nodup :=
  ((pyDictDel_sublist d k).map Prod.fst).nodup h

/-! Replaying `saved` on exit. -/

theorem restoreAll_not_mem (saved : List (String × Option String))
    (env : List (String × String)) (k : String)
    (hout : savedGet saved k = none) :
    pyDictGet (restoreAll saved env) k = pyDictGet env k := by
  induction saved generalizing env with
  | nil => rfl
  | cons p rest ih =>
    obtain ⟨k2, ov⟩ := p
    simp only [savedGet] at hout
    by_cases hk : k2 = k
    · rw [if_pos hk] at hout
      exact absurd hout (by simp)
    · rw [if_neg hk] at hout
      simp only [restoreAll, List.foldl_cons]
      rw [show List.foldl restoreOne (restoreOne env (k2, ov)) rest =
        restoreAll rest (restoreOne env (k2, ov)) from rfl]
      rw [ih _ hout]
      cases ov with
      | none => exact pyDictGet_del_other env k2 k hk
      | some old => exact pyDictGet_set_other env k2 k old hk

theorem restoreOne_nodup (env : List (String × String)) (kv : String × Option String)
    (h : (env.map Prod.fst).Nodup) : ((restoreOne env kv).map Prod.fst).Nodup := by
  obtain ⟨k, ov⟩ := kv
  cases ov with
  | none => exact pyDictDel_nodup env k h
  | some old => exact pyDictSet_nodup env k old h

theorem restoreAll_mem (env0 : List (String × String))
    (saved : List (String × Option String)) (env : List (String × String))
    (k : String) (hnodup : (env.map Prod.fst).Nodup)
    (hin : savedGet saved k ≠ none)
    (hall : ∀ p ∈ saved, p.1 = k → p.2 = pyDictGet env0 k) :
    pyDictGet (restoreAll saved env) k = pyDictGet env0 k := by
  induction saved generalizing env with
  | nil => exact absurd rfl hin
  | cons p rest ih =>
    obtain ⟨k2, ov⟩ := p
    have hstep : restoreAll ((k2, ov) :: rest) env = restoreAll rest (restoreOne env (k2, ov)) := rfl
    rw [hstep]
    by_cases hk : k2 = k
    · subst hk
      have hov : ov = pyDictGet env0 k2 := hall (k2, ov) (by simp) rfl
      cases hrest : savedGet rest k2 with
      | none =>
        rw [restoreAll_not_mem rest _ k2 hrest]
        cases ov with
        | none =>
          rw [restoreOne, pyDictGet_del_self env k2 hnodup]
          exact hov
        | some old =>
          rw [restoreOne, pyDictGet_set_self env k2 old]
          exact hov
      | some q =>
        refine ih (restoreOne env (k2, ov)) (restoreOne_nodup env _ hnodup) (by simp [hrest]) ?_
        intro p hp hpk
        exact hall p (by simp [hp]) hpk
    · have hrest : savedGet rest k ≠ none := by
        simp only [savedGet, if_neg hk] at hin
        exact hin
      refine ih (restoreOne env (k2, ov)) (restoreOne_nodup env _ hnodup) hrest ?_
      intro p hp hpk
      exact hall p (by simp [hp]) hpk

theorem savedGet_append_left (s1 s2 : List (String × Option String)) (k : String)
    (v : Option String) (h : savedGet s1 k = some v) :
    savedGet (s1 ++ s2) k = some v := by
  induction s1 with
  | nil => simp [savedGet] at h
  | cons p rest ih =>
    obtain ⟨k2, w⟩ := p
    simp only [savedGet, List.cons_append] at h ⊢
    by_cases hk : k2 = k
    · rwa [if_pos hk] at h ⊢
    · rw [if_neg hk] at h ⊢
      exact ih h

theorem savedGet_append_none (s1 s2 : List (String × Option String)) (k : String)
    (h : savedGet s1 k = none) : savedGet (s1 ++ s2) k = savedGet s2 k := by
  induction s1 with
  | nil => rfl
  | cons p rest ih =>
    obtain ⟨k2, w⟩ := p
    simp only [savedGet, List.cons_append] at h ⊢
    by_cases hk : k2 = k
    · rw [if_pos hk] at h
      exact absurd h (by simp)
    · rw [if_neg hk] at h ⊢
      exact ih h

theorem savedGet_append_none_iff (s1 s2 : List (String × Option String)) (k : String)
    (h : savedGet (s1 ++ s2) k = none) : savedGet s1 k = none := by
  cases hs : savedGet s1 k with
  | none => rfl
  | some v => rw [savedGet_append_left s1 s2 k v hs] at h; exact absurd h (by simp)

/-- The invariant a `TempEnv` scope maintains over the process environment
`env0` it was entered in: the environment stays key-unique, every `saved`
entry records the key's value at scope entry, and an untouched key still
has its entry value. -/
def StInv (env0 : List (String × String)) (st : TempEnvState) : Prop :=
  (st.env.map Prod.fst).Nodup
  ∧ (∀ p ∈ st.saved, p.2 = pyDictGet env0 p.1)
  ∧ (∀ k, savedGet st.saved k = none → pyDictGet st.env k = pyDictGet env0 k)

theorem stinv_tempEnvSet (env0 : List (String × String)) (st : TempEnvState)
    (k v : String) (h : StInv env0 st) : StInv env0 (tempEnvSet st k v) := by
  obtain ⟨hnd, h1, h2⟩ := h
  refine ⟨pyDictSet_nodup _ _ _ hnd, ?_, ?_⟩
  · intro p hp
    simp only [tempEnvSet] at hp
    cases hs : savedGet st.saved k with
    | none =>
      rw [hs] at hp
      rcases List.mem_append.mp hp with hp2 | hp2
      · exact h1 p hp2
      · have : p = (k, pyDictGet st.env k) := by simpa using hp2
        rw [this]
        exact h2 k hs
    | some w =>
      rw [hs] at hp
      exact h1 p hp
  · intro k2 hk2
    simp only [tempEnvSet] at hk2 ⊢
    cases hs : savedGet st.saved k with
    | none =>
      rw [hs] at hk2
      have hfst : savedGet st.saved k2 = none := savedGet_append_none_iff _ _ _ hk2
      have hne : k ≠ k2 := by
        intro he
        subst he
        rw [savedGet_append_none _ _ k hs] at hk2
        simp [savedGet] at hk2
      rw [pyDictGet_set_other _ _ _ _ hne]
      exact h2 k2 hfst
    | some w =>
      rw [hs] at hk2
      have hne : k ≠ k2 := by
        intro he
        subst he
        rw [hk2] at hs
        exact absurd hs (by simp)
      rw [pyDictGet_set_other _ _ _ _ hne]
      exact h2 k2 hk2

theorem stinv_tempEnvDel (env0 : List (String × String)) (st : TempEnvState)
    (k : String) (h : StInv env0 st) : StInv env0 (tempEnvDel st k) := by
  obtain ⟨hnd, h1, h2⟩ := h
  refine ⟨pyDictDel_nodup _ _ hnd, ?_, ?_⟩
  · intro p hp
    simp only [tempEnvDel] at hp
    cases hs : savedGet st.saved k with
    | none =>
      rw [hs] at hp
      rcases List.mem_append.mp hp with hp2 | hp2
      · exact h1 p hp2
      · have : p = (k, pyDictGet st.env k) := by simpa using hp2
        rw [this]
        exact h2 k hs
    | some w =>
      rw [hs] at hp
      exact h1 p hp
  · intro k2 hk2
    simp only [tempEnvDel] at hk2 ⊢
    cases hs : savedGet st.saved k with
    | none =>
      rw [hs] at hk2
      have hfst : savedGet st.saved k2 = none := savedGet_append_none_iff _ _ _ hk2
      have hne : k ≠ k2 := by
        intro he
        subst he
        rw [savedGet_append_none _ _ k hs] at hk2
        simp [savedGet] at hk2
      rw [pyDictGet_del_other _ _ _ hne]
      exact h2 k2 hfst
    | some w =>
      rw [hs] at hk2
      have hne : k ≠ k2 := by
        intro he
        subst he
        rw [hk2] at hs
        exact absurd hs (by simp)
      rw [pyDictGet_del_other _ _ _ hne]
      exact h2 k2 hk2

theorem stinv_tempEnvOp (env0 : List (String × String)) (st : TempEnvState)
    (op : TOp) (h : StInv env0 st) : StInv env0 (tempEnvOp st op) := by
  cases op with
  | set k v => exact stinv_tempEnvSet env0 st k v h
  | del k => exact stinv_tempEnvDel env0 st k h

theorem stinv_tempEnvOps (env0 : List (String × String)) (ops : List TOp) :
    ∀ (st : TempEnvState), StInv env0 st → StInv env0 (tempEnvOps st ops) := by
  induction ops with
  | nil => intro st h; exact h
  | cons op rest ih =>
    intro st h
    exact ih (tempEnvOp st op) (stinv_tempEnvOp env0 st op h)

theorem stinv_tempEnvInit (env0 : List (String × String))
    (initial : List (String × Option String))
    (hnodup : (env0.map Prod.fst).Nodup) :
    StInv env0 (tempEnvInit env0 initial) := by
  have hbase : StInv env0 { env := env0, saved := [] } :=
    ⟨hnodup, by intro p hp; simp at hp, fun k _ => rfl⟩
  rw [show tempEnvInit env0 initial =
    tempEnvOps { env := env0, saved := [] }
      (initial.map (fun kv => match kv.2 with
        | none => TOp.del kv.1
        | some v => TOp.set kv.1 v)) by
    simp only [tempEnvInit, tempEnvOps, List.foldl_map]
    congr 1
    funext st kv
    cases kv.2 <;> rfl]
  exact stinv_tempEnvOps env0 _ _ hbase

/-- Whether the scope (its initial overrides or its body) touches key `k`
through the `TempEnv` object. -/
def touches (initial : List (String × Option String)) (ops : List TOp)
    (k : String) : Bool :=
  initial.any (fun p => p.1 == k)
    || ops.any (fun op => match op with
      | .set k2 _ => k2 == k
      | .del k2 => k2 == k)

theorem savedGet_tempEnvSet_self (st : TempEnvState) (k v : String) :
    savedGet (tempEnvSet st k v).saved k ≠ none := by
  simp only [tempEnvSet]
  cases hs : savedGet st.saved k with
  | none => rw [savedGet_append_none _ _ k hs]; simp [savedGet]
  | some w =>
    show savedGet st.saved k ≠ none
    rw [hs]
    simp

theorem savedGet_tempEnvDel_self (st : TempEnvState) (k : String) :
    savedGet (tempEnvDel st k).saved k ≠ none := by
  simp only [tempEnvDel]
  cases hs : savedGet st.saved k with
  | none => rw [savedGet_append_none _ _ k hs]; simp [savedGet]
  | some w =>
    show savedGet st.saved k ≠ none
    rw [hs]
    simp

theorem savedGet_tempEnvOp_mono (st : TempEnvState) (op : TOp) (k : String)
    (h : savedGet st.saved k ≠ none) :
    savedGet (tempEnvOp st op).saved k ≠ none := by
  cases hs : savedGet st.saved k with
  | none => exact absurd hs h
  | some w =>
    cases op with
    | set k2 v =>
      simp only [tempEnvOp, tempEnvSet]
      cases hs2 : savedGet st.saved k2 with
      | none => rw [savedGet_append_left _ _ k w hs]; simp
      | some w2 => rw [hs]; simp
    | del k2 =>
      simp only [tempEnvOp, tempEnvDel]
      cases hs2 : savedGet st.saved k2 with
      | none => rw [savedGet_append_left _ _ k w hs]; simp
      | some w2 => rw [hs]; simp

theorem savedGet_tempEnvOps_mono (ops : List TOp) :
    ∀ (st : TempEnvState) (k : String), savedGet st.saved k ≠ none →
      savedGet (tempEnvOps st ops).saved k ≠ none := by
  induction ops with
  | nil => intro st k h; exact h
  | cons op rest ih =>
    intro st k h
    exact ih (tempEnvOp st op) k (savedGet_tempEnvOp_mono st op k h)

theorem ops_touch_saved (ops : List TOp) :
    ∀ (st : TempEnvState) (k : String),
      (ops.any (fun op => match op with
        | .set k2 _ => k2 == k
        | .del k2 => k2 == k)) = true →
      savedGet (tempEnvOps st ops).saved k ≠ none := by
  induction ops with
  | nil => intro st k h; simp at h
  | cons op rest ih =>
    intro st k h
    simp only [List.any_cons, Bool.or_eq_true] at h
    cases h with
    | inl h =>
      apply savedGet_tempEnvOps_mono rest (tempEnvOp st op) k
      cases op with
      | set k2 v =>
        have : k2 = k := by simpa using h
        subst this
        exact savedGet_tempEnvSet_self st k2 v
      | del k2 =>
        have : k2 = k := by simpa using h
        subst this
        exact savedGet_tempEnvDel_self st k2
    | inr h => exact ih (tempEnvOp st op) k h

theorem init_touch_saved (initial : List (String × Option String)) :
    ∀ (env0 : List (String × String)) (k : String),
      (initial.any (fun p => p.1 == k)) = true →
      savedGet (tempEnvInit env0 initial).saved k ≠ none := by
  intro env0 k h
  rw [show tempEnvInit env0 initial =
    tempEnvOps { env := env0, saved := [] }
      (initial.map (fun kv => match kv.2 with
        | none => TOp.del kv.1
        | some v => TOp.set kv.1 v)) by
    simp only [tempEnvInit, tempEnvOps, List.foldl_map]
    congr 1
    funext st kv
    cases kv.2 <;> rfl]
  apply ops_touch_saved
  obtain ⟨p, hp, hpk⟩ := List.any_eq_true.mp h
  apply List.any_eq_true.mpr
  refine ⟨(match p.2 with | none => TOp.del p.1 | some v => TOp.set p.1 v),
    List.mem_map_of_mem _ hp, ?_⟩
  cases hp2 : p.2 <;> simpa using hpk

/-- C9: a `TempEnv` scope is a round trip on the process environment: for
every key-unique starting environment, every list of initial overrides
(including deletions) and every sequence of sets/deletes performed through
the object, exiting the scope restores every touched key exactly to its
value at entry; in particular a key that did not exist before the scope is
absent again after exit. -/
theorem C9_tempenv_roundtrip (env0 : List (String × String))
    (initial : List (String × Option String)) (ops : List TOp) (k : String)
    (hnodup : (env0.map Prod.fst).Nodup)
    (htouch : touches initial ops k = true) :
    pyDictGet (tempEnvExit (tempEnvOps (tempEnvInit env0 initial) ops)) k =
      pyDictGet env0 k
    ∧ (pyDictGet env0 k = none →
        pyDictGet (tempEnvExit (tempEnvOps (tempEnvInit env0 initial) ops)) k = none) := by
  have hinv : StInv env0 (tempEnvOps (tempEnvInit env0 initial) ops) :=
    stinv_tempEnvOps env0 ops _ (stinv_tempEnvInit env0 initial hnodup)
  obtain ⟨hnd, h1, _⟩ := hinv
  have hin : savedGet (tempEnvOps (tempEnvInit env0 initial) ops).saved k ≠ none := by
    simp only [touches, Bool.or_eq_true] at htouch
    cases htouch with
    | inl h => exact savedGet_tempEnvOps_mono ops _ k (init_touch_saved initial env0 k h)
    | inr h => exact ops_touch_saved ops _ k h
  have hmain : pyDictGet (tempEnvExit (tempEnvOps (tempEnvInit env0 initial) ops)) k =
      pyDictGet env0 k := by
    apply restoreAll_mem env0 _ _ k hnd hin
    intro p hp hpk
    rw [h1 p hp, hpk]
  exact ⟨hmain, fun habs => hmain.trans habs⟩

/-- Witness for C9 at a concrete input: key `A` is overridden initially
and deleted in the body; exit restores its entry value. -/
theorem C9_tempenv_roundtrip_witness :
    pyDictGet (tempEnvExit (tempEnvOps
      (tempEnvInit [("A", "1"), ("B", "2")] [("A", some "x"), ("C", some "y")])
      [TOp.del "A", TOp.set "B" "z"])) "A" =
      pyDictGet [("A", "1"), ("B", "2")] "A" :=
  (C9_tempenv_roundtrip [("A", "1"), ("B", "2")] [("A", some "x"), ("C", some "y")]
    [TOp.del "A", TOp.set "B" "z"] "A" (by decide) (by decide)).1

/-! ## The `Task` data model

`Task` is the dataclass of `src/ds/tasks.py` in the form the `Runner` of
`src/ds/runner.py` consumes: the overridable fields `args`, `cwd`, `env`,
`_env` (here `henv`), `env_file`, `keep_going`, `parallel` plus the
structural fields.  Paths are modelled as strings.  Because Lean
structures cannot be recursive, the scalar fields live in `TaskData` and
the task tree is the inductive `Task`. -/

namespace Ds

structure TaskData where
  origin : Option String := none
  origin_key : String := ""
  name : String := ""
  help : String := ""
  verbatim : Bool := false
  cmd : String := ""
  code : Int := 0
  args : List String := []
  cwd : Option String := none
  env : List (String × String) := []
  henv : List (String × String) := []
  env_file : Option String := none
  keep_going : Bool := false
  parallel : Bool := false
deriving Repr, DecidableEq

inductive Task where
  | mk (data : TaskData) (depends : List Task)
deriving Repr

def Task.data : Task → TaskData
  | .mk d _ => d

def Task.depends : Task → List Task
  | .mk _ ds => ds

def Task.name (t : Task) : String := t.data.name
def Task.cmd (t : Task) : String := t.data.cmd
def Task.code (t : Task) : Int := t.data.code
def Task.args (t : Task) : List String := t.data.args
def Task.cwd (t : Task) : Option String := t.data.cwd
def Task.env (t : Task) : List (String × String) := t.data.env
def Task.henv (t : Task) : List (String × String) := t.data.henv
def Task.env_file (t : Task) : Option String := t.data.env_file
def Task.keep_going (t : Task) : Bool := t.data.keep_going
def Task.parallel (t : Task) : Bool := t.data.parallel

/-- `dataclasses.replace(t, cmd=c)`. -/
def Task.withCmd (t : Task) (c : String) : Task :=
  Task.mk { t.data with cmd := c } t.depends

/-- `dataclasses.replace(t, code=c)`. -/
def Task.withCode (t : Task) (c : Int) : Task :=
  Task.mk { t.data with code := c } t.depends

/-- `dataclasses.replace(t, args=a)`. -/
def Task.withArgs (t : Task) (a : List String) : Task :=
  Task.mk { t.data with args := a } t.depends

/-- Python `==` on the scalar fields of the dataclass; the `env`/`_env`
dictionaries compare order-insensitively as Python dicts do. -/
def TaskData.pyEq (a b : TaskData) : Bool :=
  a.origin == b.origin && a.origin_key == b.origin_key && a.name == b.name
    && a.help == b.help && a.verbatim == b.verbatim && a.cmd == b.cmd
    && a.code == b.code && a.args == b.args && a.cwd == b.cwd
    && pyDictEq a.env b.env && pyDictEq a.henv b.henv
    && a.env_file == b.env_file && a.keep_going == b.keep_going
    && a.parallel == b.parallel

mutual
/-- Python `==` on `Task` (dataclass field-wise equality, recursing into
`depends`). -/
def Task.beq : Task → Task → Bool
  | .mk d1 ds1, .mk d2 ds2 => TaskData.pyEq d1 d2 && Task.beqList ds1 ds2
termination_by structural t _ => t

/-- Python `==` on lists of tasks. -/
def Task.beqList : List Task → List Task → Bool
  | [], [] => true
  | t1 :: r1, t2 :: r2 => Task.beq t1 t2 && Task.beqList r1 r2
  | _, _ => false
termination_by structural l _ => l
end

mutual
/-- Decidable propositional equality for the nested `Task` tree. -/
def Task.decEq : (a b : Task) → Decidable (a = b)
  | .mk d1 ds1, .mk d2 ds2 =>
    match (inferInstanceAs (DecidableEq TaskData)) d1 d2 with
    | isFalse h => isFalse (by intro he; cases he; exact h rfl)
    | isTrue h1 =>
      match Task.decEqList ds1 ds2 with
      | isFalse h => isFalse (by intro he; cases he; exact h rfl)
      | isTrue h2 => isTrue (by rw [h1, h2])
termination_by structural a _ => a

/-- Decidable propositional equality for lists of tasks. -/
def Task.decEqList : (a b : List Task) → Decidable (a = b)
  | [], [] => isTrue rfl
  | a :: r1, b :: r2 =>
    match Task.decEq a b with
    | isFalse h => isFalse (by intro he; injection he; contradiction)
    | isTrue h1 =>
      match Task.decEqList r1 r2 with
      | isFalse h => isFalse (by intro he; injection he; contradiction)
      | isTrue h2 => isTrue (by rw [h1, h2])
  | [], _ :: _ => isFalse (by intro h; exact absurd h (by simp))
  | _ :: _, [] => isFalse (by intro h; exact absurd h (by simp))
termination_by structural l _ => l
end

instance : DecidableEq Task := Task.decEq

/-! ## `fnmatch` and `glob_names` from `src/ds/searchers.py` -/

/-- Membership of a character in a `[...]` class body (regex class
semantics: `a-z` ranges, a trailing `-` literal). -/
def charClassMatch : List Char → Char → Bool
  | a :: '-' :: b :: rest, c =>
    (a ≤ c && c ≤ b) || charClassMatch rest c
  | a :: rest, c => a == c || charClassMatch rest c
  | [], _ => false

/-- Body of a `[...]` class up to the first unconsumed `]`; `none` when
the bracket is never closed (the `[` is then a literal). -/
def classSplit : List Char → Option (List Char × List Char)
  | [] => none
  | c :: rest =>
    if c = ']' then some ([], rest)
    else match classSplit rest with
      | some (content, r) => some (c :: content, r)
      | none => none

/-- Fuel-indexed core of `fnmatch.fnmatchcase`: `*` matches any sequence,
`?` any single character, `[...]`/`[!...]` a character class, anything
else itself; an unclosed `[` is a literal.  Fuel of
`pattern.length + name.length + 1` suffices (each step shrinks the sum). -/
def fnmatchFuel : Nat → List Char → List Char → Bool
  | 0, _, _ => false
  | f + 1, pat, name =>
    match pat, name with
    | [], [] => true
    | [], _ :: _ => false
    | '*' :: ps, ns =>
      fnmatchFuel f ps ns
        || (match ns with
          | [] => false
          | _ :: ns2 => fnmatchFuel f ('*' :: ps) ns2)
    | '?' :: ps, _ :: ns => fnmatchFuel f ps ns
    | '?' :: _, [] => false
    | '[' :: ps, ns =>
      let (neg, ps1) := match ps with
        | '!' :: t => (true, t)
        | _ => (false, ps)
      let parsed := match ps1 with
        | ']' :: t =>
          (match classSplit t with
            | some (content, r) => some (']' :: content, r)
            | none => none)
        | _ => classSplit ps1
      match parsed with
      | none =>
        (match ns with
          | c :: ns2 => ('[' == c) && fnmatchFuel f ps ns2
          | [] => false)
      | some (content, r) =>
        (match ns with
          | c :: ns2 => (charClassMatch content c != neg) && fnmatchFuel f r ns2
          | [] => false)
    | p :: ps, c :: ns => p == c && fnmatchFuel f ps ns
    | _ :: _, [] => false

/-- `fnmatch.fnmatch(name, pat)` (no case normalisation on POSIX). -/
def fnmatch (name pat : String) : Bool :=
  fnmatchFuel (pat.data.length + name.data.length + 1) pat.data name.data

/-- `starts(haystack, needle)` from `src/ds/symbols.py`. -/
def startsWith (haystack needle : String) : Bool × String :=
  if needle.data.isPrefixOf haystack.data then
    (true, String.mk (haystack.data.drop needle.data.length))
  else (false, haystack)

/-- `glob_names(names, patterns)` from `src/ds/searchers.py`: an ordered
include-map over `names`, each pattern setting matched names to include
(or exclude, with the `!` prefix). -/
def glob_names (names : List String) (patterns : List String) : List String :=
  let result : List (String × Bool) := names.map (fun n => (n, false))
  let final := patterns.foldl
    (fun res pattern =>
      let ex := startsWith pattern "!"
      res.map (fun nb => if fnmatch nb.1 ex.2 then (nb.1, !ex.1) else nb))
    result
  (final.filter (fun nb => nb.2)).map (fun nb => nb.1)

example : glob_names ["cab", "car", "cat", "crab"] ["c?r", "c*b"] =
    ["cab", "car", "crab"] := by decide
example : glob_names ["cab", "car", "cat", "crab"] ["*", "!crab"] =
    ["cab", "car", "cat"] := by decide

end Ds

namespace Ds

/-! ## `shlex.split` (POSIX mode, as used by the runner and cycle checker) -/

/-- The apostrophe (single-quote) character. -/
def singleQuote : Char := Char.ofNat 39

/-- `shlex.whitespace`. -/
def shlexIsSpace (c : Char) : Bool :=
  c == ' ' || c == '\t' || c == '\x0d' || c == '\n'

/-- Single-quoted section: everything up to the closing quote, verbatim;
`none` models the `ValueError("No closing quotation")`. -/
def readSingle : List Char → Option (List Char × List Char)
  | [] => none
  | c :: rest =>
    if c = singleQuote then some ([], rest)
    else (readSingle rest).map (fun p => (c :: p.1, p.2))

/-- Double-quoted section: backslash escapes the quote and itself, else it
stays verbatim; `none` models the unclosed-quotation error. -/
def readDouble : List Char → Option (List Char × List Char)
  | [] => none
  | c :: rest =>
    if c = '"' then some ([], rest)
    else if c = '\\' then
      match rest with
      | [] => none
      | c2 :: rest2 =>
        if c2 = '"' || c2 = '\\' then (readDouble rest2).map (fun p => (c2 :: p.1, p.2))
        else (readDouble rest2).map (fun p => ('\\' :: c2 :: p.1, p.2))
    else (readDouble rest).map (fun p => (c :: p.1, p.2))

/-- Fuel-indexed scanner of `shlex.split(s)` in POSIX mode: whitespace
separates tokens, quotes group (adjacent pieces concatenate), a backslash
escapes the next character; unclosed quotes and a trailing backslash raise
`ValueError`.  Fuel of `s.length + 1` suffices. -/
def shlexFuel : Nat → List Char → Option (List Char) → Except PErr (List String)
  | 0, _, cur =>
    .ok (match cur with | none => [] | some tok => [String.mk tok])
  | _ + 1, [], cur =>
    .ok (match cur with | none => [] | some tok => [String.mk tok])
  | f + 1, c :: rest, cur =>
    if shlexIsSpace c then
      match cur with
      | none => shlexFuel f rest none
      | some tok => do
        let toks ← shlexFuel f rest none
        pure (String.mk tok :: toks)
    else if c = singleQuote then
      match readSingle rest with
      | none => .error .valueError
      | some (content, r) => shlexFuel f r (some (cur.getD [] ++ content))
    else if c = '"' then
      match readDouble rest with
      | none => .error .valueError
      | some (content, r) => shlexFuel f r (some (cur.getD [] ++ content))
    else if c = '\\' then
      match rest with
      | [] => .error .valueError
      | c2 :: rest2 => shlexFuel f rest2 (some (cur.getD [] ++ [c2]))
    else shlexFuel f rest (some (cur.getD [] ++ [c]))

/-- `cmd.split(";")` (Python `str.split` with an explicit one-character
separator: empty pieces are kept, the empty string splits to `[""]`). -/
def splitSemiAux : List Char → List Char → List String
  | [], cur => [String.mk cur.reverse]
  | c :: rest, cur =>
    if c = ';' then String.mk cur.reverse :: splitSemiAux rest []
    else splitSemiAux rest (c :: cur)

/-- `cmd.split(GLOB_DELIMITER)`. -/
def splitSemi (s : String) : List String := splitSemiAux s.data []

/-- `shlex.split(s)`. -/
def shlexSplit (s : String) : Except PErr (List String) :=
  shlexFuel (s.data.length + 1) s.data none

example : shlexSplit "ls" = .ok ["ls"] := by decide
example : shlexSplit "b -x" = .ok ["b", "-x"] := by decide
example : shlexSplit "echo \"a b\"" = .ok ["echo", "a b"] := by decide

/-! ## The `Runner` of `src/ds/runner.py` -/

/-- `TASK_COMPOSITE` from `src/ds/symbols.py`. -/
def TASK_COMPOSITE : String := "#composite"

/-- `GLOB_DELIMITER` from `src/ds/symbols.py`. -/
def GLOB_DELIMITER : String := ";"

/-- The command-line flags the `Runner` consults. -/
structure Args where
  dry_run : Bool := false
  pre : Bool := false
  post : Bool := false
deriving Repr, DecidableEq

/-- The fixed context of a run: the flags, the `Tasks` mapping, and the
`IO` boundary as oracles — the shell (command, cwd, environment ↦ exit
code), the env-file reader (`None` models a missing file), and the process
environment `ENV`. -/
structure RunCtx where
  args : Args
  tasks : List (String × Task)
  shell : String → Option String → List (String × String) → Int
  read_env_file : String → Option (List (String × String))
  osEnv : List (String × String)

/-- How a run stops abnormally: `sys.exit(code)`, an uncaught Python
exception, or exhaustion of the recursion fuel (the Python original has no
such bound and can recurse forever). -/
inductive Halt where
  | exitProc (code : Int)
  | raised (e : PErr)
  | noFuel
deriving Repr, DecidableEq

/-- `self.tasks.get(name)`. -/
def tasksGet (tasks : List (String × Task)) (name : String) : Option Task :=
  match tasks with
  | [] => none
  | (k, t) :: rest => if k = name then some t else tasksGet rest name

/-- First hit among the pre and post candidate hook names. -/
def findFirstTask (tasks : List (String × Task)) : List String → Option Task
  | [] => none
  | c :: rest =>
    match tasksGet tasks c with
    | some t => some t
    | none => findFirstTask tasks rest

/-- The `resolved = replace(override, ...)` expression at the top of
`Runner.run`: every field of `override` is kept except the per-field
merges listed in the source. -/
def Runner.resolve (task override : Task) (env_from_file : List (String × String)) :
    Task :=
  Task.mk
    { override.data with
      args := task.args ++ override.args
      cwd := match override.cwd with
        | some c => some c
        | none => task.cwd
      env := pyDictMerge override.env task.env
      henv := pyDictMerge (pyDictMerge (pyDictMerge override.henv override.env)
        env_from_file) task.env
      env_file := match override.env_file with
        | some f => some f
        | none => task.env_file
      keep_going := override.keep_going || task.keep_going
      parallel := override.parallel || task.parallel }
    override.depends

/-- `Runner.run_in_shell`: display is skipped; on dry-run nothing is
spawned; in parallel mode the command is registered and not waited for; in
sequential mode the exit code is recorded on the resolved task and a
non-zero code without `keep_going` is a process-wide `sys.exit`. -/
def Runner.run_in_shell (ctx : RunCtx) (st : List String) (resolved : Task) :
    Except Halt (Task × List String) :=
  if ctx.args.dry_run then .ok (resolved, st)
  else
    let combined_env := pyDictMerge (pyDictMerge ctx.osEnv resolved.env) resolved.henv
    if resolved.parallel then .ok (resolved, st ++ [resolved.cmd])
    else
      let code := ctx.shell resolved.cmd resolved.cwd combined_env
      let resolved2 := resolved.withCode code
      if resolved2.code ≠ 0 && !resolved2.keep_going then .error (.exitProc resolved2.code)
      else .ok (resolved2, st)

/-- One iteration of the `for name in others` loop of
`Runner.run_composite`: look the name up, and dispatch only when the found
task is distinct from the dispatching one and does not list it among its
dependencies. -/
def Runner.compositeStep
    (runF : List String → Task → Task → Except Halt (Int × List String))
    (tasks : List (String × Task)) (task override : Task) (extra : List String)
    (acc : Bool × Int × List String) (name : String) :
    Except Halt (Bool × Int × List String) :=
  match tasksGet tasks name with
  | none => .ok acc
  | some other =>
    if !(Task.beq other task) && !(other.depends.any (fun d => Task.beq task d)) then do
      let r ← runF acc.2.2 other (Task.withArgs override (override.args ++ extra))
      pure (true, r.1, r.2)
    else .ok acc

/-- `Runner.run_composite`. -/
def Runner.run_composite
    (runF : List String → Task → Task → Except Halt (Int × List String))
    (tasks : List (String × Task)) (st : List String) (task override : Task) :
    Except Halt (Bool × Int × List String) :=
  if task.name == TASK_COMPOSITE then
    match shlexSplit task.cmd with
    | .error e => .error (.raised e)
    | .ok [] => .error (.raised .valueError)
    | .ok (cmd :: args) =>
      let others := glob_names (tasks.map Prod.fst) (splitSemi cmd)
      others.foldlM (Runner.compositeStep runF tasks task override args) (false, 0, st)
  else .ok (false, 0, st)

/-- `Runner.run_pre_post`. -/
def Runner.prePost
    (runF : List String → Task → Task → Except Halt (Int × List String))
    (args : Args) (tasks : List (String × Task)) (st : List String)
    (task override : Task) (isPre : Bool) : Except Halt (Int × List String) :=
  let name := task.name
  let enabled := if isPre then args.pre else args.post
  if name == "" || name == TASK_COMPOSITE || !enabled then .ok (0, st)
  else
    let pfx := if isPre then "pre" else "post"
    match findFirstTask tasks [pfx ++ name, pfx ++ "_" ++ name, pfx ++ "-" ++ name] with
    | some sub => runF st sub override
    | none => .ok (0, st)

/-- `Runner.run(task, override)`, fuel-indexed (the Python original has no
recursion bound): read the env-file (fatal exit 1 when missing), build the
resolved task, run the pre-hook, run the dependencies discarding their
return codes, then either stop (blank command), dispatch as a composite,
or interpolate and run in the shell; the post-hook only contributes when
the main step returned 0 (`code or run_pre_post(...)`). -/
def Runner.run (ctx : RunCtx) :
    Nat → List String → Task → Task → Except Halt (Int × List String)
  | 0, _, _, _ => .error .noFuel
  | fuel + 1, st, task, override => do
    let env_from_file ← match task.env_file with
      | none => Except.ok []
      | some f =>
        match ctx.read_env_file f with
        | none => Except.error (Halt.exitProc 1)
        | some d => Except.ok d
    let resolved := Runner.resolve task override env_from_file
    let pp ← (Runner.prePost (fun s t o => Runner.run ctx fuel s t o) ctx.args
      ctx.tasks st task resolved true)
    let st := pp.2
    let st ← task.depends.foldlM
      (fun s dep => do
        let r ← Runner.run ctx fuel s dep resolved
        pure r.2)
      st
    if (pyStrip task.cmd).data.isEmpty then
      (Runner.prePost (fun s t o => Runner.run ctx fuel s t o) ctx.args ctx.tasks
        st task resolved false)
    else do
      let rc ← (Runner.run_composite (fun s t o => Runner.run ctx fuel s t o)
        ctx.tasks st task resolved)
      match rc with
      | (true, code, st) =>
        if code ≠ 0 then Except.ok (code, st)
        else (Runner.prePost (fun s t o => Runner.run ctx fuel s t o) ctx.args
          ctx.tasks st task resolved false)
      | (false, _, st) => do
        let cmd2 ← match interpolate_args (override.cmd ++ task.cmd) resolved.args with
          | .ok c => Except.ok c
          | .error e => Except.error (Halt.raised e)
        let resolved2 := Task.withCmd resolved cmd2
        let sh ← Runner.run_in_shell ctx st resolved2
        let resolved3 := sh.1
        let st := sh.2
        if resolved3.code ≠ 0 then Except.ok (resolved3.code, st)
        else (Runner.prePost (fun s t o => Runner.run ctx fuel s t o) ctx.args
          ctx.tasks st task resolved3 false)

end Ds

namespace Ds

/-! ## Claims about the override merge (`Runner.run`'s `resolved`) -/

/-- Lookup in `{**a, **b}` when `b` is key-unique: a key of `b` gets `b`'s
value; only keys absent from `b` fall back to `a`. -/
theorem pyDictGet_merge (a b : List (String × String)) (k : String)
    (hnodup : (b.map Prod.fst).Nodup) :
    pyDictGet (pyDictMerge a b) k =
      (match pyDictGet b k with
        | some v => some v
        | none => pyDictGet a k) := by
  induction b generalizing a with
  | nil => rfl
  | cons p rest ih =>
    obtain ⟨k2, v2⟩ := p
    simp only [List.map_cons, List.nodup_cons] at hnodup
    show pyDictGet (pyDictMerge (pyDictSet a k2 v2) rest) k = _
    rw [ih _ hnodup.2]
    by_cases hk : k2 = k
    · subst hk
      have hrest : pyDictGet rest k2 = none := by
        cases hr : pyDictGet rest k2 with
        | none => rfl
        | some v =>
          exfalso
          apply hnodup.1
          clear ih hnodup
          induction rest with
          | nil => simp [pyDictGet] at hr
          | cons q rest2 ih2 =>
            obtain ⟨k3, v3⟩ := q
            simp only [pyDictGet] at hr
            by_cases hk3 : k3 = k2
            · simp [hk3]
            · rw [if_neg hk3] at hr
              simp [ih2 hr]
      rw [hrest]
      simp only [pyDictGet, if_pos rfl]
      exact pyDictGet_set_self a k2 v2
    · simp only [pyDictGet, if_neg hk]
      cases pyDictGet rest k with
      | some v => rfl
      | none => exact pyDictGet_set_other a k2 k v2 hk

/-- C1 (amended): in the `resolved` task built by `Runner.run`, the
resolved `env` is `{**override.env, **task.env}`: for a key the task sets,
the *task's own* value wins; the override's value survives only for keys
the task does not set. -/
theorem C1_env_merge (task override : Task) (ef : List (String × String))
    (k : String) (hnodup : (task.env.map Prod.fst).Nodup) :
    pyDictGet (Runner.resolve task override ef).env k =
      (match pyDictGet task.env k with
        | some v => some v
        | none => pyDictGet override.env k) :=
  pyDictGet_merge override.env task.env k hnodup

/-- Counterexample for C1 as stated: for a key present in both `env`s the
resolved value is the task's, not the override's. -/
theorem C1_counterexample :
    pyDictGet (Runner.resolve (Task.mk { name := "t", env := [("K", "task-val")] } [])
      (Task.mk { env := [("K", "override-val")] } []) []).env "K" = some "task-val"
    ∧ pyDictGet (Runner.resolve (Task.mk { name := "t", env := [("K", "task-val")] } [])
      (Task.mk { env := [("K", "override-val")] } []) []).env "K" ≠ some "override-val" :=
  ⟨by decide, by decide⟩

/-- Witness for C1 (amended) at a concrete input. -/
theorem C1_env_merge_witness :
    pyDictGet (Runner.resolve (Task.mk { env := [("K", "t")] } [])
      (Task.mk { env := [("K", "o")] } []) []).env "K" = some "t" :=
  (C1_env_merge (Task.mk { env := [("K", "t")] } [])
    (Task.mk { env := [("K", "o")] } []) [] "K" (by decide)).trans (by decide)

/-- C5: the per-field merge of `Runner.run`: resolved `args` are the
task's own args followed by the override's; resolved `cwd` is the
override's when present, else the task's; resolved `keep_going` is the
boolean OR of both flags. -/
theorem C5_resolve_override (task override : Task) (ef : List (String × String)) :
    (Runner.resolve task override ef).args = task.args ++ override.args
    ∧ (Runner.resolve task override ef).cwd =
        (match override.cwd with
          | some c => some c
          | none => task.cwd)
    ∧ (Runner.resolve task override ef).keep_going
        = (override.keep_going || task.keep_going) :=
  ⟨rfl, rfl, rfl⟩

end Ds

namespace Ds

/-! ## Claim C2: the failure policy of `Runner.run_in_shell` -/

/-- A task whose shell command fails but which suppresses errors. -/
def c2fail : Task := Task.mk { name := "fail", cmd := "false", keep_going := true } []

/-- A follow-up task whose own command fails fatally. -/
def c2next : Task := Task.mk { name := "next", cmd := "next" } []

/-- A parent whose dependencies are the suppressed failure alone. -/
def c2parent : Task := Task.mk { name := "p" } [c2fail]

/-- A parent that runs a further step after the suppressed failure. -/
def c2parent2 : Task := Task.mk { name := "p2" } [c2fail, c2next]

/-- Context for C2: `false` exits 1, `next` exits 5, all else 0. -/
def c2ctx : RunCtx :=
  { args := {}
    tasks := [("fail", c2fail), ("next", c2next)]
    shell := fun cmd _ _ => if cmd == "false" then 1 else if cmd == "next" then 5 else 0
    read_env_file := fun _ => none
    osEnv := [] }

/-- C2 (amended): in sequential, non-dry runs, a non-zero exit without
`keep_going` is a process-wide `sys.exit` with that code; with
`keep_going` no exit occurs and the code is recorded — but `Runner.run`
*returns the non-zero code itself*, not a logical 0; ancestors are
unaffected only because dependency return codes are discarded, so a
caller's subsequent dependency steps still run (and can fail on their own
merits). -/
theorem C2_failure_policy :
    (∀ (ctx : RunCtx) (st : List String) (resolved : Task),
      ctx.args.dry_run = false → resolved.parallel = false →
      resolved.keep_going = false →
      ctx.shell resolved.cmd resolved.cwd
        (pyDictMerge (pyDictMerge ctx.osEnv resolved.env) resolved.henv) ≠ 0 →
      Runner.run_in_shell ctx st resolved =
        .error (.exitProc (ctx.shell resolved.cmd resolved.cwd
          (pyDictMerge (pyDictMerge ctx.osEnv resolved.env) resolved.henv))))
    ∧ (∀ (ctx : RunCtx) (st : List String) (resolved : Task),
      ctx.args.dry_run = false → resolved.parallel = false →
      resolved.keep_going = true →
      Runner.run_in_shell ctx st resolved =
        .ok (resolved.withCode (ctx.shell resolved.cmd resolved.cwd
          (pyDictMerge (pyDictMerge ctx.osEnv resolved.env) resolved.henv)), st))
    ∧ Runner.run c2ctx 3 [] c2fail (Task.mk {} []) = .ok (1, [])
    ∧ Runner.run c2ctx 3 [] c2parent (Task.mk {} []) = .ok (0, [])
    ∧ Runner.run c2ctx 3 [] c2parent2 (Task.mk {} []) = .error (.exitProc 5) := by
  refine ⟨?_, ?_, by decide, by decide, by decide⟩
  · intro ctx st resolved hdry hpar hkeep hcode
    obtain ⟨d, ds⟩ := resolved
    simp only [Task.parallel, Task.keep_going, Task.data] at hpar hkeep
    simp only [Task.cmd, Task.cwd, Task.env, Task.henv, Task.data] at hcode ⊢
    simp only [Runner.run_in_shell, hdry, Bool.false_eq_true, if_false]
    rw [if_neg (by simp [Task.parallel, Task.data, hpar])]
    rw [if_pos]
    · rfl
    · simp only [Task.withCode, Task.code, Task.keep_going, Task.data, Task.cmd,
        Task.cwd, Task.env, Task.henv]
      simp [hkeep, hcode]
  · intro ctx st resolved hdry hpar hkeep
    obtain ⟨d, ds⟩ := resolved
    simp only [Task.parallel, Task.keep_going, Task.data] at hpar hkeep
    simp only [Runner.run_in_shell, hdry, Bool.false_eq_true, if_false]
    rw [if_neg (by simp [Task.parallel, Task.data, hpar])]
    rw [if_neg]
    simp only [Task.withCode, Task.code, Task.keep_going, Task.data]
    simp [hkeep]

/-- Counterexample for C2 as stated: the suppressed failure's `run`
returns the non-zero code `1`, not the claimed logical `0`. -/
theorem C2_counterexample :
    Runner.run c2ctx 3 [] c2fail (Task.mk {} []) = .ok (1, [])
    ∧ Runner.run c2ctx 3 [] c2fail (Task.mk {} []) ≠ .ok (0, []) :=
  ⟨by decide, by decide⟩

/-- Witness for C2 (amended) at a concrete input: the fatal branch. -/
theorem C2_failure_policy_witness :
    Runner.run_in_shell c2ctx [] (Task.mk { cmd := "next" } []) =
      .error (.exitProc 5) :=
  (C2_failure_policy.1 c2ctx [] (Task.mk { cmd := "next" } [])
    rfl rfl rfl (by decide)).trans (by decide)

end Ds

namespace Ds

/-! ## Claim C6: composite glob dispatch never dispatches a task to itself -/

/-- The tasks the `for name in others` loop of `Runner.run_composite`
actually dispatches to: the looked-up tasks that pass the guard
`other != task and task not in other.depends`. -/
def dispatchTargets (tasks : List (String × Task)) (task : Task)
    (names : List String) : List Task :=
  names.filterMap (fun name =>
    match tasksGet tasks name with
    | none => none
    | some other =>
      if !(Task.beq other task) && !(other.depends.any (fun d => Task.beq task d))
      then some other else none)

/-- Running the dispatched targets in order, threading the accumulator
exactly as the loop does. -/
def runTargets (runF : List String → Task → Task → Except Halt (Int × List String))
    (override : Task) (extra : List String) :
    List Task → (Bool × Int × List String) → Except Halt (Bool × Int × List String)
  | [], acc => .ok acc
  | other :: rest, acc => do
    let r ← runF acc.2.2 other (Task.withArgs override (override.args ++ extra))
    runTargets runF override extra rest (true, r.1, r.2)

theorem compositeSteps_eq_runTargets
    (runF : List String → Task → Task → Except Halt (Int × List String))
    (tasks : List (String × Task)) (task override : Task) (extra : List String) :
    ∀ (names : List String) (acc : Bool × Int × List String),
      names.foldlM (Runner.compositeStep runF tasks task override extra) acc =
        runTargets runF override extra (dispatchTargets tasks task names) acc := by
  intro names
  induction names with
  | nil => intro acc; rfl
  | cons n rest ih =>
    intro acc
    rw [List.foldlM_cons]
    cases hg : tasksGet tasks n with
    | none =>
      have hstep : Runner.compositeStep runF tasks task override extra acc n =
          Except.ok acc := by
        simp only [Runner.compositeStep, hg]
      have htarg : dispatchTargets tasks task (n :: rest) =
          dispatchTargets tasks task rest := by
        simp only [dispatchTargets, List.filterMap_cons, hg]
      rw [hstep, htarg]
      show Except.bind (Except.ok acc)
        (fun acc2 => rest.foldlM (Runner.compositeStep runF tasks task override extra) acc2) = _
      rw [show Except.bind (Except.ok acc)
        (fun acc2 => rest.foldlM (Runner.compositeStep runF tasks task override extra) acc2) =
        rest.foldlM (Runner.compositeStep runF tasks task override extra) acc from rfl]
      exact ih acc
    | some other =>
      by_cases hguard :
          (!(Task.beq other task) && !(other.depends.any (fun d => Task.beq task d))) = true
      · have hstep : Runner.compositeStep runF tasks task override extra acc n =
            (do
              let r ← runF acc.2.2 other (Task.withArgs override (override.args ++ extra))
              pure (true, r.1, r.2)) := by
          simp only [Runner.compositeStep, hg]
          rw [if_pos hguard]
        have htarg : dispatchTargets tasks task (n :: rest) =
            other :: dispatchTargets tasks task rest := by
          simp only [dispatchTargets, List.filterMap_cons, hg]
          rw [if_pos hguard]
        rw [hstep, htarg]
        cases hr : runF acc.2.2 other (Task.withArgs override (override.args ++ extra)) with
        | error e => simp [runTargets, hr, bind, Except.bind]
        | ok r =>
          simp only [runTargets, hr, bind, Except.bind, pure, Except.pure]
          exact ih (true, r.1, r.2)
      · have hstep : Runner.compositeStep runF tasks task override extra acc n =
            Except.ok acc := by
          simp only [Runner.compositeStep, hg]
          rw [if_neg hguard]
        have htarg : dispatchTargets tasks task (n :: rest) =
            dispatchTargets tasks task rest := by
          simp only [dispatchTargets, List.filterMap_cons, hg]
          rw [if_neg hguard]
        rw [hstep, htarg]
        exact ih acc

/-- Task `ls` whose command is literally `ls`. -/
def c6ls : Task := Task.mk { name := "ls", cmd := "ls" } []

/-- The composite step of a task `ls` defined as the list `["ls"]`. -/
def c6step : Task := Task.mk { name := "#composite", cmd := "ls" } []

/-- Task `ls` defined as the composite `["ls"]`: its only dependency is
the step whose command token matches the task's own name. -/
def c6ls2 : Task := Task.mk { name := "ls" } [c6step]

/-- Context for C6: the shell exits 0 on the literal `ls`, 7 otherwise. -/
def c6ctx : RunCtx :=
  { args := {}
    tasks := [("ls", c6ls)]
    shell := fun cmd _ _ => if cmd == "ls" then 0 else 7
    read_env_file := fun _ => none
    osEnv := [] }

/-- Context for the composite variant of the `ls` self-reference. -/
def c6ctx2 : RunCtx :=
  { args := {}
    tasks := [("ls", c6ls2)]
    shell := fun cmd _ _ => if cmd == "ls" then 0 else 7
    read_env_file := fun _ => none
    osEnv := [] }

/-- C6: composite glob dispatch never dispatches a task to itself: every
dispatched target is distinct from the dispatching task and does not have
it among its dependencies (and the dispatch loop runs exactly those
targets); hence a task named `ls` whose command is `ls` falls through to
the shell and runs the literal command — both when `ls` is a direct shell
command and when it is the composite `["ls"]` (fixed fuel suffices: no
recursive dispatch occurs). -/
theorem C6_no_self_dispatch :
    (∀ (tasks : List (String × Task)) (task : Task) (names : List String)
        (other : Task), other ∈ dispatchTargets tasks task names →
      Task.beq other task = false
        ∧ other.depends.any (fun d => Task.beq task d) = false)
    ∧ (∀ (runF : List String → Task → Task → Except Halt (Int × List String))
        (tasks : List (String × Task)) (task override : Task) (extra : List String)
        (names : List String) (acc : Bool × Int × List String),
      names.foldlM (Runner.compositeStep runF tasks task override extra) acc =
        runTargets runF override extra (dispatchTargets tasks task names) acc)
    ∧ Runner.run c6ctx 3 [] c6ls (Task.mk {} []) = .ok (0, [])
    ∧ Runner.run c6ctx2 5 [] c6ls2 (Task.mk {} []) = .ok (0, []) := by
  refine ⟨?_, compositeSteps_eq_runTargets, by decide, by decide⟩
  intro tasks task names other hmem
  simp only [dispatchTargets, List.mem_filterMap] at hmem
  obtain ⟨name, _, hf⟩ := hmem
  cases hg : tasksGet tasks name with
  | none => rw [hg] at hf; exact absurd hf (by simp)
  | some found =>
    rw [hg] at hf
    have hf2 : (if (!(Task.beq found task)
        && !(found.depends.any (fun d => Task.beq task d))) = true
        then some found else none) = some other := hf
    by_cases hguard :
        (!(Task.beq found task) && !(found.depends.any (fun d => Task.beq task d))) = true
    · rw [if_pos hguard] at hf2
      have heq : found = other := by simpa using hf2
      subst heq
      simp only [Bool.and_eq_true, Bool.not_eq_true'] at hguard
      exact ⟨hguard.1, hguard.2⟩
    · rw [if_neg hguard] at hf2
      exact absurd hf2 (by simp)

/-- Witness for C6 at a concrete input: a genuine dispatch target
satisfies the guard. -/
theorem C6_no_self_dispatch_witness :
    Task.beq c6ls c6step = false
      ∧ c6ls.depends.any (fun d => Task.beq c6step d) = false :=
  C6_no_self_dispatch.1 [("ls", c6ls)] c6step ["ls"] c6ls (by decide)

end Ds

namespace Ds

/-! ## `check_cycles` of `src/ds/tasks.py` over `graphlib.TopologicalSorter`

`check_cycles` derives a name graph (`graph[name]` = the set of first
`shlex` tokens of the task's dependency commands, minus the task's own
name) and returns `list(TopologicalSorter(graph).static_order())`.  The
sorter is CPython's `graphlib` (Lib/graphlib.py): `prepare` runs an
iterative depth-first search for a cycle, then a ready-group loop emits a
topological order.  Python sets are modeled as first-insertion-ordered
duplicate-free lists. -/

/-- Per-node bookkeeping of `graphlib._NodeInfo`: the running predecessor
count and the list of successor names. -/
structure NodeInfo where
  npredecessors : Int := 0
  successors : List String := []
deriving Repr, DecidableEq

/-- `_NODE_OUT`. -/
def NODE_OUT : Int := -1

/-- `_NODE_DONE`. -/
def NODE_DONE : Int := -2

/-- The `_node2info` dict: an insertion-ordered association list. -/
abbrev N2I := List (String × NodeInfo)

/-- Dict lookup in `_node2info`. -/
def niGet (n2i : N2I) (k : String) : Option NodeInfo :=
  match n2i with
  | [] => none
  | (k2, i) :: rest => if k2 = k then some i else niGet rest k

/-- Position-preserving update of an existing key of `_node2info`. -/
def niSet (n2i : N2I) (k : String) (v : NodeInfo) : N2I :=
  match n2i with
  | [] => []
  | (k2, i) :: rest => if k2 = k then (k2, v) :: rest else (k2, i) :: niSet rest k v

/-- `_get_nodeinfo`: make sure the node has an entry, inserting a fresh
one at the end (as Python dict insertion does) if it is new. -/
def ensureNode (n2i : N2I) (k : String) : N2I :=
  match niGet n2i k with
  | some _ => n2i
  | none => n2i ++ [(k, {})]

/-- `TopologicalSorter.add(node, *predecessors)`: bump the node's
predecessor count by the number of predecessors, then record the node as
a successor of each predecessor. -/
def addNode (n2i : N2I) (node : String) (preds : List String) : N2I :=
  let n2i := ensureNode n2i node
  let n2i := match niGet n2i node with
    | some info =>
      niSet n2i node { info with npredecessors := info.npredecessors + preds.length }
    | none => n2i
  preds.foldl (fun acc p =>
    let acc := ensureNode acc p
    match niGet acc p with
    | some info => niSet acc p { info with successors := info.successors ++ [node] }
    | none => acc) n2i

/-- A Python `set` of strings as a first-insertion-ordered
duplicate-free list. -/
def setAdd (s : List String) (x : String) : List String :=
  if x ∈ s then s else s ++ [x]

/-- `graph[name] = edges`: replace in place, or append a new key. -/
def agSet (g : List (String × List String)) (k : String) (v : List String) :
    List (String × List String) :=
  match g with
  | [] => [(k, v)]
  | (k2, v2) :: rest => if k2 = k then (k2, v) :: rest else (k2, v2) :: agSet rest k v

/-- The graph-building loop of `check_cycles`: for every task, the set of
first `shlex` tokens of its dependencies' commands, excluding the task's
own name; `split(dep.cmd)[0]` raises `IndexError` on an empty command and
`shlex` raises `ValueError` on an unclosed quote. -/
def buildGraph (tasks : List (String × Task)) :
    Except PErr (List (String × List String)) :=
  tasks.foldlM (fun g nt => do
    let edges ← nt.2.depends.foldlM (fun es dep => do
        match ← shlexSplit dep.cmd with
        | [] => throw PErr.indexOutOfRange
        | other :: _ => pure (if other ≠ nt.1 then setAdd es other else es)) []
    pure (agSet g nt.1 edges)) []

/-- `TopologicalSorter(graph)`: iterate the graph dict in insertion
order, calling `add(node, *predecessors)` for each item. -/
def buildN2i (g : List (String × List String)) : N2I :=
  g.foldl (fun acc e => addNode acc e.1 e.2) []

/-- The successor list of a node (empty for an unknown node). -/
def succList (n2i : N2I) (k : String) : List String :=
  match niGet n2i k with
  | some info => info.successors
  | none => []

/-- `prepare`'s initial ready list: the nodes with no predecessors, in
dict order. -/
def ready0 (n2i : N2I) : List String :=
  (n2i.filter (fun e => e.2.npredecessors == 0)).map Prod.fst

/-- The result of `_find_cycle`: a cycle, or no cycle together with the
final `seen` set; `fuelOut` never occurs at the fuel `find_cycle`
chooses. -/
inductive FcRes where
  | cyc (c : List String)
  | clear (seen : List String)
  | fuelOut
deriving Repr, DecidableEq

/-- Lookup in the `node2stacki` dict. -/
def nsGet (m : List (String × Nat)) (k : String) : Option Nat :=
  match m with
  | [] => none
  | (k2, v) :: rest => if k2 = k then some v else nsGet rest k

/-- `node2stacki[node] = i`. -/
def nsSet (m : List (String × Nat)) (k : String) (v : Nat) : List (String × Nat) :=
  match m with
  | [] => [(k, v)]
  | (k2, v2) :: rest => if k2 = k then (k2, v) :: rest else (k2, v2) :: nsSet rest k v

/-- `del node2stacki[node]`. -/
def nsDel (m : List (String × Nat)) (k : String) : List (String × Nat) :=
  match m with
  | [] => []
  | (k2, v) :: rest => if k2 = k then rest else (k2, v) :: nsDel rest k

/-- The Python `stack` (bottom first) recovered from the modeled DFS
stack, which is kept top-first with each entry's remaining successor
iterator alongside. -/
def pyStack (st : List (String × List String)) : List String :=
  (st.map Prod.fst).reverse

mutual
/-- One `while True` iteration of `_find_cycle` on the current node:
report `stack[node2stacki[node]:] + [node]` when the node is on the
stack, push an unvisited node (recording its iterator and stack index),
then backtrack for the next node. -/
def fcVisit (n2i : N2I) : Nat → String → List String →
    List (String × List String) → List (String × Nat) → FcRes
  | 0, _, _, _, _ => .fuelOut
  | f + 1, node, seen, st, n2s =>
    if node ∈ seen then
      match nsGet n2s node with
      | some i => .cyc ((pyStack st).drop i ++ [node])
      | none => fcBack n2i f seen st n2s
    else
      fcBack n2i f (node :: seen) ((node, succList n2i node) :: st)
        (nsSet n2s node st.length)
termination_by structural f _ _ _ _ => f

/-- The backtracking loop of `_find_cycle`: pop entries whose iterator is
exhausted (deleting their `node2stacki` slot); the first iterator with a
successor left yields the next node; an empty stack ends the search for
this component. -/
def fcBack (n2i : N2I) : Nat → List String →
    List (String × List String) → List (String × Nat) → FcRes
  | 0, _, _, _ => .fuelOut
  | f + 1, seen, st, n2s =>
    match st with
    | [] => .clear seen
    | (top, iter) :: strest =>
      match iter with
      | [] => fcBack n2i f seen strest (nsDel n2s top)
      | nxt :: iter2 => fcVisit n2i f nxt seen ((top, iter2) :: strest) n2s
termination_by structural f _ _ _ => f
end

/-- The outer loop of `_find_cycle` over the nodes in dict order,
threading the `seen` set; each entry into the inner loop starts with an
empty stack. -/
def fcOuter (n2i : N2I) (fuel : Nat) : List String → List String → FcRes
  | [], seen => .clear seen
  | k :: rest, seen =>
    if k ∈ seen then fcOuter n2i fuel rest seen
    else
      match fcVisit n2i fuel k seen [] [] with
      | .cyc c => .cyc c
      | .fuelOut => .fuelOut
      | .clear seen2 => fcOuter n2i fuel rest seen2

/-- Total successor-list length of the graph. -/
def totalSucc (n2i : N2I) : Nat :=
  (n2i.map (fun e => e.2.successors.length)).sum

/-- A fuel that provably suffices for one entry into the inner DFS
loop. -/
def fcFuel (n2i : N2I) : Nat :=
  (2 * totalSucc n2i + 2) * n2i.length + 2

/-- `TopologicalSorter._find_cycle`. -/
def find_cycle (n2i : N2I) : FcRes :=
  fcOuter n2i (fcFuel n2i) (n2i.map Prod.fst) []

/-- The error paths of `graphlib` proper: `KeyError` on a missing dict
key, and the `ValueError`s `done` raises on a node that was not passed
out. -/
inductive GErr where
  | keyError
  | valueError
deriving Repr, DecidableEq

/-- `get_ready`'s marking pass: set every ready node's count to
`_NODE_OUT`. -/
def markOut (n2i : N2I) : List String → Except GErr N2I
  | [] => .ok n2i
  | k :: rest =>
    match niGet n2i k with
    | none => .error .keyError
    | some info => markOut (niSet n2i k { info with npredecessors := NODE_OUT }) rest

/-- The successor pass of `done(node)`: decrement each successor's
count, collecting into the ready list the ones that reach zero. -/
def decSuccs (n2i : N2I) (ready : List String) : List String →
    Except GErr (N2I × List String)
  | [] => .ok (n2i, ready)
  | s :: rest =>
    match niGet n2i s with
    | none => .error .keyError
    | some info =>
      let np := info.npredecessors - 1
      decSuccs (niSet n2i s { info with npredecessors := np })
        (if np == 0 then ready ++ [s] else ready) rest

/-- `done` for one node: demand the node was passed out, mark it done,
and unblock its successors. -/
def doneNode (acc : N2I × List String) (node : String) : Except GErr (N2I × List String) :=
  match niGet acc.1 node with
  | none => .error .valueError
  | some info =>
    if info.npredecessors ≠ NODE_OUT then .error .valueError
    else
      decSuccs (niSet acc.1 node { info with npredecessors := NODE_DONE })
        acc.2 info.successors

/-- How the Kahn loop ends: the emitted order, a `graphlib` error, or
fuel exhaustion (never at the fuel `check_cycles` chooses). -/
inductive KRes where
  | out (l : List String)
  | err (e : GErr)
  | fuelOut
deriving Repr, DecidableEq

/-- The `static_order` driving loop: while `is_active`, pass out the
whole ready group (marking each node `_NODE_OUT`), emit it, then `done`
each node of the group. -/
def kahnLoop : Nat → N2I → List String → Nat → Nat → List String → KRes
  | 0, _, _, _, _, _ => .fuelOut
  | f + 1, n2i, ready, npassedout, nfinished, output =>
    if nfinished < npassedout || !ready.isEmpty then
      match markOut n2i ready with
      | .error e => .err e
      | .ok n2i2 =>
        match ready.foldlM doneNode (n2i2, []) with
        | .error e => .err e
        | .ok (n2i3, ready3) =>
          kahnLoop f n2i3 ready3 (npassedout + ready.length)
            (nfinished + ready.length) (output ++ ready)
    else .out output

/-- How `check_cycles` ends: the topological order, a `CycleError`
carrying the cycle, a Python exception from graph building or from
`graphlib`, or fuel exhaustion (impossible at the chosen fuels; the
Python loops carry no structural bound). -/
inductive ChkRes where
  | order (l : List String)
  | cycleErr (c : List String)
  | pyErr (e : PErr)
  | gErr (e : GErr)
  | fuelOut
deriving Repr, DecidableEq

/-- `check_cycles(tasks)`: build the name graph, then
`list(TopologicalSorter(graph).static_order())` — `prepare` computes the
initial ready list and searches for a cycle, then the ready-group loop
emits the order. -/
def check_cycles (tasks : List (String × Task)) : ChkRes :=
  match buildGraph tasks with
  | .error e => .pyErr e
  | .ok g =>
    let n2i := buildN2i g
    let ready := ready0 n2i
    match find_cycle n2i with
    | .fuelOut => .fuelOut
    | .cyc c => .cycleErr c
    | .clear _ =>
      match kahnLoop (n2i.length + 1) n2i ready 0 0 [] with
      | .out l => .order l
      | .err e => .gErr e
      | .fuelOut => .fuelOut

/-- Task `a`, whose only composite dependency references name `b`. -/
def c3a : Task := Task.mk { name := "a" } [Task.mk { cmd := "b" } []]

/-- Task `b`, whose only composite dependency references name `a`. -/
def c3b : Task := Task.mk { name := "b" } [Task.mk { cmd := "a" } []]

/-- An acyclic variant: `a` depends on `b`, `b` on nothing. -/
def c3b0 : Task := Task.mk { name := "b" } []

example : buildGraph [("a", c3a), ("b", c3b)] =
    .ok [("a", ["b"]), ("b", ["a"])] := by decide

example : buildN2i [("a", ["b"]), ("b", ["a"])] =
    [("a", ⟨1, ["b"]⟩), ("b", ⟨1, ["a"]⟩)] := by decide

example : check_cycles [("a", c3a), ("b", c3b)] = .cycleErr ["a", "b", "a"] := by decide

example : check_cycles [("a", c3a), ("b", c3b0)] = .order ["b", "a"] := by decide

end Ds

namespace Ds

/-! ### Dictionary lemmas for the `graphlib` model -/

theorem niSet_map_fst (n2i : N2I) (k : String) (v : NodeInfo) :
    (niSet n2i k v).map Prod.fst = n2i.map Prod.fst := by
  induction n2i with
  | nil => rfl
  | cons e rest ih =>
    obtain ⟨k2, i⟩ := e
    simp only [niSet]
    by_cases h : k2 = k <;> simp [h, ih]

theorem niGet_eq_none_iff (n2i : N2I) (k : String) :
    niGet n2i k = none ↔ k ∉ n2i.map Prod.fst := by
  induction n2i with
  | nil => simp [niGet]
  | cons e rest ih =>
    obtain ⟨k2, i⟩ := e
    simp only [niGet, List.map_cons, List.mem_cons]
    by_cases h : k2 = k
    · subst h; simp
    · simp [h, ih, Ne.symm h]

theorem niGet_mem (n2i : N2I) (k : String) (i : NodeInfo)
    (h : niGet n2i k = some i) : (k, i) ∈ n2i := by
  induction n2i with
  | nil => simp [niGet] at h
  | cons e rest ih =>
    obtain ⟨k2, i2⟩ := e
    simp only [niGet] at h
    by_cases h2 : k2 = k
    · subst h2
      rw [if_pos rfl] at h
      cases h
      exact List.mem_cons_self _ _
    · simp only [if_neg h2] at h
      exact List.mem_cons_of_mem _ (ih h)

theorem niGet_isSome_iff (n2i : N2I) (k : String) :
    (niGet n2i k).isSome = true ↔ k ∈ n2i.map Prod.fst := by
  cases hg : niGet n2i k with
  | none =>
    rw [niGet_eq_none_iff] at hg
    simp [hg]
  | some i =>
    simp only [Option.isSome_some, true_iff]
    exact List.mem_map.mpr ⟨(k, i), niGet_mem _ _ _ hg, rfl⟩

theorem niGet_niSet_self (n2i : N2I) (k : String) (v : NodeInfo)
    (h : (niGet n2i k).isSome) : niGet (niSet n2i k v) k = some v := by
  induction n2i with
  | nil => simp [niGet] at h
  | cons e rest ih =>
    obtain ⟨k2, i⟩ := e
    simp only [niGet, niSet] at h ⊢
    by_cases h2 : k2 = k
    · simp [h2, niGet]
    · simp only [if_neg h2] at h ⊢
      simp only [niGet, if_neg h2]
      exact ih h

theorem niSet_of_none (n2i : N2I) (k : String) (v : NodeInfo)
    (h : niGet n2i k = none) : niSet n2i k v = n2i := by
  induction n2i with
  | nil => rfl
  | cons e rest ih =>
    obtain ⟨k2, i⟩ := e
    simp only [niGet] at h
    by_cases h2 : k2 = k
    · simp [h2] at h
    · simp only [if_neg h2] at h
      simp [niSet, h2, ih h]

theorem niGet_niSet_ne (n2i : N2I) (k k2 : String) (v : NodeInfo)
    (h : k2 ≠ k) : niGet (niSet n2i k v) k2 = niGet n2i k2 := by
  induction n2i with
  | nil => rfl
  | cons e rest ih =>
    obtain ⟨k3, i⟩ := e
    simp only [niSet]
    by_cases h3 : k3 = k
    · subst h3
      simp only [if_pos rfl, niGet]
      rw [if_neg (fun hq => h hq.symm), if_neg (fun hq => h hq.symm)]
    · simp only [if_neg h3, niGet]
      by_cases h4 : k3 = k2 <;> simp [h4, ih]

theorem niGet_append_right (n2i : N2I) (e : String × NodeInfo) (k : String)
    (h : niGet n2i k = none) :
    niGet (n2i ++ [e]) k = if e.1 = k then some e.2 else none := by
  induction n2i with
  | nil => simp [niGet]
  | cons e2 rest ih =>
    obtain ⟨k2, i⟩ := e2
    simp only [niGet] at h
    by_cases h2 : k2 = k
    · simp [h2] at h
    · simp only [if_neg h2] at h
      simp only [List.cons_append, niGet, if_neg h2]
      exact ih h

theorem niGet_append_left (n2i : N2I) (l : N2I) (k : String)
    (h : (niGet n2i k).isSome) : niGet (n2i ++ l) k = niGet n2i k := by
  induction n2i with
  | nil => simp [niGet] at h
  | cons e rest ih =>
    obtain ⟨k2, i⟩ := e
    simp only [niGet] at h ⊢
    by_cases h2 : k2 = k
    · simp [List.cons_append, niGet, h2]
    · simp only [if_neg h2] at h
      simp only [List.cons_append, niGet, if_neg h2]
      exact ih h

theorem niGet_ensure_ne (n2i : N2I) (k k2 : String) (h : k2 ≠ k) :
    niGet (ensureNode n2i k) k2 = niGet n2i k2 := by
  unfold ensureNode
  cases hg : niGet n2i k with
  | some i => rfl
  | none =>
    cases hg2 : niGet n2i k2 with
    | some i =>
      rw [niGet_append_left]
      · exact hg2
      · simp [hg2]
    | none =>
      rw [niGet_append_right _ _ _ hg2]
      exact if_neg (fun hq => h hq.symm)

theorem niGet_ensure_self (n2i : N2I) (k : String) :
    niGet (ensureNode n2i k) k =
      some (match niGet n2i k with | some i => i | none => {}) := by
  unfold ensureNode
  cases hg : niGet n2i k with
  | some i => exact hg
  | none => rw [niGet_append_right _ _ _ hg]; simp

theorem ensure_map_fst_of_some (n2i : N2I) (k : String)
    (h : (niGet n2i k).isSome) :
    (ensureNode n2i k).map Prod.fst = n2i.map Prod.fst := by
  unfold ensureNode
  cases hg : niGet n2i k with
  | some i => rfl
  | none => rw [hg] at h; simp at h

theorem ensure_map_fst_of_none (n2i : N2I) (k : String)
    (h : niGet n2i k = none) :
    (ensureNode n2i k).map Prod.fst = n2i.map Prod.fst ++ [k] := by
  unfold ensureNode
  rw [h]
  simp

theorem ensure_nodup (n2i : N2I) (k : String)
    (h : (n2i.map Prod.fst).Nodup) :
    ((ensureNode n2i k).map Prod.fst).Nodup := by
  unfold ensureNode
  cases hg : niGet n2i k with
  | some i => exact h
  | none =>
    rw [niGet_eq_none_iff] at hg
    simp [List.nodup_append, h, hg]

theorem mem_niGet (n2i : N2I) (k : String) (i : NodeInfo)
    (hnd : (n2i.map Prod.fst).Nodup) (h : (k, i) ∈ n2i) :
    niGet n2i k = some i := by
  induction n2i with
  | nil => simp at h
  | cons e rest ih =>
    obtain ⟨k2, i2⟩ := e
    simp only [List.map_cons, List.nodup_cons] at hnd
    rcases List.mem_cons.mp h with h1 | h1
    · cases h1
      simp [niGet]
    · have hne : k2 ≠ k := by
        intro hq
        subst hq
        exact hnd.1 (List.mem_map.mpr ⟨(k2, i), h1, rfl⟩)
      simp only [niGet, if_neg hne]
      exact ih hnd.2 h1

theorem nsGet_nsSet_self (m : List (String × Nat)) (k : String) (v : Nat) :
    nsGet (nsSet m k v) k = some v := by
  induction m with
  | nil => simp [nsSet, nsGet]
  | cons e rest ih =>
    obtain ⟨k2, v2⟩ := e
    simp only [nsSet]
    by_cases h : k2 = k <;> simp [h, nsGet, ih]

theorem nsGet_nsSet_ne (m : List (String × Nat)) (k k2 : String) (v : Nat)
    (h : k2 ≠ k) : nsGet (nsSet m k v) k2 = nsGet m k2 := by
  induction m with
  | nil => simp [nsSet, nsGet, Ne.symm h]
  | cons e rest ih =>
    obtain ⟨k3, v3⟩ := e
    simp only [nsSet]
    by_cases h3 : k3 = k
    · subst h3
      simp only [if_pos rfl, nsGet]
      rw [if_neg (fun hq => h hq.symm), if_neg (fun hq => h hq.symm)]
    · simp only [if_neg h3, nsGet]
      by_cases h4 : k3 = k2 <;> simp [h4, ih]

theorem nsSet_of_not_mem (m : List (String × Nat)) (k : String) (v : Nat)
    (h : k ∉ m.map Prod.fst) : nsSet m k v = m ++ [(k, v)] := by
  induction m with
  | nil => rfl
  | cons e rest ih =>
    obtain ⟨k2, v2⟩ := e
    simp only [List.map_cons, List.mem_cons] at h
    push_neg at h
    simp [nsSet, Ne.symm h.1, ih h.2]

theorem nsGet_eq_none_iff (m : List (String × Nat)) (k : String) :
    nsGet m k = none ↔ k ∉ m.map Prod.fst := by
  induction m with
  | nil => simp [nsGet]
  | cons e rest ih =>
    obtain ⟨k2, v⟩ := e
    simp only [nsGet, List.map_cons, List.mem_cons]
    by_cases h : k2 = k
    · subst h; simp
    · simp [h, ih, Ne.symm h]

theorem nsGet_isSome_iff (m : List (String × Nat)) (k : String) :
    (nsGet m k).isSome = true ↔ k ∈ m.map Prod.fst := by
  cases hg : nsGet m k with
  | none =>
    rw [nsGet_eq_none_iff] at hg
    simp [hg]
  | some i =>
    simp only [Option.isSome_some, true_iff]
    by_contra hmem
    rw [← nsGet_eq_none_iff] at hmem
    rw [hmem] at hg
    exact Option.noConfusion hg

theorem nsGet_nsDel_self (m : List (String × Nat)) (k : String)
    (hnd : (m.map Prod.fst).Nodup) : nsGet (nsDel m k) k = none := by
  induction m with
  | nil => simp [nsDel, nsGet]
  | cons e rest ih =>
    obtain ⟨k2, v⟩ := e
    simp only [List.map_cons, List.nodup_cons] at hnd
    simp only [nsDel]
    by_cases h : k2 = k
    · subst h
      rw [if_pos rfl, nsGet_eq_none_iff]
      exact hnd.1
    · simp only [if_neg h, nsGet, if_neg h]
      exact ih hnd.2

theorem nsGet_nsDel_ne (m : List (String × Nat)) (k k2 : String)
    (h : k2 ≠ k) : nsGet (nsDel m k) k2 = nsGet m k2 := by
  induction m with
  | nil => rfl
  | cons e rest ih =>
    obtain ⟨k3, v⟩ := e
    simp only [nsDel]
    by_cases h3 : k3 = k
    · subst h3
      rw [if_pos rfl]
      show nsGet rest k2 = nsGet ((k3, v) :: rest) k2
      simp only [nsGet]
      rw [if_neg (fun hq => h hq.symm)]
    · simp only [if_neg h3, nsGet]
      by_cases h4 : k3 = k2 <;> simp [h4, ih]

theorem nsDel_map_fst_sublist (m : List (String × Nat)) (k : String) :
    ((nsDel m k).map Prod.fst).Sublist (m.map Prod.fst) := by
  induction m with
  | nil => simp [nsDel]
  | cons e rest ih =>
    obtain ⟨k2, v⟩ := e
    simp only [nsDel]
    by_cases h : k2 = k
    · simp only [if_pos h, List.map_cons]
      exact (List.Sublist.refl _).cons _
    · simp only [if_neg h, List.map_cons]
      exact ih.cons₂ _

theorem nsDel_nodup (m : List (String × Nat)) (k : String)
    (hnd : (m.map Prod.fst).Nodup) : ((nsDel m k).map Prod.fst).Nodup :=
  (nsDel_map_fst_sublist m k).nodup hnd

theorem mem_setAdd (s : List String) (x y : String) :
    y ∈ setAdd s x ↔ y ∈ s ∨ y = x := by
  unfold setAdd
  by_cases h : x ∈ s
  · simp only [if_pos h]
    constructor
    · exact Or.inl
    · rintro (h2 | rfl)
      · exact h2
      · exact h
  · simp [if_neg h]

theorem setAdd_nodup (s : List String) (x : String) (h : s.Nodup) :
    (setAdd s x).Nodup := by
  unfold setAdd
  by_cases h2 : x ∈ s
  · simpa [h2]
  · simp [h2, List.nodup_append, h]

theorem agSet_map_fst_of_mem (g : List (String × List String)) (k : String)
    (v : List String) (h : k ∈ g.map Prod.fst) :
    (agSet g k v).map Prod.fst = g.map Prod.fst := by
  induction g with
  | nil => simp at h
  | cons e rest ih =>
    obtain ⟨k2, v2⟩ := e
    simp only [agSet]
    by_cases h2 : k2 = k
    · simp [h2]
    · simp only [List.map_cons, List.mem_cons] at h
      rcases h with h | h
      · exact absurd h.symm h2
      · simp [h2, ih h]

theorem agSet_map_fst_of_not_mem (g : List (String × List String)) (k : String)
    (v : List String) (h : k ∉ g.map Prod.fst) :
    (agSet g k v).map Prod.fst = g.map Prod.fst ++ [k] := by
  induction g with
  | nil => rfl
  | cons e rest ih =>
    obtain ⟨k2, v2⟩ := e
    simp only [List.map_cons, List.mem_cons] at h
    push_neg at h
    simp [agSet, Ne.symm h.1, ih h.2]

theorem agSet_nodup (g : List (String × List String)) (k : String)
    (v : List String) (h : (g.map Prod.fst).Nodup) :
    ((agSet g k v).map Prod.fst).Nodup := by
  by_cases h2 : k ∈ g.map Prod.fst
  · rw [agSet_map_fst_of_mem _ _ _ h2]; exact h
  · rw [agSet_map_fst_of_not_mem _ _ _ h2]
    simp [List.nodup_append, h, h2]

theorem mem_agSet (g : List (String × List String)) (k : String)
    (v : List String) (e : String × List String)
    (hnd : (g.map Prod.fst).Nodup)
    (h : e ∈ agSet g k v) : e = (k, v) ∨ (e ∈ g ∧ e.1 ≠ k) := by
  induction g with
  | nil =>
    simp only [agSet, List.mem_singleton] at h
    exact Or.inl h
  | cons e2 rest ih =>
    obtain ⟨k2, v2⟩ := e2
    simp only [List.map_cons, List.nodup_cons] at hnd
    simp only [agSet] at h
    by_cases h2 : k2 = k
    · subst h2
      rw [if_pos rfl, List.mem_cons] at h
      rcases h with rfl | h
      · exact Or.inl rfl
      · refine Or.inr ⟨List.mem_cons_of_mem _ h, ?_⟩
        intro hq
        exact hnd.1 (hq ▸ List.mem_map.mpr ⟨e, h, rfl⟩)
    · simp only [if_neg h2, List.mem_cons] at h
      rcases h with rfl | h
      · exact Or.inr ⟨List.mem_cons_self _ _, h2⟩
      · rcases ih hnd.2 h with h3 | h3
        · exact Or.inl h3
        · exact Or.inr ⟨List.mem_cons_of_mem _ h3.1, h3.2⟩

end Ds

namespace Ds

/-! ### Characterizing `addNode` and `buildN2i` -/

/-- The stored predecessor count of a node (0 for unknown nodes). -/
def npredOf (n2i : N2I) (k : String) : Int :=
  match niGet n2i k with
  | some i => i.npredecessors
  | none => 0

/-- The number of live predecessors of `k`: the keys not in `dead` whose
successor list contains `k` (successor lists are duplicate-free in graphs
built by `buildN2i`). -/
def predCnt (n2i : N2I) (dead : List String) (k : String) : Nat :=
  ((n2i.map Prod.fst).filter
    (fun u => decide (u ∉ dead) && decide (k ∈ succList n2i u))).length

/-- One predecessor step of `add`: make sure `p` has an entry and append
`node` to its successor list. -/
def addPred (node : String) (a : N2I) (p : String) : N2I :=
  match niGet (ensureNode a p) p with
  | some info =>
    niSet (ensureNode a p) p { info with successors := info.successors ++ [node] }
  | none => ensureNode a p

theorem addNode_eq (acc : N2I) (node : String) (preds : List String) :
    addNode acc node preds =
      preds.foldl (addPred node)
        (match niGet (ensureNode acc node) node with
         | some info =>
           niSet (ensureNode acc node) node
             { info with npredecessors := info.npredecessors + preds.length }
         | none => ensureNode acc node) := by
  rfl

theorem succList_ensure (a : N2I) (p k : String) :
    succList (ensureNode a p) k = succList a k := by
  unfold succList
  by_cases h : k = p
  · subst h
    rw [niGet_ensure_self]
    cases niGet a k <;> rfl
  · rw [niGet_ensure_ne _ _ _ h]

theorem npredOf_ensure (a : N2I) (p k : String) :
    npredOf (ensureNode a p) k = npredOf a k := by
  unfold npredOf
  by_cases h : k = p
  · subst h
    rw [niGet_ensure_self]
    cases niGet a k <;> rfl
  · rw [niGet_ensure_ne _ _ _ h]

theorem mem_keys_ensure (a : N2I) (p k : String) :
    k ∈ (ensureNode a p).map Prod.fst ↔ k ∈ a.map Prod.fst ∨ k = p := by
  cases hg : niGet a p with
  | some i =>
    rw [ensure_map_fst_of_some _ _ (by simp [hg])]
    constructor
    · exact Or.inl
    · rintro (h | rfl)
      · exact h
      · rw [← niGet_isSome_iff]
        simp [hg]
  | none =>
    rw [ensure_map_fst_of_none _ _ hg]
    simp

theorem succList_addPred_self (a : N2I) (node p : String) :
    succList (addPred node a p) p = succList a p ++ [node] := by
  unfold addPred
  rw [niGet_ensure_self]
  simp only []
  unfold succList
  rw [niGet_niSet_self]
  · simp only []
    cases niGet a p <;> rfl
  · rw [niGet_ensure_self]
    rfl

theorem succList_addPred_ne (a : N2I) (node p k : String) (h : k ≠ p) :
    succList (addPred node a p) k = succList a k := by
  unfold addPred
  rw [niGet_ensure_self]
  simp only []
  unfold succList
  rw [niGet_niSet_ne _ _ _ _ h, niGet_ensure_ne _ _ _ h]

theorem npredOf_addPred (a : N2I) (node p k : String) :
    npredOf (addPred node a p) k = npredOf a k := by
  unfold addPred
  rw [niGet_ensure_self]
  simp only []
  by_cases h : k = p
  · subst h
    unfold npredOf
    rw [niGet_niSet_self]
    · simp only []
      cases niGet a k <;> rfl
    · rw [niGet_ensure_self]
      rfl
  · unfold npredOf
    rw [niGet_niSet_ne _ _ _ _ h, niGet_ensure_ne _ _ _ h]

theorem mem_keys_addPred (a : N2I) (node p k : String) :
    k ∈ (addPred node a p).map Prod.fst ↔ k ∈ a.map Prod.fst ∨ k = p := by
  unfold addPred
  rw [niGet_ensure_self]
  simp only []
  rw [niSet_map_fst]
  exact mem_keys_ensure a p k

theorem nodup_addPred (a : N2I) (node p : String)
    (h : (a.map Prod.fst).Nodup) : ((addPred node a p).map Prod.fst).Nodup := by
  unfold addPred
  rw [niGet_ensure_self]
  simp only []
  rw [niSet_map_fst]
  exact ensure_nodup a p h

theorem addPreds_char (node : String) (preds : List String) :
    ∀ (a : N2I), preds.Nodup →
      (∀ k, succList (preds.foldl (addPred node) a) k =
        succList a k ++ (if k ∈ preds then [node] else []))
      ∧ (∀ k, npredOf (preds.foldl (addPred node) a) k = npredOf a k)
      ∧ (∀ k, k ∈ (preds.foldl (addPred node) a).map Prod.fst ↔
          k ∈ a.map Prod.fst ∨ k ∈ preds)
      ∧ ((a.map Prod.fst).Nodup → ((preds.foldl (addPred node) a).map Prod.fst).Nodup) := by
  induction preds with
  | nil =>
    intro a _
    refine ⟨fun k => by simp, fun k => rfl, fun k => by simp, fun h => h⟩
  | cons p rest ih =>
    intro a hnd
    rw [List.nodup_cons] at hnd
    obtain ⟨ih1, ih2, ih3, ih4⟩ := ih (addPred node a p) hnd.2
    refine ⟨?_, ?_, ?_, ?_⟩
    · intro k
      rw [List.foldl_cons, ih1 k]
      by_cases hk : k = p
      · subst hk
        rw [succList_addPred_self]
        simp [hnd.1, List.mem_cons]
      · rw [succList_addPred_ne _ _ _ _ hk]
        by_cases hk2 : k ∈ rest <;> simp [hk, hk2, List.mem_cons]
    · intro k
      rw [List.foldl_cons, ih2 k, npredOf_addPred]
    · intro k
      rw [List.foldl_cons, ih3 k, mem_keys_addPred]
      simp [List.mem_cons, or_assoc]
    · intro h
      rw [List.foldl_cons]
      exact ih4 (nodup_addPred _ _ _ h)

end Ds

namespace Ds

/-! ### `addNode`: successor, count and key characterization -/

theorem succList_addNode (acc : N2I) (node : String) (preds : List String)
    (hnd : preds.Nodup) (k : String) :
    succList (addNode acc node preds) k =
      succList acc k ++ (if k ∈ preds then [node] else []) := by
  rw [addNode_eq, (addPreds_char node preds _ hnd).1 k]
  rw [niGet_ensure_self]
  simp only []
  congr 1
  unfold succList
  by_cases h : k = node
  · subst h
    rw [niGet_niSet_self _ _ _ (by rw [niGet_ensure_self]; rfl)]
    simp only []
    cases niGet acc k <;> rfl
  · rw [niGet_niSet_ne _ _ _ _ h, niGet_ensure_ne _ _ _ h]

theorem npredOf_addNode (acc : N2I) (node : String) (preds : List String)
    (hnd : preds.Nodup) (k : String) :
    npredOf (addNode acc node preds) k =
      npredOf acc k + (if k = node then (preds.length : Int) else 0) := by
  rw [addNode_eq, (addPreds_char node preds _ hnd).2.1 k]
  rw [niGet_ensure_self]
  simp only []
  unfold npredOf
  by_cases h : k = node
  · subst h
    rw [niGet_niSet_self _ _ _ (by rw [niGet_ensure_self]; rfl)]
    simp only [if_pos rfl]
    cases niGet acc k <;> simp
  · rw [niGet_niSet_ne _ _ _ _ h, niGet_ensure_ne _ _ _ h, if_neg h]
    cases niGet acc k <;> simp

theorem mem_keys_addNode (acc : N2I) (node : String) (preds : List String)
    (hnd : preds.Nodup) (k : String) :
    k ∈ (addNode acc node preds).map Prod.fst ↔
      k ∈ acc.map Prod.fst ∨ k = node ∨ k ∈ preds := by
  rw [addNode_eq, (addPreds_char node preds _ hnd).2.2.1 k]
  rw [niGet_ensure_self]
  simp only []
  rw [niSet_map_fst, mem_keys_ensure]
  tauto

theorem nodup_addNode (acc : N2I) (node : String) (preds : List String)
    (hnd : preds.Nodup) (h : (acc.map Prod.fst).Nodup) :
    ((addNode acc node preds).map Prod.fst).Nodup := by
  rw [addNode_eq]
  refine (addPreds_char node preds _ hnd).2.2.2 ?_
  rw [niGet_ensure_self]
  simp only []
  rw [niSet_map_fst]
  exact ensure_nodup acc node h

theorem keys_ensure_ext (a : N2I) (k : String) :
    ∃ ext, (ensureNode a k).map Prod.fst = a.map Prod.fst ++ ext := by
  cases hg : niGet a k with
  | some i => exact ⟨[], by rw [ensure_map_fst_of_some _ _ (by simp [hg])]; simp⟩
  | none => exact ⟨[k], ensure_map_fst_of_none _ _ hg⟩

theorem keys_addPred_ext (a : N2I) (node p : String) :
    ∃ ext, (addPred node a p).map Prod.fst = a.map Prod.fst ++ ext := by
  unfold addPred
  rw [niGet_ensure_self]
  simp only []
  rw [niSet_map_fst]
  exact keys_ensure_ext a p

theorem keys_addPreds_ext (node : String) (preds : List String) :
    ∀ (a : N2I), ∃ ext,
      (preds.foldl (addPred node) a).map Prod.fst = a.map Prod.fst ++ ext := by
  induction preds with
  | nil => intro a; exact ⟨[], by simp⟩
  | cons p rest ih =>
    intro a
    obtain ⟨e1, h1⟩ := keys_addPred_ext a node p
    obtain ⟨e2, h2⟩ := ih (addPred node a p)
    exact ⟨e1 ++ e2, by rw [List.foldl_cons, h2, h1, List.append_assoc]⟩

theorem keys_addNode_ext (acc : N2I) (node : String) (preds : List String) :
    ∃ ext, (addNode acc node preds).map Prod.fst = acc.map Prod.fst ++ ext := by
  rw [addNode_eq]
  obtain ⟨e2, h2⟩ := keys_addPreds_ext node preds
    (match niGet (ensureNode acc node) node with
     | some info =>
       niSet (ensureNode acc node) node
         { info with npredecessors := info.npredecessors + preds.length }
     | none => ensureNode acc node)
  rw [h2, niGet_ensure_self]
  simp only []
  rw [niSet_map_fst]
  obtain ⟨e1, h1⟩ := keys_ensure_ext acc node
  exact ⟨e1 ++ e2, by rw [← List.append_assoc, ← h1]⟩

theorem predCnt_nil_eq (n2i : N2I) (k : String) :
    predCnt n2i [] k =
      ((n2i.map Prod.fst).filter (fun u => decide (k ∈ succList n2i u))).length := by
  unfold predCnt
  congr 1

theorem filter_mem_length (K P : List String) (hK : K.Nodup) (hP : P.Nodup)
    (hsub : ∀ x ∈ P, x ∈ K) :
    (K.filter (fun u => decide (u ∈ P))).length = P.length := by
  have h1 : (K.filter (fun u => decide (u ∈ P))).Nodup := hK.filter _
  have hmem : ∀ x, x ∈ K.filter (fun u => decide (u ∈ P)) ↔ x ∈ P := by
    intro x
    simp only [List.mem_filter, decide_eq_true_eq]
    exact ⟨fun h => h.2, fun h => ⟨hsub x h, h⟩⟩
  exact ((List.perm_ext_iff_of_nodup h1 hP).mpr hmem).length_eq

end Ds

namespace Ds

/-! ### Well-formedness of the built `_node2info` table -/

theorem succList_of_not_mem (acc : N2I) (k : String)
    (h : k ∉ acc.map Prod.fst) : succList acc k = [] := by
  unfold succList
  rw [(niGet_eq_none_iff acc k).mpr h]

/-- Invariant of the `TopologicalSorter(graph)` construction after the
entries whose names are in `done` have been added: keys are unique,
successor lists are duplicate-free, mention only processed names (hence
existing keys), every stored count equals the number of keys whose
successor list names the node, and every successor edge is justified by a
graph entry. -/
structure BWF (G : List (String × List String)) (done : List String)
    (acc : N2I) : Prop where
  nodup : (acc.map Prod.fst).Nodup
  succ_done : ∀ k s, s ∈ succList acc k → s ∈ done
  succ_mem : ∀ k s, s ∈ succList acc k → s ∈ acc.map Prod.fst
  succ_nodup : ∀ k, (succList acc k).Nodup
  npred_eq : ∀ k, npredOf acc k = (predCnt acc [] k : Int)
  bwd : ∀ k s, s ∈ succList acc k → ∃ preds, (s, preds) ∈ G ∧ k ∈ preds

theorem BWF_addNode (G : List (String × List String)) (done : List String)
    (acc : N2I) (node : String) (preds : List String)
    (hb : BWF G done acc) (hnode : node ∉ done) (hpnd : preds.Nodup)
    (hG : (node, preds) ∈ G) :
    BWF G (done ++ [node]) (addNode acc node preds) := by
  have hsucc := succList_addNode acc node preds hpnd
  have hnp := npredOf_addNode acc node preds hpnd
  have hmemk := mem_keys_addNode acc node preds hpnd
  have hnodup := nodup_addNode acc node preds hpnd hb.nodup
  obtain ⟨ext, hext⟩ := keys_addNode_ext acc node preds
  have hdisj : ∀ u ∈ ext, u ∉ acc.map Prod.fst := by
    intro u hu hmem
    have h2 := hnodup
    rw [hext, List.nodup_append] at h2
    exact h2.2.2 hmem hu
  have hnode_nosucc : ∀ u, node ∉ succList acc u := by
    intro u hmem
    exact hnode (hb.succ_done u node hmem)
  refine ⟨hnodup, ?_, ?_, ?_, ?_, ?_⟩
  · intro k s hs
    rw [hsucc k, List.mem_append] at hs
    rcases hs with hs | hs
    · exact List.mem_append_left _ (hb.succ_done k s hs)
    · by_cases hk : k ∈ preds
      · rw [if_pos hk, List.mem_singleton] at hs
        subst hs
        exact List.mem_append_right _ (List.mem_singleton_self _)
      · rw [if_neg hk] at hs
        exact absurd hs (List.not_mem_nil _)
  · intro k s hs
    rw [hsucc k, List.mem_append] at hs
    rcases hs with hs | hs
    · exact (hmemk s).mpr (Or.inl (hb.succ_mem k s hs))
    · by_cases hk : k ∈ preds
      · rw [if_pos hk, List.mem_singleton] at hs
        subst hs
        exact (hmemk s).mpr (Or.inr (Or.inl rfl))
      · rw [if_neg hk] at hs
        exact absurd hs (List.not_mem_nil _)
  · intro k
    rw [hsucc k]
    by_cases hk : k ∈ preds
    · rw [if_pos hk]
      rw [List.nodup_append]
      exact ⟨hb.succ_nodup k, List.nodup_singleton _,
        fun s hs hs2 => (List.mem_singleton.mp hs2 ▸ hnode_nosucc k) hs⟩
    · rw [if_neg hk, List.append_nil]
      exact hb.succ_nodup k
  · intro k
    rw [hnp k, predCnt_nil_eq, hext]
    by_cases hkn : k = node
    · subst hkn
      have hcong : (acc.map Prod.fst ++ ext).filter
          (fun u => decide (k ∈ succList (addNode acc k preds) u)) =
          (acc.map Prod.fst ++ ext).filter (fun u => decide (u ∈ preds)) := by
        apply List.filter_congr
        intro u hu
        apply decide_eq_decide.mpr
        rw [hsucc u, List.mem_append]
        constructor
        · rintro (hs | hs)
          · exact absurd hs (hnode_nosucc u)
          · by_cases hup : u ∈ preds
            · exact hup
            · rw [if_neg hup] at hs
              exact absurd hs (List.not_mem_nil _)
        · intro hup
          rw [if_pos hup]
          exact Or.inr (List.mem_singleton_self _)
      rw [hcong]
      have hfl : ((acc.map Prod.fst ++ ext).filter
          (fun u => decide (u ∈ preds))).length = preds.length := by
        apply filter_mem_length _ _ (hext ▸ hnodup) hpnd
        intro x hx
        rw [← hext]
        exact (hmemk x).mpr (Or.inr (Or.inr hx))
      rw [hfl]
      have h0 : predCnt acc [] k = 0 := by
        rw [predCnt_nil_eq, List.length_eq_zero, List.filter_eq_nil]
        intro u hu
        simp only [decide_eq_true_eq]
        exact hnode_nosucc u
      rw [hb.npred_eq k, h0, if_pos rfl]
      simp
    · rw [if_neg hkn, List.filter_append, List.length_append]
      have hext0 : (ext.filter
          (fun u => decide (k ∈ succList (addNode acc node preds) u))).length = 0 := by
        rw [List.length_eq_zero, List.filter_eq_nil]
        intro u hu
        simp only [decide_eq_true_eq]
        rw [hsucc u, List.mem_append]
        rintro (hs | hs)
        · rw [succList_of_not_mem acc u (hdisj u hu)] at hs
          exact absurd hs (List.not_mem_nil _)
        · by_cases hup : u ∈ preds
          · rw [if_pos hup, List.mem_singleton] at hs
            exact hkn hs
          · rw [if_neg hup] at hs
            exact absurd hs (List.not_mem_nil _)
      have hcong : (acc.map Prod.fst).filter
          (fun u => decide (k ∈ succList (addNode acc node preds) u)) =
          (acc.map Prod.fst).filter (fun u => decide (k ∈ succList acc u)) := by
        apply List.filter_congr
        intro u hu
        apply decide_eq_decide.mpr
        rw [hsucc u, List.mem_append]
        constructor
        · rintro (hs | hs)
          · exact hs
          · by_cases hup : u ∈ preds
            · rw [if_pos hup, List.mem_singleton] at hs
              exact absurd hs hkn
            · rw [if_neg hup] at hs
              exact absurd hs (List.not_mem_nil _)
        · exact Or.inl
      rw [hext0, hcong, hb.npred_eq k, predCnt_nil_eq]
      simp
  · intro k s hs
    rw [hsucc k, List.mem_append] at hs
    rcases hs with hs | hs
    · exact hb.bwd k s hs
    · by_cases hk : k ∈ preds
      · rw [if_pos hk, List.mem_singleton] at hs
        subst hs
        exact ⟨preds, hG, hk⟩
      · rw [if_neg hk] at hs
        exact absurd hs (List.not_mem_nil _)

end Ds

namespace Ds

theorem succ_mono_addNode (acc : N2I) (node : String) (preds : List String)
    (hpnd : preds.Nodup) (k s : String) (h : s ∈ succList acc k) :
    s ∈ succList (addNode acc node preds) k := by
  rw [succList_addNode acc node preds hpnd k]
  exact List.mem_append_left _ h

theorem keys_mono_addNode (acc : N2I) (node : String) (preds : List String)
    (k : String) (h : k ∈ acc.map Prod.fst) :
    k ∈ (addNode acc node preds).map Prod.fst := by
  obtain ⟨ext, hext⟩ := keys_addNode_ext acc node preds
  rw [hext]
  exact List.mem_append_left _ h

theorem buildN2i_fold_inv (G : List (String × List String)) :
    ∀ (gsuf : List (String × List String)) (done : List String) (acc : N2I),
      (∀ e ∈ gsuf, e ∈ G) → (∀ e ∈ gsuf, e.2.Nodup) →
      ((done ++ gsuf.map Prod.fst).Nodup) →
      BWF G done acc →
      BWF G (done ++ gsuf.map Prod.fst)
          (gsuf.foldl (fun a e => addNode a e.1 e.2) acc)
      ∧ (∀ k s, s ∈ succList acc k →
          s ∈ succList (gsuf.foldl (fun a e => addNode a e.1 e.2) acc) k)
      ∧ (∀ k, k ∈ acc.map Prod.fst →
          k ∈ (gsuf.foldl (fun a e => addNode a e.1 e.2) acc).map Prod.fst)
      ∧ (∀ e ∈ gsuf, ∀ p ∈ e.2,
          e.1 ∈ succList (gsuf.foldl (fun a e => addNode a e.1 e.2) acc) p) := by
  intro gsuf
  induction gsuf with
  | nil =>
    intro done acc _ _ _ hb
    refine ⟨by simpa using hb, fun k s h => h, fun k h => h, by simp⟩
  | cons e rest ih =>
    intro done acc hG hpnds hnd hb
    obtain ⟨node, preds⟩ := e
    simp only [List.map_cons] at hnd
    have hnode : node ∉ done := by
      rw [List.nodup_append] at hnd
      intro hmem
      exact hnd.2.2 hmem (List.mem_cons_self _ _)
    have hpnd : preds.Nodup := hpnds _ (List.mem_cons_self _ _)
    have hb2 : BWF G (done ++ [node]) (addNode acc node preds) :=
      BWF_addNode G done acc node preds hb hnode hpnd
        (hG _ (List.mem_cons_self _ _))
    have hnd2 : ((done ++ [node]) ++ rest.map Prod.fst).Nodup := by
      rw [List.append_assoc]
      exact hnd
    obtain ⟨ihb, ihmono, ihkeys, ihfwd⟩ :=
      ih (done ++ [node]) (addNode acc node preds)
        (fun x hx => hG x (List.mem_cons_of_mem _ hx))
        (fun x hx => hpnds x (List.mem_cons_of_mem _ hx)) hnd2 hb2
    refine ⟨?_, ?_, ?_, ?_⟩
    · rw [List.foldl_cons]
      simp only [List.map_cons]
      have heq : done ++ node :: rest.map Prod.fst =
          done ++ [node] ++ rest.map Prod.fst := by
        rw [List.append_assoc]
        rfl
      rw [heq]
      exact ihb
    · intro k s h
      rw [List.foldl_cons]
      exact ihmono k s (succ_mono_addNode acc node preds hpnd k s h)
    · intro k h
      rw [List.foldl_cons]
      exact ihkeys k (keys_mono_addNode acc node preds k h)
    · intro e2 he2 p hp
      rw [List.foldl_cons]
      rcases List.mem_cons.mp he2 with rfl | he2
      · exact ihmono p node (by
          rw [succList_addNode acc node preds hpnd p, if_pos hp]
          exact List.mem_append_right _ (List.mem_singleton_self _))
      · exact ihfwd e2 he2 p hp

theorem BWF_nil (G : List (String × List String)) : BWF G [] [] := by
  refine ⟨List.nodup_nil, ?_, ?_, ?_, ?_, ?_⟩
  · intro k s h
    simp [succList, niGet] at h
  · intro k s h
    simp [succList, niGet] at h
  · intro k
    simp [succList, niGet]
  · intro k
    simp [npredOf, niGet, predCnt]
  · intro k s h
    simp [succList, niGet] at h

theorem buildN2i_wf (g : List (String × List String))
    (hnd : (g.map Prod.fst).Nodup) (hpnds : ∀ e ∈ g, e.2.Nodup) :
    BWF g (g.map Prod.fst) (buildN2i g)
    ∧ (∀ e ∈ g, ∀ p ∈ e.2, e.1 ∈ succList (buildN2i g) p) := by
  obtain ⟨hb, _, _, hfwd⟩ :=
    buildN2i_fold_inv g g [] [] (fun x hx => hx) hpnds (by simpa) (BWF_nil g)
  exact ⟨by simpa using hb, hfwd⟩

end Ds

namespace Ds

/-! ### `buildGraph` produces a duplicate-free graph -/

theorem foldlM_except_inv {ε α β : Type} (f : α → β → Except ε α) (P : α → Prop)
    (hstep : ∀ a b r, P a → f a b = .ok r → P r) :
    ∀ (l : List β) (init res : α), P init → l.foldlM f init = .ok res → P res := by
  intro l
  induction l with
  | nil =>
    intro init res hP h
    cases h
    exact hP
  | cons b rest ih =>
    intro init res hP h
    rw [List.foldlM_cons] at h
    cases hf : f init b with
    | error e =>
      rw [hf] at h
      exact absurd h (by simp [bind, Except.bind])
    | ok a2 =>
      rw [hf] at h
      simp only [bind, Except.bind] at h
      exact ih a2 res (hstep init b a2 hP hf) h

theorem buildGraph_wf (tasks : List (String × Task))
    (g : List (String × List String)) (h : buildGraph tasks = .ok g) :
    (g.map Prod.fst).Nodup ∧ ∀ e ∈ g, e.2.Nodup := by
  refine foldlM_except_inv _
    (fun g => (g.map Prod.fst).Nodup ∧ ∀ e ∈ g, e.2.Nodup) ?_ tasks [] g
    (by simp) h
  intro a nt r hP hstep
  cases hedges : nt.2.depends.foldlM (fun es dep => do
      match ← shlexSplit dep.cmd with
      | [] => throw PErr.indexOutOfRange
      | other :: _ => pure (if other ≠ nt.1 then setAdd es other else es)) [] with
  | error e =>
    rw [hedges] at hstep
    exact absurd hstep (by simp [bind, Except.bind])
  | ok edges =>
    rw [hedges] at hstep
    simp only [bind, Except.bind, pure, Except.pure, Except.ok.injEq] at hstep
    subst hstep
    have hednd : edges.Nodup := by
      refine foldlM_except_inv _ (fun es => es.Nodup) ?_ _ [] edges
        List.nodup_nil hedges
      intro es dep r2 hnd2 hstep2
      cases hs : shlexSplit dep.cmd with
      | error e =>
        rw [hs] at hstep2
        exact absurd hstep2 (by simp [bind, Except.bind])
      | ok toks =>
        rw [hs] at hstep2
        simp only [bind, Except.bind] at hstep2
        cases toks with
        | nil =>
          exact absurd hstep2 (by simp [throw, throwThe, MonadExceptOf.throw])
        | cons other tl =>
          simp only [pure, Except.pure, Except.ok.injEq] at hstep2
          subst hstep2
          by_cases hne : other ≠ nt.1
          · rw [if_pos hne]
            exact setAdd_nodup _ _ hnd2
          · rw [if_neg hne]
            exact hnd2
    refine ⟨agSet_nodup _ _ _ hP.1, ?_⟩
    intro e he
    rcases mem_agSet _ _ _ _ hP.1 he with rfl | ⟨hmem, _⟩
    · exact hednd
    · exact hP.2 e hmem

end Ds

namespace Ds

/-! ### `_find_cycle` never exhausts the chosen fuel -/

/-- The termination measure of the DFS inner loop: unseen keys weigh
`2 * totalSucc + 2` (a push extends the iterator stack by at most
`totalSucc`), remaining iterator elements weigh 2, stack entries 1. -/
def fcPhi (n2i : N2I) (seen : List String) (st : List (String × List String)) : Nat :=
  (2 * totalSucc n2i + 2) *
      ((n2i.map Prod.fst).filter (fun u => decide (u ∉ seen))).length
    + 2 * (st.map (fun e => e.2.length)).sum + st.length

theorem succList_length_le (n2i : N2I) (k : String) :
    (succList n2i k).length ≤ totalSucc n2i := by
  unfold succList
  cases hg : niGet n2i k with
  | none => simp
  | some info =>
    have hmem : (k, info) ∈ n2i := niGet_mem _ _ _ hg
    have : info.successors.length ∈ n2i.map (fun e => e.2.successors.length) :=
      List.mem_map.mpr ⟨(k, info), hmem, rfl⟩
    exact List.single_le_sum (fun x _ => Nat.zero_le x) _ this

theorem filter_imp_length_le (p q : String → Bool) (l : List String)
    (h : ∀ a, p a = true → q a = true) :
    (l.filter p).length ≤ (l.filter q).length := by
  induction l with
  | nil => simp
  | cons a rest ih =>
    simp only [List.filter_cons]
    cases hp : p a
    · cases hq : q a
      · exact ih
      · simp only [List.length_cons]
        exact Nat.le_succ_of_le ih
    · rw [h a hp]
      simp only [List.length_cons]
      exact Nat.succ_le_succ ih

theorem unseen_drop (keys : List String) (node : String) (seen : List String)
    (hk : node ∈ keys) (hs : node ∉ seen) :
    (keys.filter (fun u => decide (u ∉ node :: seen))).length + 1 ≤
      (keys.filter (fun u => decide (u ∉ seen))).length := by
  induction keys with
  | nil => simp at hk
  | cons a rest ih =>
    simp only [List.filter_cons]
    by_cases han : a = node
    · subst han
      rw [show (decide (a ∉ a :: seen)) = false by simp,
          show (decide (a ∉ seen)) = true by simpa using hs]
      simp only [List.length_cons]
      refine Nat.succ_le_succ ?_
      apply filter_imp_length_le
      intro x hx
      simp only [decide_eq_true_eq, List.mem_cons] at hx ⊢
      exact fun hmem => hx (Or.inr hmem)
    · have hk2 : node ∈ rest := by
        rcases List.mem_cons.mp hk with h1 | h1
        · exact absurd h1.symm han
        · exact h1
      by_cases ha : a ∈ seen
      · rw [show (decide (a ∉ node :: seen)) = false by simp [ha],
            show (decide (a ∉ seen)) = false by simpa using ha]
        exact ih hk2
      · rw [show (decide (a ∉ node :: seen)) = true by
              simp [List.mem_cons, han, ha],
            show (decide (a ∉ seen)) = true by simpa using ha]
        simp only [List.length_cons]
        exact Nat.succ_le_succ (ih hk2)

end Ds

namespace Ds

theorem fc_no_fuel (n2i : N2I)
    (hsucc : ∀ k s, s ∈ succList n2i k → s ∈ n2i.map Prod.fst) :
    ∀ f : Nat,
      (∀ node seen st n2s, node ∈ n2i.map Prod.fst →
        (∀ e ∈ st, ∀ x ∈ e.2, x ∈ n2i.map Prod.fst) →
        fcPhi n2i seen st + 2 ≤ f →
        fcVisit n2i f node seen st n2s ≠ .fuelOut)
      ∧ (∀ seen st n2s,
        (∀ e ∈ st, ∀ x ∈ e.2, x ∈ n2i.map Prod.fst) →
        fcPhi n2i seen st + 1 ≤ f →
        fcBack n2i f seen st n2s ≠ .fuelOut) := by
  intro f
  induction f with
  | zero =>
    exact ⟨fun _ _ _ _ _ _ h => by omega, fun _ _ _ _ h => by omega⟩
  | succ f ih =>
    obtain ⟨ihv, ihb⟩ := ih
    constructor
    · intro node seen st n2s hnode hits hphi
      simp only [fcVisit]
      by_cases hseen : node ∈ seen
      · rw [if_pos hseen]
        cases hg : nsGet n2s node with
        | some i => simp
        | none =>
          refine ihb seen st n2s hits ?_
          unfold fcPhi at hphi ⊢
          omega
      · rw [if_neg hseen]
        apply ihb
        · intro e he x hx
          rcases List.mem_cons.mp he with rfl | he2
          · exact hsucc node x hx
          · exact hits e he2 x hx
        · have hU := unseen_drop (n2i.map Prod.fst) node seen hnode hseen
          have h1 : (2 * totalSucc n2i + 2) *
              (((n2i.map Prod.fst).filter
                (fun u => decide (u ∉ node :: seen))).length) +
              (2 * totalSucc n2i + 2) ≤
              (2 * totalSucc n2i + 2) *
              (((n2i.map Prod.fst).filter
                (fun u => decide (u ∉ seen))).length) := by
            rw [← Nat.mul_succ]
            exact Nat.mul_le_mul_left _ hU
          have h2 : (succList n2i node).length ≤ totalSucc n2i :=
            succList_length_le n2i node
          unfold fcPhi at hphi ⊢
          simp only [List.map_cons, List.sum_cons, List.length_cons]
          omega
    · intro seen st n2s hits hphi
      cases st with
      | nil => simp [fcBack]
      | cons hd tl =>
        obtain ⟨top, iter⟩ := hd
        cases iter with
        | nil =>
          simp only [fcBack]
          apply ihb
          · intro e he x hx
            exact hits e (List.mem_cons_of_mem _ he) x hx
          · unfold fcPhi at hphi ⊢
            simp only [List.map_cons, List.sum_cons, List.length_cons] at hphi
            omega
        | cons nxt iter2 =>
          simp only [fcBack]
          apply ihv
          · exact hits (top, nxt :: iter2) (List.mem_cons_self _ _) nxt
              (List.mem_cons_self _ _)
          · intro e he x hx
            rcases List.mem_cons.mp he with rfl | he2
            · exact hits (top, nxt :: iter2) (List.mem_cons_self _ _) x
                (List.mem_cons_of_mem _ hx)
            · exact hits e (List.mem_cons_of_mem _ he2) x hx
          · unfold fcPhi at hphi ⊢
            simp only [List.map_cons, List.sum_cons, List.length_cons] at hphi ⊢
            omega

end Ds

namespace Ds

/-! ### Walks of the successor relation -/

/-- `walkB n2i l`: consecutive elements of `l` are joined by successor
edges. -/
def walkB (n2i : N2I) : List String → Bool
  | [] => true
  | [_] => true
  | a :: b :: rest => decide (b ∈ succList n2i a) && walkB n2i (b :: rest)

theorem walk_tail (n2i : N2I) (a : String) (l : List String)
    (h : walkB n2i (a :: l) = true) : walkB n2i l = true := by
  cases l with
  | nil => rfl
  | cons b rest =>
    simp only [walkB, Bool.and_eq_true] at h
    exact h.2

theorem walk_drop (n2i : N2I) : ∀ (i : Nat) (l : List String),
    walkB n2i l = true → walkB n2i (l.drop i) = true := by
  intro i
  induction i with
  | zero => intro l h; exact h
  | succ i ih =>
    intro l h
    cases l with
    | nil => rfl
    | cons a rest => exact ih rest (walk_tail n2i a rest h)

theorem walk_append_left (n2i : N2I) : ∀ (l l2 : List String),
    walkB n2i (l ++ l2) = true → walkB n2i l = true := by
  intro l
  induction l with
  | nil => intro l2 _; rfl
  | cons a rest ih =>
    intro l2 h
    cases rest with
    | nil => rfl
    | cons b rest2 =>
      simp only [List.cons_append, walkB, Bool.and_eq_true] at h ⊢
      exact ⟨h.1, by
        have := ih l2 ?_
        · exact this
        · simpa using h.2⟩

theorem walk_concat (n2i : N2I) : ∀ (l : List String) (t b : String),
    walkB n2i l = true → l.getLast? = some t → b ∈ succList n2i t →
    walkB n2i (l ++ [b]) = true := by
  intro l
  induction l with
  | nil => intro t b _ hl _; simp at hl
  | cons a rest ih =>
    intro t b hw hl hb
    cases rest with
    | nil =>
      simp only [List.getLast?_singleton, Option.some.injEq] at hl
      subst hl
      simp only [List.cons_append, List.nil_append, walkB, Bool.and_eq_true]
      exact ⟨by simpa using hb, trivial⟩
    | cons c rest2 =>
      simp only [walkB, Bool.and_eq_true] at hw
      have hl2 : (c :: rest2).getLast? = some t := by
        rw [List.getLast?_cons_cons] at hl
        exact hl
      simp only [List.cons_append, walkB, Bool.and_eq_true]
      exact ⟨hw.1, ih t b hw.2 hl2 hb⟩

theorem drop_getLast (l : List String) : ∀ (i : Nat), i < l.length →
    (l.drop i).getLast? = l.getLast? := by
  induction l with
  | nil => intro i h; simp at h
  | cons a rest ih =>
    intro i h
    cases i with
    | zero => rfl
    | succ i =>
      simp only [List.length_cons, Nat.succ_lt_succ_iff] at h
      rw [List.drop_succ_cons, ih i h]
      cases hr : rest with
      | nil => simp [hr] at h
      | cons c rest2 => simp [List.getLast?_cons_cons]

theorem head_drop (l : List String) : ∀ (i : Nat),
    (l.drop i).head? = l.get? i := by
  induction l with
  | nil => intro i; cases i <;> rfl
  | cons a rest ih =>
    intro i
    cases i with
    | zero => rfl
    | succ i => exact ih i

theorem pyStack_cons (e : String × List String) (st : List (String × List String)) :
    pyStack (e :: st) = pyStack st ++ [e.1] := by
  unfold pyStack
  rw [List.map_cons, List.reverse_cons]

theorem pyStack_length (st : List (String × List String)) :
    (pyStack st).length = st.length := by
  unfold pyStack
  rw [List.length_reverse, List.length_map]

end Ds

namespace Ds

/-- Soundness invariant of the DFS state: `node2stacki` indexes the
Python stack and its keys are exactly the stacked nodes, the stack is
duplicate-free, stacked nodes are seen, every iterator is a suffix of its
node's successor list, and the stack bottom-to-top is an edge chain. -/
structure SInv (n2i : N2I) (seen : List String)
    (st : List (String × List String)) (n2s : List (String × Nat)) : Prop where
  nd_ns : (n2s.map Prod.fst).Nodup
  ns_stack : ∀ k i, nsGet n2s k = some i → (pyStack st).get? i = some k
  ns_mem : ∀ k, (nsGet n2s k).isSome = true ↔ k ∈ st.map Prod.fst
  st_nodup : (st.map Prod.fst).Nodup
  st_seen : ∀ x ∈ st.map Prod.fst, x ∈ seen
  iter_suffix : ∀ e ∈ st, e.2 <:+ succList n2i e.1
  chain : walkB n2i (pyStack st) = true

theorem fc_sound (n2i : N2I) : ∀ f : Nat,
    (∀ node seen st n2s c, SInv n2i seen st n2s →
      (st ≠ [] → ∃ q, st.head? = some q ∧ node ∈ succList n2i q.1) →
      fcVisit n2i f node seen st n2s = .cyc c →
      walkB n2i c = true ∧ 2 ≤ c.length ∧ c.head? = c.getLast?)
    ∧ (∀ seen st n2s c, SInv n2i seen st n2s →
      fcBack n2i f seen st n2s = .cyc c →
      walkB n2i c = true ∧ 2 ≤ c.length ∧ c.head? = c.getLast?) := by
  intro f
  induction f with
  | zero =>
    constructor
    · intro node seen st n2s c _ _ h
      simp [fcVisit] at h
    · intro seen st n2s c _ h
      simp [fcBack] at h
  | succ f ih =>
    obtain ⟨ihv, ihb⟩ := ih
    constructor
    · intro node seen st n2s c hinv hpre h
      simp only [fcVisit] at h
      by_cases hseen : node ∈ seen
      · rw [if_pos hseen] at h
        cases hg : nsGet n2s node with
        | none =>
          rw [hg] at h
          exact ihb seen st n2s c hinv h
        | some i =>
          rw [hg] at h
          injection h with hc
          subst hc
          have hget := hinv.ns_stack node i hg
          have hlt : i < (pyStack st).length := by
            by_contra hge
            push_neg at hge
            rw [List.get?_eq_none.mpr hge] at hget
            exact Option.noConfusion hget
          have hdne : (pyStack st).drop i ≠ [] := by
            intro hq
            have h2 := congrArg List.length hq
            rw [List.length_drop] at h2
            simp only [List.length_nil] at h2
            omega
          have hstne : st ≠ [] := by
            intro hq
            subst hq
            simp [pyStack] at hlt
          obtain ⟨q, hq, hedge⟩ := hpre hstne
          have hlast : (pyStack st).getLast? = some q.1 := by
            cases st with
            | nil => exact absurd rfl hstne
            | cons e stl =>
              simp only [List.head?_cons, Option.some.injEq] at hq
              subst hq
              rw [pyStack_cons, List.getLast?_concat]
          refine ⟨?_, ?_, ?_⟩
          · apply walk_concat n2i _ q.1 node
            · exact walk_drop n2i i _ hinv.chain
            · rw [drop_getLast _ i hlt]
              exact hlast
            · exact hedge
          · rw [List.length_append]
            have h2 : 1 ≤ ((pyStack st).drop i).length := by
              rw [List.length_drop]
              omega
            simp only [List.length_singleton]
            omega
          · obtain ⟨d0, dtl, hdrop⟩ := List.exists_cons_of_ne_nil hdne
            have hd0 : d0 = node := by
              have h1 : ((pyStack st).drop i).head? = some node := by
                rw [head_drop]
                exact hget
              rw [hdrop] at h1
              simpa using h1
            subst hd0
            rw [hdrop, List.getLast?_concat]
            rfl
      · rw [if_neg hseen] at h
        have hnodeSt : node ∉ st.map Prod.fst :=
          fun hmem => hseen (hinv.st_seen node hmem)
        have hnsnode : nsGet n2s node = none := by
          cases hns : nsGet n2s node with
          | none => rfl
          | some v =>
            exact absurd ((hinv.ns_mem node).mp (by simp [hns])) hnodeSt
        have hnskeys : node ∉ n2s.map Prod.fst :=
          (nsGet_eq_none_iff _ _).mp hnsnode
        have hset : nsSet n2s node st.length = n2s ++ [(node, st.length)] :=
          nsSet_of_not_mem _ _ _ hnskeys
        refine ihb (node :: seen) ((node, succList n2i node) :: st)
          (nsSet n2s node st.length) c ?_ h
        refine ⟨?_, ?_, ?_, ?_, ?_, ?_, ?_⟩
        · rw [hset, List.map_append, List.map_singleton]
          rw [List.nodup_append]
          refine ⟨hinv.nd_ns, List.nodup_singleton _, ?_⟩
          intro x hx hx2
          have hxe : x = node := by simpa using hx2
          subst hxe
          exact hnskeys hx
        · intro k i hk
          rw [pyStack_cons]
          by_cases hkn : k = node
          · subst hkn
            rw [nsGet_nsSet_self] at hk
            injection hk with hi
            subst hi
            rw [← pyStack_length st]
            exact List.get?_concat_length _ _
          · rw [nsGet_nsSet_ne _ _ _ _ hkn] at hk
            have h2 := hinv.ns_stack k i hk
            have hlt : i < (pyStack st).length := by
              by_contra hge
              push_neg at hge
              rw [List.get?_eq_none.mpr hge] at h2
              exact Option.noConfusion h2
            rw [List.get?_append hlt]
            exact h2
        · intro k
          simp only [List.map_cons, List.mem_cons]
          by_cases hkn : k = node
          · subst hkn
            rw [nsGet_nsSet_self]
            simp
          · rw [nsGet_nsSet_ne _ _ _ _ hkn]
            rw [hinv.ns_mem k]
            simp [hkn]
        · simp only [List.map_cons, List.nodup_cons]
          exact ⟨hnodeSt, hinv.st_nodup⟩
        · intro x hx
          simp only [List.map_cons, List.mem_cons] at hx
          rcases hx with rfl | hx
          · exact List.mem_cons_self _ _
          · exact List.mem_cons_of_mem _ (hinv.st_seen x hx)
        · intro e he
          rcases List.mem_cons.mp he with rfl | he2
          · exact List.suffix_refl _
          · exact hinv.iter_suffix e he2
        · rw [pyStack_cons]
          cases st with
          | nil =>
            simp [pyStack, walkB]
          | cons e stl =>
            obtain ⟨q, hq, hedge⟩ := hpre (by simp)
            simp only [List.head?_cons, Option.some.injEq] at hq
            subst hq
            apply walk_concat n2i _ e.1 node
            · exact hinv.chain
            · rw [pyStack_cons, List.getLast?_concat]
            · exact hedge
    · intro seen st n2s c hinv h
      cases st with
      | nil => simp [fcBack] at h
      | cons hd stl =>
        obtain ⟨top, iter⟩ := hd
        cases iter with
        | nil =>
          simp only [fcBack] at h
          have htop_notin : top ∉ stl.map Prod.fst := by
            have h2 := hinv.st_nodup
            simp only [List.map_cons, List.nodup_cons] at h2
            exact h2.1
          refine ihb seen stl (nsDel n2s top) c ⟨?_, ?_, ?_, ?_, ?_, ?_, ?_⟩ h
          · exact nsDel_nodup _ _ hinv.nd_ns
          · intro k i hk
            by_cases hkt : k = top
            · subst hkt
              rw [nsGet_nsDel_self _ _ hinv.nd_ns] at hk
              exact Option.noConfusion hk
            · rw [nsGet_nsDel_ne _ _ _ hkt] at hk
              have h2 := hinv.ns_stack k i hk
              rw [pyStack_cons] at h2
              have hlt : i < (pyStack stl).length + 1 := by
                by_contra hge
                push_neg at hge
                rw [List.get?_eq_none.mpr (by
                  rw [List.length_append, List.length_singleton]
                  omega)] at h2
                exact Option.noConfusion h2
              by_cases hieq : i = (pyStack stl).length
              · subst hieq
                rw [List.get?_concat_length] at h2
                injection h2 with h3
                exact absurd h3.symm hkt
              · rw [List.get?_append (by omega)] at h2
                exact h2
          · intro k
            by_cases hkt : k = top
            · subst hkt
              rw [nsGet_nsDel_self _ _ hinv.nd_ns]
              simp [htop_notin]
            · rw [nsGet_nsDel_ne _ _ _ hkt]
              rw [hinv.ns_mem k]
              simp [hkt]
          · have h2 := hinv.st_nodup
            simp only [List.map_cons, List.nodup_cons] at h2
            exact h2.2
          · intro x hx
            exact hinv.st_seen x (by
              simp only [List.map_cons, List.mem_cons]
              exact Or.inr hx)
          · intro e he
            exact hinv.iter_suffix e (List.mem_cons_of_mem _ he)
          · have h2 := hinv.chain
            rw [pyStack_cons] at h2
            exact walk_append_left n2i _ _ h2
        | cons nxt iter2 =>
          simp only [fcBack] at h
          have hsuf : (nxt :: iter2) <:+ succList n2i top :=
            hinv.iter_suffix (top, nxt :: iter2) (List.mem_cons_self _ _)
          refine ihv nxt seen ((top, iter2) :: stl) n2s c
            ⟨?_, ?_, ?_, ?_, ?_, ?_, ?_⟩ ?_ h
          · exact hinv.nd_ns
          · intro k i hk
            have h2 := hinv.ns_stack k i hk
            rw [pyStack_cons] at h2 ⊢
            exact h2
          · intro k
            rw [hinv.ns_mem k]
            simp only [List.map_cons, List.mem_cons]
          · have h2 := hinv.st_nodup
            simp only [List.map_cons] at h2 ⊢
            exact h2
          · intro x hx
            apply hinv.st_seen x
            simp only [List.map_cons, List.mem_cons] at hx ⊢
            exact hx
          · intro e he
            rcases List.mem_cons.mp he with rfl | he2
            · exact (List.suffix_cons nxt iter2).trans hsuf
            · exact hinv.iter_suffix e (List.mem_cons_of_mem _ he2)
          · have h2 := hinv.chain
            rw [pyStack_cons] at h2 ⊢
            exact h2
          · intro _
            exact ⟨(top, iter2), rfl, hsuf.subset (List.mem_cons_self _ _)⟩

end Ds

namespace Ds

theorem fcOuter_sound (n2i : N2I) (fuel : Nat) :
    ∀ (l : List String) (seen : List String) (c : List String),
      fcOuter n2i fuel l seen = .cyc c →
      walkB n2i c = true ∧ 2 ≤ c.length ∧ c.head? = c.getLast? := by
  intro l
  induction l with
  | nil =>
    intro seen c h
    simp [fcOuter] at h
  | cons k rest ih =>
    intro seen c h
    simp only [fcOuter] at h
    by_cases hk : k ∈ seen
    · rw [if_pos hk] at h
      exact ih seen c h
    · rw [if_neg hk] at h
      cases hv : fcVisit n2i fuel k seen [] [] with
      | cyc c2 =>
        rw [hv] at h
        injection h with hc
        subst hc
        refine (fc_sound n2i fuel).1 k seen [] [] c2 ?_ ?_ hv
        · exact ⟨List.nodup_nil, fun k2 i h2 => by simp [nsGet] at h2,
            fun k2 => by simp [nsGet], List.nodup_nil, by simp, by simp, rfl⟩
        · intro hq
          exact absurd rfl hq
      | fuelOut =>
        rw [hv] at h
        exact absurd h (by simp)
      | clear seen2 =>
        rw [hv] at h
        exact ih seen2 c h

theorem fcOuter_no_fuel (n2i : N2I)
    (hsucc : ∀ k s, s ∈ succList n2i k → s ∈ n2i.map Prod.fst) :
    ∀ (l : List String) (seen : List String),
      (∀ k ∈ l, k ∈ n2i.map Prod.fst) →
      fcOuter n2i (fcFuel n2i) l seen ≠ .fuelOut := by
  intro l
  induction l with
  | nil =>
    intro seen _
    simp [fcOuter]
  | cons k rest ih =>
    intro seen hl
    simp only [fcOuter]
    by_cases hk : k ∈ seen
    · rw [if_pos hk]
      exact ih seen (fun x hx => hl x (List.mem_cons_of_mem _ hx))
    · rw [if_neg hk]
      cases hv : fcVisit n2i (fcFuel n2i) k seen [] [] with
      | cyc c => simp
      | clear seen2 =>
        exact ih seen2 (fun x hx => hl x (List.mem_cons_of_mem _ hx))
      | fuelOut =>
        refine absurd hv ((fc_no_fuel n2i hsucc (fcFuel n2i)).1 k seen [] []
          (hl k (List.mem_cons_self _ _)) (by simp) ?_)
        have hU : ((n2i.map Prod.fst).filter
            (fun u => decide (u ∉ seen))).length ≤ (n2i.map Prod.fst).length :=
          List.length_filter_le _ _
        have h2 : (2 * totalSucc n2i + 2) *
            ((n2i.map Prod.fst).filter (fun u => decide (u ∉ seen))).length ≤
            (2 * totalSucc n2i + 2) * (n2i.map Prod.fst).length :=
          Nat.mul_le_mul_left _ hU
        have h3 : (n2i.map Prod.fst).length = n2i.length := List.length_map _ _
        rw [h3] at h2
        unfold fcPhi fcFuel
        simp only [List.map_nil, List.sum_nil, List.length_nil]
        omega

theorem walk_head_lt_last (n2i : N2I) (L : List String)
    (htopo : ∀ u v, v ∈ succList n2i u → L.indexOf u < L.indexOf v) :
    ∀ (rest : List String) (a : String), walkB n2i (a :: rest) = true →
      rest ≠ [] →
      ∃ b, (a :: rest).getLast? = some b ∧ L.indexOf a < L.indexOf b := by
  intro rest
  induction rest with
  | nil =>
    intro a _ hne
    exact absurd rfl hne
  | cons x rest2 ih =>
    intro a hw _
    simp only [walkB, Bool.and_eq_true, decide_eq_true_eq] at hw
    cases rest2 with
    | nil =>
      exact ⟨x, by simp, htopo a x hw.1⟩
    | cons y rest3 =>
      obtain ⟨b, hb, hlt⟩ := ih x hw.2 (by simp)
      refine ⟨b, ?_, Nat.lt_trans (htopo a x hw.1) hlt⟩
      rw [List.getLast?_cons_cons]
      exact hb

theorem no_closed_walk (n2i : N2I) (L : List String)
    (htopo : ∀ u v, v ∈ succList n2i u → L.indexOf u < L.indexOf v)
    (c : List String) (hw : walkB n2i c = true) (hlen : 2 ≤ c.length)
    (hcl : c.head? = c.getLast?) : False := by
  cases c with
  | nil => simp at hlen
  | cons a rest =>
    have hne : rest ≠ [] := by
      intro hq
      subst hq
      simp at hlen
    obtain ⟨b, hb, hlt⟩ := walk_head_lt_last n2i L htopo rest a hw hne
    rw [List.head?_cons, hb] at hcl
    injection hcl with he
    subst he
    exact absurd hlt (Nat.lt_irrefl _)

theorem find_cycle_clear (n2i : N2I) (L : List String)
    (hsucc : ∀ k s, s ∈ succList n2i k → s ∈ n2i.map Prod.fst)
    (htopo : ∀ u v, v ∈ succList n2i u → L.indexOf u < L.indexOf v) :
    ∃ seen, find_cycle n2i = .clear seen := by
  unfold find_cycle
  cases hr : fcOuter n2i (fcFuel n2i) (n2i.map Prod.fst) [] with
  | clear seen => exact ⟨seen, rfl⟩
  | cyc c =>
    obtain ⟨hw, hlen, hcl⟩ := fcOuter_sound n2i _ _ _ _ hr
    exact (no_closed_walk n2i L htopo c hw hlen hcl).elim
  | fuelOut =>
    exact absurd hr (fcOuter_no_fuel n2i hsucc _ [] (fun k hk => hk))

end Ds

namespace Ds

/-! ### Specifications of the Kahn-loop primitives -/

theorem markOut_spec : ∀ (l : List String) (n2i : N2I),
    (∀ v ∈ l, v ∈ n2i.map Prod.fst) →
    ∃ n2i2, markOut n2i l = .ok n2i2
      ∧ ∀ k, niGet n2i2 k = (niGet n2i k).map (fun i =>
          if k ∈ l then { i with npredecessors := NODE_OUT } else i) := by
  intro l
  induction l with
  | nil =>
    intro n2i _
    exact ⟨n2i, rfl, fun k => by cases niGet n2i k <;> simp⟩
  | cons v rest ih =>
    intro n2i hmem
    have hv : (niGet n2i v).isSome = true :=
      (niGet_isSome_iff _ _).mpr (hmem v (List.mem_cons_self _ _))
    cases hg : niGet n2i v with
    | none => rw [hg] at hv; exact absurd hv (by simp)
    | some info =>
      obtain ⟨n2i2, hrun, hchar⟩ := ih
        (niSet n2i v { info with npredecessors := NODE_OUT })
        (fun x hx => by
          rw [niSet_map_fst]
          exact hmem x (List.mem_cons_of_mem _ hx))
      refine ⟨n2i2, ?_, ?_⟩
      · simp only [markOut, hg]
        exact hrun
      · intro k
        rw [hchar k]
        by_cases hkv : k = v
        · subst hkv
          rw [niGet_niSet_self _ _ _ (by simp [hg]), hg]
          by_cases hkr : k ∈ rest <;>
            simp [hkr, List.mem_cons]
        · rw [niGet_niSet_ne _ _ _ _ hkv]
          cases niGet n2i k with
          | none => rfl
          | some i2 =>
            simp only [Option.map_some']
            by_cases hkr : k ∈ rest <;>
              simp [hkr, List.mem_cons, hkv]

theorem decSuccs_spec : ∀ (l : List String) (n2i : N2I) (ready : List String),
    l.Nodup → (∀ v ∈ l, v ∈ n2i.map Prod.fst) →
    ∃ n2i2 ready2, decSuccs n2i ready l = .ok (n2i2, ready2)
      ∧ (∀ k, niGet n2i2 k = (niGet n2i k).map (fun i =>
          if k ∈ l then { i with npredecessors := i.npredecessors - 1 } else i))
      ∧ ready2 = ready ++ l.filter (fun v => npredOf n2i v == 1) := by
  intro l
  induction l with
  | nil =>
    intro n2i ready _ _
    exact ⟨n2i, ready, rfl, fun k => by cases niGet n2i k <;> simp, by simp⟩
  | cons s rest ih =>
    intro n2i ready hnd hmem
    rw [List.nodup_cons] at hnd
    have hs : (niGet n2i s).isSome = true :=
      (niGet_isSome_iff _ _).mpr (hmem s (List.mem_cons_self _ _))
    cases hg : niGet n2i s with
    | none => rw [hg] at hs; exact absurd hs (by simp)
    | some info =>
      obtain ⟨n2i2, ready2, hrun, hchar, hready⟩ := ih
        (niSet n2i s { info with npredecessors := info.npredecessors - 1 })
        (if (info.npredecessors - 1) == 0 then ready ++ [s] else ready)
        hnd.2
        (fun x hx => by
          rw [niSet_map_fst]
          exact hmem x (List.mem_cons_of_mem _ hx))
      refine ⟨n2i2, ready2, ?_, ?_, ?_⟩
      · simp only [decSuccs, hg]
        exact hrun
      · intro k
        rw [hchar k]
        by_cases hks : k = s
        · subst hks
          rw [niGet_niSet_self _ _ _ (by simp [hg]), hg]
          have hkr : k ∉ rest := hnd.1
          simp [hkr, List.mem_cons]
        · rw [niGet_niSet_ne _ _ _ _ hks]
          cases niGet n2i k with
          | none => rfl
          | some i2 =>
            simp only [Option.map_some']
            by_cases hkr : k ∈ rest <;>
              simp [hkr, List.mem_cons, hks]
      · rw [hready, List.filter_cons]
        have hnps : npredOf n2i s = info.npredecessors := by
          unfold npredOf
          rw [hg]
        have hcong : rest.filter
            (fun v => npredOf (niSet n2i s
              { info with npredecessors := info.npredecessors - 1 }) v == 1) =
            rest.filter (fun v => npredOf n2i v == 1) := by
          apply List.filter_congr
          intro v hv
          have hvs : v ≠ s := fun hq => hnd.1 (hq ▸ hv)
          unfold npredOf
          rw [niGet_niSet_ne _ _ _ _ hvs]
        rw [hcong]
        by_cases hz : info.npredecessors - 1 = 0
        · have h1 : (info.npredecessors - 1 == 0) = true := by
            simpa using hz
          have h2 : (npredOf n2i s == 1) = true := by
            rw [hnps]
            have : info.npredecessors = 1 := by omega
            simp [this]
          rw [h1, h2]
          simp
        · have h1 : (info.npredecessors - 1 == 0) = false := by
            simpa using hz
          have h2 : (npredOf n2i s == 1) = false := by
            rw [hnps]
            have : info.npredecessors ≠ 1 := by omega
            simpa using this
          rw [h1, h2]
          simp

theorem doneNode_spec (n2i : N2I) (ready : List String) (node : String)
    (info : NodeInfo)
    (hget : niGet n2i node = some info) (hout : info.npredecessors = NODE_OUT)
    (hnd : info.successors.Nodup)
    (hmem : ∀ v ∈ info.successors, v ∈ n2i.map Prod.fst)
    (hns : node ∉ info.successors) :
    ∃ n2i2 ready2, doneNode (n2i, ready) node = .ok (n2i2, ready2)
      ∧ (∀ k, niGet n2i2 k = (niGet n2i k).map (fun i =>
          if k = node then { i with npredecessors := NODE_DONE }
          else if k ∈ info.successors then
            { i with npredecessors := i.npredecessors - 1 }
          else i))
      ∧ ready2 = ready ++ info.successors.filter (fun v => npredOf n2i v == 1) := by
  obtain ⟨n2i2, ready2, hrun, hchar, hready⟩ := decSuccs_spec info.successors
    (niSet n2i node { info with npredecessors := NODE_DONE }) ready hnd
    (fun x hx => by
      rw [niSet_map_fst]
      exact hmem x hx)
  refine ⟨n2i2, ready2, ?_, ?_, ?_⟩
  · simp only [doneNode, hget, hout]
    rw [if_neg (by simp)]
    exact hrun
  · intro k
    rw [hchar k]
    by_cases hkn : k = node
    · subst hkn
      rw [niGet_niSet_self _ _ _ (by simp [hget]), hget]
      simp [hns]
    · rw [niGet_niSet_ne _ _ _ _ hkn]
      cases niGet n2i k with
      | none => rfl
      | some i2 =>
        simp only [Option.map_some']
        by_cases hkr : k ∈ info.successors <;> simp [hkr, hkn]
  · rw [hready]
    congr 1
    apply List.filter_congr
    intro v hv
    have hvn : v ≠ node := fun hq => hns (hq ▸ hv)
    unfold npredOf
    rw [niGet_niSet_ne _ _ _ _ hvn]

end Ds

namespace Ds

/-! ### Counting live predecessors -/

theorem predCnt_eq_zero_iff (n2i0 : N2I) (dead : List String) (k : String) :
    predCnt n2i0 dead k = 0 ↔
      ∀ u ∈ n2i0.map Prod.fst, u ∉ dead → k ∉ succList n2i0 u := by
  unfold predCnt
  rw [List.length_eq_zero, List.filter_eq_nil_iff]
  constructor
  · intro h u hu hd hk
    have h2 := h u hu
    simp only [Bool.and_eq_true, decide_eq_true_eq, not_and] at h2
    exact h2 hd hk
  · intro h u hu
    simp only [Bool.and_eq_true, decide_eq_true_eq, not_and]
    exact h u hu

theorem predCnt_ne_zero (n2i0 : N2I) (dead : List String) (k : String)
    (h : predCnt n2i0 dead k ≠ 0) :
    ∃ u ∈ n2i0.map Prod.fst, u ∉ dead ∧ k ∈ succList n2i0 u := by
  by_contra hq
  push_neg at hq
  exact h ((predCnt_eq_zero_iff _ _ _).mpr (fun u hu hd hk => hq u hu hd hk))

theorem predCnt_mono (n2i0 : N2I) (d1 d2 : List String) (k : String)
    (h : ∀ x ∈ d1, x ∈ d2) :
    predCnt n2i0 d2 k ≤ predCnt n2i0 d1 k := by
  unfold predCnt
  apply filter_imp_length_le
  intro a ha
  simp only [Bool.and_eq_true, decide_eq_true_eq] at ha ⊢
  exact ⟨fun hmem => ha.1 (h a hmem), ha.2⟩

theorem predCnt_congr (n2i0 : N2I) (d1 d2 : List String) (k : String)
    (h : ∀ x, x ∈ d1 ↔ x ∈ d2) :
    predCnt n2i0 d1 k = predCnt n2i0 d2 k :=
  Nat.le_antisymm (predCnt_mono n2i0 d2 d1 k (fun x hx => (h x).mpr hx))
    (predCnt_mono n2i0 d1 d2 k (fun x hx => (h x).mp hx))

theorem filter_length_step (K : List String) (p : String) (q q' : String → Bool)
    (hqq : ∀ u, u ≠ p → q' u = q u) (hqp : q' p = false) (hK : K.Nodup)
    (hpK : p ∈ K) :
    (K.filter q).length = (K.filter q').length + (if q p = true then 1 else 0) := by
  induction K with
  | nil => simp at hpK
  | cons a rest ih =>
    rw [List.nodup_cons] at hK
    simp only [List.filter_cons]
    by_cases hap : a = p
    · subst hap
      rw [hqp, if_neg Bool.false_ne_true]
      have hfc : rest.filter q' = rest.filter q :=
        List.filter_congr (fun u hu => hqq u (fun hq2 => hK.1 (hq2 ▸ hu)))
      rw [hfc]
      by_cases hq : q a = true
      · rw [if_pos hq, if_pos hq]
        simp
      · rw [if_neg hq, if_neg hq]
        simp
    · rw [hqq a hap]
      have hpR : p ∈ rest := by
        rcases List.mem_cons.mp hpK with h1 | h1
        · exact absurd h1.symm hap
        · exact h1
      by_cases hq : q a = true
      · rw [if_pos hq, if_pos hq]
        simp only [List.length_cons]
        rw [ih hK.2 hpR]
        omega
      · rw [if_neg hq, if_neg hq]
        exact ih hK.2 hpR

theorem predCnt_step (n2i0 : N2I) (dead : List String) (p k : String)
    (hnd : (n2i0.map Prod.fst).Nodup) (hp : p ∈ n2i0.map Prod.fst)
    (hpd : p ∉ dead) :
    predCnt n2i0 dead k =
      predCnt n2i0 (dead ++ [p]) k +
        (if k ∈ succList n2i0 p then 1 else 0) := by
  unfold predCnt
  rw [filter_length_step (n2i0.map Prod.fst) p
    (fun u => decide (u ∉ dead) && decide (k ∈ succList n2i0 u))
    (fun u => decide (u ∉ dead ++ [p]) && decide (k ∈ succList n2i0 u))
    ?_ ?_ hnd hp]
  · congr 1
    by_cases hk : k ∈ succList n2i0 p <;> simp [hk, hpd]
  · intro u hu
    show (decide (u ∉ dead ++ [p]) && decide (k ∈ succList n2i0 u)) =
      (decide (u ∉ dead) && decide (k ∈ succList n2i0 u))
    have h1 : (u ∉ dead ++ [p]) ↔ (u ∉ dead) := by
      simp [List.mem_append, hu]
    rw [decide_eq_decide.mpr h1]
  · show (decide (p ∉ dead ++ [p]) && decide (k ∈ succList n2i0 p)) = false
    simp [List.mem_append]

theorem succ_src_mem (n2i0 : N2I) (u s : String) (h : s ∈ succList n2i0 u) :
    u ∈ n2i0.map Prod.fst := by
  by_contra hq
  rw [succList_of_not_mem _ _ hq] at h
  exact List.not_mem_nil _ h

theorem exists_min_image_nat (S : List String) (f : String → Nat) (h : S ≠ []) :
    ∃ a ∈ S, ∀ b ∈ S, f a ≤ f b := by
  induction S with
  | nil => exact absurd rfl h
  | cons x rest ih =>
    cases rest with
    | nil =>
      refine ⟨x, List.mem_cons_self _ _, ?_⟩
      intro b hb
      rcases List.mem_cons.mp hb with rfl | hb
      · exact Nat.le_refl _
      · simp at hb
    | cons y rest2 =>
      obtain ⟨a, ha, hmin⟩ := ih (by simp)
      by_cases hxa : f x ≤ f a
      · refine ⟨x, List.mem_cons_self _ _, ?_⟩
        intro b hb
        rcases List.mem_cons.mp hb with rfl | hb
        · exact Nat.le_refl _
        · exact Nat.le_trans hxa (hmin b hb)
      · refine ⟨a, List.mem_cons_of_mem _ ha, ?_⟩
        intro b hb
        rcases List.mem_cons.mp hb with rfl | hb
        · exact Nat.le_of_lt (Nat.lt_of_not_le hxa)
        · exact hmin b hb

end Ds

namespace Ds

/-! ### The `done` pass over one ready group -/

theorem done_fold (n2i0 : N2I)
    (hnd0 : (n2i0.map Prod.fst).Nodup)
    (hsm : ∀ k s, s ∈ succList n2i0 k → s ∈ n2i0.map Prod.fst)
    (hsn : ∀ k, (succList n2i0 k).Nodup)
    (out group : List String)
    (hgsub : ∀ v ∈ group, v ∈ n2i0.map Prod.fst)
    (hgout : ∀ v ∈ group, v ∉ out)
    (hgcnt : ∀ v ∈ group, predCnt n2i0 out v = 0)
    (houtcnt : ∀ v ∈ out, predCnt n2i0 out v = 0)
    (hgnd : group.Nodup) :
    ∀ (rest processed : List String) (n2i : N2I) (racc : List String),
      group = processed ++ rest →
      (∀ k, niGet n2i k = (niGet n2i0 k).map (fun i =>
        { i with npredecessors :=
          if k ∈ out ∨ k ∈ processed then NODE_DONE
          else if k ∈ rest then NODE_OUT
          else (predCnt n2i0 (out ++ processed) k : Int) })) →
      (∀ k, k ∈ racc ↔ (k ∈ n2i0.map Prod.fst ∧ k ∉ out ∧ k ∉ group ∧
        predCnt n2i0 (out ++ processed) k = 0)) →
      racc.Nodup →
      ∃ n2i2 racc2, rest.foldlM doneNode (n2i, racc) = .ok (n2i2, racc2)
        ∧ (∀ k, niGet n2i2 k = (niGet n2i0 k).map (fun i =>
            { i with npredecessors :=
              if k ∈ out ∨ k ∈ group then NODE_DONE
              else (predCnt n2i0 (out ++ group) k : Int) }))
        ∧ (∀ k, k ∈ racc2 ↔ (k ∈ n2i0.map Prod.fst ∧ k ∉ out ∧ k ∉ group ∧
            predCnt n2i0 (out ++ group) k = 0))
        ∧ racc2.Nodup := by
  intro rest
  induction rest with
  | nil =>
    intro processed n2i racc hdecomp hstate hracc hrnd
    rw [List.append_nil] at hdecomp
    subst hdecomp
    refine ⟨n2i, racc, rfl, ?_, hracc, hrnd⟩
    intro k
    rw [hstate k]
    cases niGet n2i0 k with
    | none => rfl
    | some i =>
      simp only [Option.map_some', Option.some.injEq]
      by_cases h1 : k ∈ out ∨ k ∈ group
      · rw [if_pos h1, if_pos h1]
      · rw [if_neg h1, if_neg h1, if_neg (List.not_mem_nil k)]
  | cons p rest2 ih =>
    intro processed n2i racc hdecomp hstate hracc hrnd
    have hpgroup : p ∈ group := by
      rw [hdecomp]
      exact List.mem_append_right _ (List.mem_cons_self _ _)
    have hpK : p ∈ n2i0.map Prod.fst := hgsub p hpgroup
    have hpout : p ∉ out := hgout p hpgroup
    have hpproc : p ∉ processed := by
      intro hq
      rw [hdecomp, List.nodup_append] at hgnd
      exact hgnd.2.2 hq (List.mem_cons_self _ _)
    have hkeys : ∀ x, x ∈ n2i.map Prod.fst ↔ x ∈ n2i0.map Prod.fst := by
      intro x
      rw [← niGet_isSome_iff, ← niGet_isSome_iff, hstate x]
      cases niGet n2i0 x <;> simp
    have hi0 : (niGet n2i0 p).isSome = true := (niGet_isSome_iff _ _).mpr hpK
    cases hg0 : niGet n2i0 p with
    | none => rw [hg0] at hi0; exact absurd hi0 (by simp)
    | some i0 =>
      have hsuccp : succList n2i0 p = i0.successors := by
        unfold succList
        rw [hg0]
      have hdisj : ∀ v ∈ succList n2i0 p, v ∉ out ∧ v ∉ group := by
        intro v hv
        constructor
        · intro hvo
          have h2 := (predCnt_eq_zero_iff _ _ _).mp (houtcnt v hvo) p hpK hpout
          exact h2 hv
        · intro hvg
          have h2 := (predCnt_eq_zero_iff _ _ _).mp (hgcnt v hvg) p hpK hpout
          exact h2 hv
      have hgetp : niGet n2i p = some { i0 with npredecessors := NODE_OUT } := by
        rw [hstate p, hg0]
        simp only [Option.map_some', Option.some.injEq]
        rw [if_neg (by push_neg; exact ⟨hpout, hpproc⟩),
          if_pos (List.mem_cons_self _ _)]
      obtain ⟨n2i2, racc2, hrun, hchar, hready⟩ := doneNode_spec n2i racc p
        { i0 with npredecessors := NODE_OUT } hgetp rfl
        (by
          have h2 := hsn p
          rw [hsuccp] at h2
          exact h2)
        (by
          intro v hv
          rw [hkeys v]
          exact hsm p v (by rw [hsuccp]; exact hv))
        (by
          intro hq
          exact (hdisj p (by rw [hsuccp]; exact hq)).2 hpgroup)
      rw [List.foldlM_cons]
      rw [show (doneNode (n2i, racc) p) = Except.ok (n2i2, racc2) from hrun]
      simp only [bind, Except.bind]
      refine ih (processed ++ [p]) n2i2 racc2 ?_ ?_ ?_ ?_
      · rw [hdecomp, List.append_assoc]
        rfl
      · intro k
        rw [hchar k, hstate k]
        cases hk0 : niGet n2i0 k with
        | none => rfl
        | some i =>
          simp only [Option.map_some', Option.some.injEq]
          by_cases hkp : k = p
          · rw [if_pos hkp]
            have h2 : k ∈ out ∨ k ∈ processed ++ [p] := by
              subst hkp
              exact Or.inr (List.mem_append_right _ (List.mem_singleton_self _))
            rw [if_pos h2]
          · rw [if_neg hkp]
            by_cases hks : k ∈ ({ i0 with npredecessors := NODE_OUT } : NodeInfo).successors
            · have hksucc : k ∈ succList n2i0 p := by
                rw [hsuccp]
                exact hks
              obtain ⟨hkout, hkgroup⟩ := hdisj k hksucc
              have hkproc : k ∉ processed := fun hq =>
                hkgroup (by rw [hdecomp]; exact List.mem_append_left _ hq)
              have hkrest : k ∉ p :: rest2 := fun hq => hkgroup (by
                rw [hdecomp]
                exact List.mem_append_right _ hq)
              have hkrest2 : k ∉ rest2 := fun hq =>
                hkrest (List.mem_cons_of_mem _ hq)
              have h1 : ¬(k ∈ out ∨ k ∈ processed) := by
                push_neg
                exact ⟨hkout, hkproc⟩
              have h2 : ¬(k ∈ out ∨ k ∈ processed ++ [p]) := by
                push_neg
                refine ⟨hkout, ?_⟩
                intro hq
                rcases List.mem_append.mp hq with hq2 | hq2
                · exact hkproc hq2
                · exact hkp (List.mem_singleton.mp hq2)
              rw [if_pos hks, if_neg h1, if_neg hkrest, if_neg h2, if_neg hkrest2]
              have hstep := predCnt_step n2i0 (out ++ processed) p k hnd0 hpK
                (by
                  intro hq
                  rcases List.mem_append.mp hq with hq2 | hq2
                  · exact hpout hq2
                  · exact hpproc hq2)
              rw [if_pos hksucc] at hstep
              rw [List.append_assoc] at hstep
              simp only [NodeInfo.mk.injEq, and_true]
              omega
            · rw [if_neg hks]
              by_cases h1 : k ∈ out ∨ k ∈ processed
              · have h2 : k ∈ out ∨ k ∈ processed ++ [p] := by
                  rcases h1 with h1 | h1
                  · exact Or.inl h1
                  · exact Or.inr (List.mem_append_left _ h1)
                rw [if_pos h1, if_pos h2]
              · have h2 : ¬(k ∈ out ∨ k ∈ processed ++ [p]) := by
                  push_neg at h1 ⊢
                  refine ⟨h1.1, ?_⟩
                  intro hq
                  rcases List.mem_append.mp hq with hq2 | hq2
                  · exact h1.2 hq2
                  · exact hkp (List.mem_singleton.mp hq2)
                rw [if_neg h1, if_neg h2]
                by_cases hkr : k ∈ p :: rest2
                · have hkr2 : k ∈ rest2 := by
                    rcases List.mem_cons.mp hkr with hq | hq
                    · exact absurd hq hkp
                    · exact hq
                  rw [if_pos hkr, if_pos hkr2]
                · have hkr2 : k ∉ rest2 := fun hq =>
                    hkr (List.mem_cons_of_mem _ hq)
                  rw [if_neg hkr, if_neg hkr2]
                  have hksucc : k ∉ succList n2i0 p := by
                    rw [hsuccp]
                    exact hks
                  have hstep := predCnt_step n2i0 (out ++ processed) p k hnd0 hpK
                    (by
                      intro hq
                      rcases List.mem_append.mp hq with hq2 | hq2
                      · exact hpout hq2
                      · exact hpproc hq2)
                  rw [if_neg hksucc] at hstep
                  rw [List.append_assoc] at hstep
                  simp only [NodeInfo.mk.injEq, and_true]
                  omega
      · intro k
        rw [hready]
        constructor
        · intro hk
          rcases List.mem_append.mp hk with hk | hk
          · obtain ⟨hk1, hk2, hk3, hk4⟩ := (hracc k).mp hk
            refine ⟨hk1, hk2, hk3, ?_⟩
            have hmono : predCnt n2i0 (out ++ (processed ++ [p])) k ≤
                predCnt n2i0 (out ++ processed) k := by
              apply predCnt_mono
              intro x hx
              rcases List.mem_append.mp hx with hx | hx
              · exact List.mem_append_left _ hx
              · exact List.mem_append_right _ (List.mem_append_left _ hx)
            omega
          · rw [List.mem_filter] at hk
            have hksucc : k ∈ succList n2i0 p := by
              rw [hsuccp]
              exact hk.1
            obtain ⟨hkout, hkgroup⟩ := hdisj k hksucc
            have hkK : k ∈ n2i0.map Prod.fst := hsm p k hksucc
            refine ⟨hkK, hkout, hkgroup, ?_⟩
            have hnp1 : npredOf n2i k = 1 := by
              have h2 := hk.2
              simp only [beq_iff_eq] at h2
              exact h2
            have hkproc : k ∉ processed := fun hq =>
              hkgroup (by rw [hdecomp]; exact List.mem_append_left _ hq)
            have hkrest : k ∉ p :: rest2 := fun hq => hkgroup (by
              rw [hdecomp]
              exact List.mem_append_right _ hq)
            have hnp2 : npredOf n2i k =
                (predCnt n2i0 (out ++ processed) k : Int) := by
              unfold npredOf
              rw [hstate k]
              cases hq0 : niGet n2i0 k with
              | none =>
                exact absurd ((niGet_isSome_iff _ _).mpr hkK) (by simp [hq0])
              | some i =>
                simp only [Option.map_some']
                rw [if_neg (by push_neg; exact ⟨hkout, hkproc⟩), if_neg hkrest]
            have hstep := predCnt_step n2i0 (out ++ processed) p k hnd0 hpK
              (by
                intro hq
                rcases List.mem_append.mp hq with hq2 | hq2
                · exact hpout hq2
                · exact hpproc hq2)
            rw [if_pos hksucc] at hstep
            rw [List.append_assoc] at hstep
            omega
        · intro hk
          obtain ⟨hk1, hk2, hk3, hk4⟩ := hk
          have hkproc : k ∉ processed := fun hq =>
            hk3 (by rw [hdecomp]; exact List.mem_append_left _ hq)
          have hstep := predCnt_step n2i0 (out ++ processed) p k hnd0 hpK
            (by
              intro hq
              rcases List.mem_append.mp hq with hq2 | hq2
              · exact hpout hq2
              · exact hpproc hq2)
          rw [List.append_assoc] at hstep
          by_cases hksucc : k ∈ succList n2i0 p
          · apply List.mem_append_right
            rw [List.mem_filter]
            refine ⟨by rw [← hsuccp]; exact hksucc, ?_⟩
            have hkrest : k ∉ p :: rest2 := fun hq => hk3 (by
              rw [hdecomp]
              exact List.mem_append_right _ hq)
            have hnp2 : npredOf n2i k =
                (predCnt n2i0 (out ++ processed) k : Int) := by
              unfold npredOf
              rw [hstate k]
              cases hq0 : niGet n2i0 k with
              | none =>
                exact absurd ((niGet_isSome_iff _ _).mpr hk1) (by simp [hq0])
              | some i =>
                simp only [Option.map_some']
                rw [if_neg (by push_neg; exact ⟨hk2, hkproc⟩), if_neg hkrest]
            rw [if_pos hksucc] at hstep
            have : predCnt n2i0 (out ++ processed) k = 1 := by omega
            rw [hnp2, this]
            simp
          · apply List.mem_append_left
            rw [hracc k]
            refine ⟨hk1, hk2, hk3, ?_⟩
            rw [if_neg hksucc] at hstep
            omega
      · rw [hready, List.nodup_append]
        refine ⟨hrnd, ?_, ?_⟩
        · apply List.Nodup.filter
          have h2 := hsn p
          rw [hsuccp] at h2
          exact h2
        · intro x hx hx2
          obtain ⟨_, _, _, hc0⟩ := (hracc x).mp hx
          rw [List.mem_filter] at hx2
          have hxsucc : x ∈ succList n2i0 p := by
            rw [hsuccp]
            exact hx2.1
          obtain ⟨hxout, hxgroup⟩ := hdisj x hxsucc
          have hxproc : x ∉ processed := fun hq =>
            hxgroup (by rw [hdecomp]; exact List.mem_append_left _ hq)
          have hxrest : x ∉ p :: rest2 := fun hq => hxgroup (by
            rw [hdecomp]
            exact List.mem_append_right _ hq)
          have hnp2 : npredOf n2i x =
              (predCnt n2i0 (out ++ processed) x : Int) := by
            unfold npredOf
            rw [hstate x]
            cases hq0 : niGet n2i0 x with
            | none =>
              exact absurd ((niGet_isSome_iff _ _).mpr
                (hsm p x hxsucc)) (by simp [hq0])
            | some i =>
              simp only [Option.map_some']
              rw [if_neg (by push_neg; exact ⟨hxout, hxproc⟩), if_neg hxrest]
          have h2 := hx2.2
          simp only [beq_iff_eq] at h2
          rw [hnp2] at h2
          have : predCnt n2i0 (out ++ processed) x = 1 := by
            omega
          omega

end Ds

namespace Ds

/-- Loop invariant of `static_order`'s ready-group loop, between
iterations: every count reflects the processed (`out`) prefix, the ready
list holds exactly the unblocked nodes, and the emitted prefix is a
partial topological order. -/
structure KInv (n2i0 : N2I) (n2i : N2I) (ready out : List String) : Prop where
  state : ∀ k, niGet n2i k = (niGet n2i0 k).map (fun i =>
    { i with npredecessors :=
      if k ∈ out then NODE_DONE else (predCnt n2i0 out k : Int) })
  ready_iff : ∀ k, k ∈ ready ↔
    (k ∈ n2i0.map Prod.fst ∧ k ∉ out ∧ predCnt n2i0 out k = 0)
  ready_nd : ready.Nodup
  out_nd : out.Nodup
  out_sub : ∀ k ∈ out, k ∈ n2i0.map Prod.fst
  topo : ∀ u v, v ∈ succList n2i0 u → v ∈ out →
    u ∈ out ∧ out.indexOf u < out.indexOf v

theorem kahn_loop_ok (n2i0 : N2I)
    (hnd0 : (n2i0.map Prod.fst).Nodup)
    (hsm : ∀ k s, s ∈ succList n2i0 k → s ∈ n2i0.map Prod.fst)
    (hsn : ∀ k, (succList n2i0 k).Nodup)
    (L : List String)
    (htopo : ∀ u v, v ∈ succList n2i0 u → L.indexOf u < L.indexOf v) :
    ∀ (f : Nat) (n2i : N2I) (ready out : List String) (c : Nat),
      KInv n2i0 n2i ready out →
      n2i0.length - out.length < f →
      ∃ out2, kahnLoop f n2i ready c c out = .out out2
        ∧ out2.Nodup ∧ (∀ k, k ∈ out2 ↔ k ∈ n2i0.map Prod.fst)
        ∧ (∀ u v, v ∈ succList n2i0 u → v ∈ out2 →
            u ∈ out2 ∧ out2.indexOf u < out2.indexOf v) := by
  intro f
  induction f with
  | zero =>
    intro n2i ready out c _ hm
    omega
  | succ f ih =>
    intro n2i ready out c hinv hm
    have houtcnt : ∀ v ∈ out, predCnt n2i0 out v = 0 := by
      intro v hv
      rw [predCnt_eq_zero_iff]
      intro u _ huo hsucc2
      exact huo ((hinv.topo u v hsucc2 hv).1)
    have hkeys : ∀ x, x ∈ n2i.map Prod.fst ↔ x ∈ n2i0.map Prod.fst := by
      intro x
      rw [← niGet_isSome_iff, ← niGet_isSome_iff, hinv.state x]
      cases niGet n2i0 x <;> simp
    cases ready with
    | nil =>
      refine ⟨out, ?_, hinv.out_nd, ?_, hinv.topo⟩
      · simp [kahnLoop]
      · intro k
        constructor
        · exact hinv.out_sub k
        · intro hk
          by_contra hko
          have hSne : (n2i0.map Prod.fst).filter
              (fun u => decide (u ∉ out)) ≠ [] := by
            intro hq
            have h2 : k ∈ (n2i0.map Prod.fst).filter
                (fun u => decide (u ∉ out)) := by
              rw [List.mem_filter]
              exact ⟨hk, by simpa using hko⟩
            rw [hq] at h2
            exact List.not_mem_nil _ h2
          obtain ⟨a, haS, hamin⟩ := exists_min_image_nat _
            (fun u => L.indexOf u) hSne
          rw [List.mem_filter] at haS
          have haK : a ∈ n2i0.map Prod.fst := haS.1
          have hao : a ∉ out := by simpa using haS.2
          have hcnt : predCnt n2i0 out a ≠ 0 := by
            intro h0
            have h2 := (hinv.ready_iff a).mpr ⟨haK, hao, h0⟩
            exact List.not_mem_nil _ h2
          obtain ⟨u, huK, huo, husucc⟩ := predCnt_ne_zero _ _ _ hcnt
          have h1 : L.indexOf u < L.indexOf a := htopo u a husucc
          have h2 : L.indexOf a ≤ L.indexOf u := hamin u (by
            rw [List.mem_filter]
            exact ⟨huK, by simpa using huo⟩)
          omega
    | cons r0 rrest =>
      have hgsub : ∀ v ∈ r0 :: rrest, v ∈ n2i0.map Prod.fst :=
        fun v hv => ((hinv.ready_iff v).mp hv).1
      have hgout : ∀ v ∈ r0 :: rrest, v ∉ out :=
        fun v hv => ((hinv.ready_iff v).mp hv).2.1
      have hgcnt : ∀ v ∈ r0 :: rrest, predCnt n2i0 out v = 0 :=
        fun v hv => ((hinv.ready_iff v).mp hv).2.2
      obtain ⟨n2im, hmrun, hmchar⟩ := markOut_spec (r0 :: rrest) n2i
        (fun v hv => (hkeys v).mpr (hgsub v hv))
      obtain ⟨n2i2, racc2, hfrun, hfstate, hfracc, hfnd⟩ :=
        done_fold n2i0 hnd0 hsm hsn out (r0 :: rrest) hgsub hgout hgcnt
          houtcnt hinv.ready_nd (r0 :: rrest) [] n2im [] rfl
          (by
            intro k
            rw [hmchar k, hinv.state k]
            cases niGet n2i0 k with
            | none => rfl
            | some i =>
              simp only [Option.map_some', Option.some.injEq]
              by_cases hkg : k ∈ r0 :: rrest
              · rw [if_pos hkg]
                have hko : k ∉ out := hgout k hkg
                rw [if_neg (by
                  push_neg
                  exact ⟨hko, List.not_mem_nil k⟩), if_pos hkg]
              · rw [if_neg hkg]
                by_cases hko : k ∈ out
                · rw [if_pos hko, if_pos (Or.inl hko)]
                · rw [if_neg hko,
                    if_neg (by push_neg; exact ⟨hko, List.not_mem_nil k⟩),
                    if_neg hkg, List.append_nil]
          )
          (by
            intro k
            simp only [List.not_mem_nil, false_iff]
            intro hq
            obtain ⟨h1, h2, h3, h4⟩ := hq
            rw [List.append_nil] at h4
            exact h3 ((hinv.ready_iff k).mpr ⟨h1, h2, h4⟩)
          )
          List.nodup_nil
      have hnd2 : (out ++ (r0 :: rrest)).Nodup := by
        rw [List.nodup_append]
        exact ⟨hinv.out_nd, hinv.ready_nd,
          fun x hx hx2 => hgout x hx2 hx⟩
      have hsub2 : ∀ x ∈ out ++ (r0 :: rrest), x ∈ n2i0.map Prod.fst := by
        intro x hx
        rcases List.mem_append.mp hx with hx | hx
        · exact hinv.out_sub x hx
        · exact hgsub x hx
      have hlen2 : (out ++ (r0 :: rrest)).length ≤ n2i0.length := by
        have h1 := List.toFinset_card_of_nodup hnd2
        have h2 : (out ++ (r0 :: rrest)).toFinset ⊆
            (n2i0.map Prod.fst).toFinset := by
          intro x hx
          rw [List.mem_toFinset] at hx ⊢
          exact hsub2 x hx
        have h3 := Finset.card_le_card h2
        have h4 := List.toFinset_card_le (n2i0.map Prod.fst)
        have h5 : (n2i0.map Prod.fst).length = n2i0.length :=
          List.length_map _ _
        omega
      obtain ⟨out2, hloop, hond2, hcov2, htopo2⟩ :=
        ih n2i2 racc2 (out ++ (r0 :: rrest)) (c + (r0 :: rrest).length)
          ⟨by
            intro k
            simp only [List.mem_append]
            exact hfstate k,
          by
            intro k
            rw [hfracc k]
            simp only [List.mem_append]
            constructor
            · rintro ⟨h1, h2, h3, h4⟩
              exact ⟨h1, by push_neg; exact ⟨h2, h3⟩, h4⟩
            · rintro ⟨h1, h2, h4⟩
              push_neg at h2
              exact ⟨h1, h2.1, h2.2, h4⟩,
          hfnd, hnd2, hsub2,
          by
            intro u v hsucc2 hv
            rcases List.mem_append.mp hv with hv | hv
            · obtain ⟨hu, hidx⟩ := hinv.topo u v hsucc2 hv
              refine ⟨List.mem_append_left _ hu, ?_⟩
              rw [List.indexOf_append_of_mem hu, List.indexOf_append_of_mem hv]
              exact hidx
            · have hu : u ∈ out := by
                by_contra huo
                exact (predCnt_eq_zero_iff _ _ _).mp (hgcnt v hv) u
                  (succ_src_mem _ _ _ hsucc2) huo hsucc2
              refine ⟨List.mem_append_left _ hu, ?_⟩
              rw [List.indexOf_append_of_mem hu,
                List.indexOf_append_of_not_mem (hgout v hv)]
              have h1 : out.indexOf u < out.length :=
                List.indexOf_lt_length.mpr hu
              omega⟩
          (by
            rw [List.length_append] at *
            simp only [List.length_cons] at *
            omega)
      refine ⟨out2, ?_, hond2, hcov2, htopo2⟩
      simp only [kahnLoop]
      rw [if_pos (by simp)]
      simp only [hmrun, hfrun]
      exact hloop

end Ds

namespace Ds

/-! ### `check_cycles` on an acyclic graph -/

/-- `L` is a topological order of the derived name graph `g`: every name
and every referenced predecessor occurs in `L`, and each predecessor
strictly precedes its dependent. -/
def isTopoOrderOn (g : List (String × List String)) (L : List String) : Bool :=
  g.all (fun e => decide (e.1 ∈ L) &&
    e.2.all (fun p => decide (p ∈ L) && decide (L.indexOf p < L.indexOf e.1)))

theorem mem_ready0 (n2i : N2I) (hnd : (n2i.map Prod.fst).Nodup) (k : String) :
    k ∈ ready0 n2i ↔ ∃ i, niGet n2i k = some i ∧ i.npredecessors = 0 := by
  unfold ready0
  rw [List.mem_map]
  constructor
  · rintro ⟨e, he, rfl⟩
    rw [List.mem_filter] at he
    refine ⟨e.2, mem_niGet _ _ _ hnd ?_, by simpa using he.2⟩
    exact he.1
  · rintro ⟨i, hget, hnp⟩
    refine ⟨(k, i), ?_, rfl⟩
    rw [List.mem_filter]
    exact ⟨niGet_mem _ _ _ hget, by simpa using hnp⟩

theorem ready0_nodup (n2i : N2I) (hnd : (n2i.map Prod.fst).Nodup) :
    (ready0 n2i).Nodup := by
  unfold ready0
  have hsub : ((n2i.filter (fun e => e.2.npredecessors == 0)).map
      Prod.fst).Sublist (n2i.map Prod.fst) :=
    (List.filter_sublist _).map Prod.fst
  exact hsub.nodup hnd

theorem keys_mono_foldl :
    ∀ (gsuf : List (String × List String)) (acc : N2I) (k : String),
      k ∈ acc.map Prod.fst →
      k ∈ (gsuf.foldl (fun a e => addNode a e.1 e.2) acc).map Prod.fst := by
  intro gsuf
  induction gsuf with
  | nil => intro acc k h; exact h
  | cons e rest ih =>
    intro acc k h
    rw [List.foldl_cons]
    exact ih _ k (keys_mono_addNode acc e.1 e.2 k h)

theorem buildN2i_names_mem (g : List (String × List String))
    (hpnds : ∀ e ∈ g, e.2.Nodup) :
    ∀ e ∈ g, e.1 ∈ (buildN2i g).map Prod.fst := by
  unfold buildN2i
  suffices h : ∀ (gsuf : List (String × List String)) (acc : N2I),
      (∀ e ∈ gsuf, e.2.Nodup) →
      ∀ e ∈ gsuf, e.1 ∈ (gsuf.foldl (fun a e => addNode a e.1 e.2) acc).map Prod.fst by
    exact h g [] hpnds
  intro gsuf
  induction gsuf with
  | nil =>
    intro acc _ e he
    simp at he
  | cons e0 rest ih =>
    intro acc hpnds2 e he
    rw [List.foldl_cons]
    rcases List.mem_cons.mp he with rfl | he2
    · apply keys_mono_foldl
      rw [mem_keys_addNode _ _ _ (hpnds2 e (List.mem_cons_self _ _))]
      exact Or.inr (Or.inl rfl)
    · exact ih _ (fun x hx => hpnds2 x (List.mem_cons_of_mem _ hx)) e he2

theorem check_cycles_acyclic (tasks : List (String × Task))
    (g : List (String × List String)) (L : List String)
    (hbg : buildGraph tasks = .ok g)
    (htopoL : isTopoOrderOn g L = true) :
    ∃ out, check_cycles tasks = .order out ∧ out.Nodup
      ∧ (∀ k, k ∈ out ↔ k ∈ (buildN2i g).map Prod.fst)
      ∧ isTopoOrderOn g out = true := by
  obtain ⟨hgnd, hgpnd⟩ := buildGraph_wf tasks g hbg
  obtain ⟨hb, hfwd⟩ := buildN2i_wf g hgnd hgpnd
  have htopo : ∀ u v, v ∈ succList (buildN2i g) u →
      L.indexOf u < L.indexOf v := by
    intro u v hsucc
    obtain ⟨preds, hmem, hup⟩ := hb.bwd u v hsucc
    have h1 := (List.all_eq_true.mp htopoL) (v, preds) hmem
    simp only [Bool.and_eq_true, decide_eq_true_eq, List.all_eq_true] at h1
    have h3 := h1.2 u hup
    simp only [Bool.and_eq_true, decide_eq_true_eq] at h3
    exact h3.2
  obtain ⟨seen, hfc⟩ := find_cycle_clear (buildN2i g) L hb.succ_mem htopo
  have hinv0 : KInv (buildN2i g) (buildN2i g) (ready0 (buildN2i g)) [] := by
    refine ⟨?_, ?_, ready0_nodup _ hb.nodup, List.nodup_nil, by simp, by simp⟩
    · intro k
      cases hg : niGet (buildN2i g) k with
      | none => rfl
      | some i =>
        simp only [Option.map_some', Option.some.injEq]
        rw [if_neg (List.not_mem_nil k)]
        have h2 := hb.npred_eq k
        unfold npredOf at h2
        rw [hg] at h2
        obtain ⟨a, b⟩ := i
        simp only [NodeInfo.mk.injEq, and_true]
        exact h2
    · intro k
      rw [mem_ready0 _ hb.nodup k]
      constructor
      · rintro ⟨i, hget, hnp⟩
        refine ⟨List.mem_map.mpr ⟨(k, i), niGet_mem _ _ _ hget, rfl⟩,
          List.not_mem_nil k, ?_⟩
        have h2 := hb.npred_eq k
        unfold npredOf at h2
        rw [hget] at h2
        have h2b : i.npredecessors = (predCnt (buildN2i g) [] k : Int) := h2
        rw [hnp] at h2b
        have h3 : predCnt (buildN2i g) [] k = 0 := by omega
        exact h3
      · rintro ⟨hk, _, hcnt⟩
        have hk2 : (niGet (buildN2i g) k).isSome = true :=
          (niGet_isSome_iff _ _).mpr hk
        cases hget : niGet (buildN2i g) k with
        | none => rw [hget] at hk2; exact absurd hk2 (by simp)
        | some i =>
          refine ⟨i, rfl, ?_⟩
          have h2 := hb.npred_eq k
          unfold npredOf at h2
          rw [hget] at h2
          have h2b : i.npredecessors = (predCnt (buildN2i g) [] k : Int) := h2
          rw [h2b, hcnt]
          rfl
  obtain ⟨out2, hloop, hond, hcov, htopo2⟩ := kahn_loop_ok (buildN2i g)
    hb.nodup hb.succ_mem hb.succ_nodup L htopo
    ((buildN2i g).length + 1) (buildN2i g) (ready0 (buildN2i g)) [] 0
    hinv0 (by simp)
  refine ⟨out2, ?_, hond, hcov, ?_⟩
  · unfold check_cycles
    rw [hbg]
    show (match find_cycle (buildN2i g) with
      | FcRes.fuelOut => ChkRes.fuelOut
      | FcRes.cyc c => ChkRes.cycleErr c
      | FcRes.clear _ =>
        match kahnLoop ((buildN2i g).length + 1) (buildN2i g)
            (ready0 (buildN2i g)) 0 0 [] with
        | KRes.out l => ChkRes.order l
        | KRes.err e => ChkRes.gErr e
        | KRes.fuelOut => ChkRes.fuelOut) = ChkRes.order out2
    rw [hfc]
    show (match kahnLoop ((buildN2i g).length + 1) (buildN2i g)
        (ready0 (buildN2i g)) 0 0 [] with
      | KRes.out l => ChkRes.order l
      | KRes.err e => ChkRes.gErr e
      | KRes.fuelOut => ChkRes.fuelOut) = ChkRes.order out2
    rw [hloop]
  · rw [isTopoOrderOn, List.all_eq_true]
    intro e he
    simp only [Bool.and_eq_true, decide_eq_true_eq, List.all_eq_true]
    have hname : e.1 ∈ out2 :=
      (hcov e.1).mpr (buildN2i_names_mem g hgpnd e he)
    refine ⟨hname, ?_⟩
    intro p hp
    have hedge : e.1 ∈ succList (buildN2i g) p := hfwd e he p hp
    obtain ⟨hpo, hpi⟩ := htopo2 p e.1 hedge hname
    exact ⟨hpo, hpi⟩

/-- Whether `l1` is a rotation of `l2`. -/
def isRotationOf (l1 l2 : List String) : Bool :=
  (List.range (l2.length + 1)).any (fun k => l2.rotate k == l1)

/-- C3: for the two-task mapping where `a`'s only composite dependency
references name `b` and `b`'s only composite dependency references name
`a`, `check_cycles` raises `CycleError` carrying `["a", "b", "a"]` (the
first node repeated at the end, as `graphlib` documents — not a rotation
of `["a", "b"]`); and for every task mapping whose derived name graph
admits a topological order, `check_cycles` returns without raising a
duplicate-free topological order of that graph covering exactly the
graph's nodes. -/
theorem C3_check_cycles :
    check_cycles [("a", c3a), ("b", c3b)] = .cycleErr ["a", "b", "a"]
    ∧ (∀ (tasks : List (String × Task)) (g : List (String × List String))
        (L : List String), buildGraph tasks = .ok g →
        isTopoOrderOn g L = true →
        ∃ out, check_cycles tasks = .order out ∧ out.Nodup
          ∧ (∀ k, k ∈ out ↔ k ∈ (buildN2i g).map Prod.fst)
          ∧ isTopoOrderOn g out = true) :=
  ⟨by decide, check_cycles_acyclic⟩

/-- Counterexample to C3 as stated: the raised cycle value is
`["a", "b", "a"]`, which is not a rotation of `["a", "b"]` (the
endpoints repeat). -/
theorem C3_counterexample :
    check_cycles [("a", c3a), ("b", c3b)] = .cycleErr ["a", "b", "a"]
      ∧ isRotationOf ["a", "b", "a"] ["a", "b"] = false :=
  ⟨by decide, by decide⟩

/-- Witness for C3 at a concrete acyclic input. -/
theorem C3_check_cycles_witness :
    ∃ out, check_cycles [("a", c3a), ("b", c3b0)] = .order out ∧ out.Nodup
      ∧ (∀ k, k ∈ out ↔ k ∈ (buildN2i [("a", ["b"]), ("b", [])]).map Prod.fst)
      ∧ isTopoOrderOn [("a", ["b"]), ("b", [])] out = true :=
  C3_check_cycles.2 [("a", c3a), ("b", c3b0)] [("a", ["b"]), ("b", [])]
    ["b", "a"] (by decide) (by decide)

end Ds
